import Mathlib

/-!
# Skynet dispatch substrate: message queues and the timing wheel

A shallow embedding of `skynet-src/skynet_mq.c` and `skynet-src/skynet_timer.c`.

* C `int` values are integers; every arithmetic result that is stored in an
  `int` goes through `int32` (two's-complement wrap-around).
* C `uint32_t` and `uint64_t` values are naturals reduced modulo `2 ^ 32` and
  `2 ^ 64`.
* The spinlocks are no-ops: the embedding describes one thread at a time.
* A failed `assert`, and a loop that does not terminate, make a function
  return `none`.
-/

namespace Skynet

/-! ## Machine integers -/

/-- The value an `int` holds after storing the mathematical result `x`. -/
def int32 (x : Int) : Int := (x + 2147483648) % 4294967296 - 2147483648

/-- The value a `uint32_t` holds after storing the mathematical result `x`. -/
def uint32 (x : Nat) : Nat := x % 4294967296

/-- Conversion of an `int` to `uint32_t`. -/
def int_to_uint32 (x : Int) : Nat := (x % 4294967296).toNat

/-! ## skynet_mq.c -/

def DEFAULT_QUEUE_SIZE : Int := 64
def MAX_GLOBAL_MQ : Int := 0x10000
def MQ_IN_GLOBAL : Int := 1
def MQ_OVERLOAD : Int := 1024

/-- Record `struct skynet_message` (skynet_mq.h); `data = 0` is the NULL pointer. -/
structure skynet_message where
  source : Nat
  session : Int
  data : Nat
  sz : Nat
deriving DecidableEq, Inhabited

/-- Record `struct message_queue`. `queue` is the ring buffer, indexed by a C
`int`; `next` is the link of the global queue (`none` is NULL, `some p` is the
address of another mailbox). -/
structure message_queue where
  handle : Nat
  cap : Int
  head : Int
  tail : Int
  release : Int
  in_global : Int
  overload : Int
  overload_threshold : Int
  queue : Int → skynet_message
  next : Option Nat

/-- Store `m` in slot `i` of a ring buffer. -/
def ring_set (r : Int → skynet_message) (i : Int) (m : skynet_message) : Int → skynet_message :=
  fun j => if j = i then m else r j

/-- Function `skynet_mq_create`. Freshly allocated ring slots hold a
placeholder message; no operation reads a slot before writing it. -/
def skynet_mq_create (handle : Nat) : message_queue :=
  { handle := handle
    cap := DEFAULT_QUEUE_SIZE
    head := 0
    tail := 0
    in_global := MQ_IN_GLOBAL
    release := 0
    overload := 0
    overload_threshold := MQ_OVERLOAD
    queue := fun _ => default
    next := none }

/-- Function `skynet_mq_handle`. -/
def skynet_mq_handle (q : message_queue) : Nat := q.handle

/-- Function `skynet_mq_length`. -/
def skynet_mq_length (q : message_queue) : Int :=
  if q.head ≤ q.tail then int32 (q.tail - q.head)
  else int32 (int32 (q.tail + q.cap) - q.head)

/-- Function `skynet_mq_overload`: the returned value and the mailbox afterwards. -/
def skynet_mq_overload (q : message_queue) : Int × message_queue :=
  if q.overload ≠ 0 then (q.overload, { q with overload := 0 })
  else (0, q)

/-- The `while (length > q->overload_threshold)` loop of `skynet_mq_pop`;
`none` when the fuel runs out. -/
def overload_loop : Nat → Int → message_queue → Option message_queue
  | 0, _, _ => none
  | fuel + 1, length, q =>
    if length > q.overload_threshold then
      overload_loop fuel length
        { q with overload := length, overload_threshold := int32 (q.overload_threshold * 2) }
    else some q

/-- Function `skynet_mq_pop`: the return value `ret`, the message written through
the out parameter (`none` when it is not written), and the mailbox afterwards.
The result is `none` when the threshold loop does not terminate. -/
def skynet_mq_pop (q : message_queue) : Option (Int × Option skynet_message × message_queue) :=
  let r : Option (Int × Option skynet_message × message_queue) :=
    if q.head ≠ q.tail then
      let message := q.queue q.head
      let q1 := { q with head := int32 (q.head + 1) }
      let head := q1.head
      let tail := q1.tail
      let cap := q1.cap
      let q2 := if head ≥ cap then { q1 with head := 0 } else q1
      let head := if head ≥ cap then 0 else head
      let length := int32 (tail - head)
      let length := if length < 0 then int32 (length + cap) else length
      (overload_loop 64 length q2).map (fun q3 => (0, some message, q3))
    else
      some (1, none, { q with overload_threshold := MQ_OVERLOAD })
  r.map (fun x => (x.1, x.2.1, if x.1 ≠ 0 then { x.2.2 with in_global := 0 } else x.2.2))

/-- The copy loop of `expand_queue` after its first `n` iterations. -/
def expand_copy (q : message_queue) : Nat → (Int → skynet_message) → (Int → skynet_message)
  | 0, new_queue => new_queue
  | n + 1, new_queue =>
    ring_set (expand_copy q n new_queue) (n : Int) (q.queue (Int.tmod (int32 (q.head + n)) q.cap))

/-- Function `expand_queue`. -/
def expand_queue (q : message_queue) : message_queue :=
  let new_queue := expand_copy q q.cap.toNat (fun _ => default)
  { q with head := 0, tail := q.cap, cap := int32 (q.cap * 2), queue := new_queue }

/-- Function `skynet_mq_push`, the part that acts on the mailbox itself: the
mailbox afterwards, and whether `skynet_globalmq_push(q)` is called. -/
def skynet_mq_push (q : message_queue) (message : skynet_message) : message_queue × Bool :=
  let q1 := { q with queue := ring_set q.queue q.tail message }
  let q2 := { q1 with tail := int32 (q1.tail + 1) }
  let q3 := if q2.tail ≥ q2.cap then { q2 with tail := 0 } else q2
  let q4 := if q3.head = q3.tail then expand_queue q3 else q3
  if q4.in_global = 0 then ({ q4 with in_global := MQ_IN_GLOBAL }, true)
  else (q4, false)

end Skynet

namespace Skynet

/-! ## skynet_mq.c: the global queue and the mailboxes in memory -/

/-- Record `struct global_queue`: pointers to the first and last linked mailbox. -/
structure global_queue where
  head : Option Nat
  tail : Option Nat
deriving DecidableEq

/-- The global queue `Q` together with the memory that holds the mailboxes:
`mem p` is the mailbox allocated at address `p`, `none` when nothing is
allocated there. -/
structure mq_state where
  Q : global_queue
  mem : Nat → Option message_queue

/-- Write a mailbox (or its absence) at address `p`. -/
def mem_set (mem : Nat → Option message_queue) (p : Nat) (q : Option message_queue) :
    Nat → Option message_queue :=
  fun a => if a = p then q else mem a

/-- Function `skynet_mq_init`: the zeroed global queue, no mailbox allocated. -/
def skynet_mq_init : mq_state :=
  { Q := { head := none, tail := none }, mem := fun _ => none }

/-- Function `skynet_globalmq_push`; `none` when `assert(queue->next == NULL)`
fails or a pointer does not point to a mailbox. -/
def skynet_globalmq_push (s : mq_state) (queue : Nat) : Option mq_state :=
  match s.mem queue with
  | none => none
  | some mq =>
    if mq.next ≠ none then none
    else
      match s.Q.tail with
      | some t =>
        match s.mem t with
        | none => none
        | some tq =>
          some { Q := { head := s.Q.head, tail := some queue },
                 mem := mem_set s.mem t (some { tq with next := some queue }) }
      | none => some { Q := { head := some queue, tail := some queue }, mem := s.mem }

/-- Function `skynet_globalmq_pop`: the returned pointer (`none` is NULL) and
the state afterwards; `none` when `assert(mq == q->tail)` fails or a pointer
does not point to a mailbox. -/
def skynet_globalmq_pop (s : mq_state) : Option (Option Nat × mq_state) :=
  match s.Q.head with
  | none => some (none, s)
  | some p =>
    match s.mem p with
    | none => none
    | some mq =>
      if mq.next = none then
        if s.Q.tail ≠ some p then none
        else
          some (some p,
            { Q := { head := none, tail := none },
              mem := mem_set s.mem p (some { mq with next := none }) })
      else
        some (some p,
          { Q := { head := mq.next, tail := s.Q.tail },
            mem := mem_set s.mem p (some { mq with next := none }) })

/-- Function `skynet_mq_create` with the allocation: `p` is the address that
`skynet_malloc` returns, which is not the address of an allocated mailbox. -/
def mq_create_at (s : mq_state) (p : Nat) (handle : Nat) : Option mq_state :=
  match s.mem p with
  | some _ => none
  | none => some { s with mem := mem_set s.mem p (some (skynet_mq_create handle)) }

/-- Function `skynet_mq_push` on the mailbox at address `p`, the call of
`skynet_globalmq_push` included. -/
def mq_push_at (s : mq_state) (p : Nat) (message : skynet_message) : Option mq_state :=
  match s.mem p with
  | none => none
  | some q =>
    let r := skynet_mq_push q message
    let s1 : mq_state := { s with mem := mem_set s.mem p (some r.1) }
    if r.2 then skynet_globalmq_push s1 p else some s1

/-- Function `skynet_mq_pop` on the mailbox at address `p`. -/
def mq_pop_at (s : mq_state) (p : Nat) : Option ((Int × Option skynet_message) × mq_state) :=
  match s.mem p with
  | none => none
  | some q =>
    (skynet_mq_pop q).map
      (fun r => ((r.1, r.2.1), { s with mem := mem_set s.mem p (some r.2.2) }))

/-- Function `skynet_mq_mark_release` on the mailbox at address `p`; `none`
when `assert(q->release == 0)` fails. -/
def skynet_mq_mark_release (s : mq_state) (p : Nat) : Option mq_state :=
  match s.mem p with
  | none => none
  | some q =>
    if q.release ≠ 0 then none
    else
      let q1 := { q with release := 1 }
      let s1 : mq_state := { s with mem := mem_set s.mem p (some q1) }
      if q1.in_global ≠ MQ_IN_GLOBAL then skynet_globalmq_push s1 p else some s1

/-- The `while(!skynet_mq_pop(q, &msg)) drop_func(&msg, ud)` loop of
`_drop_queue`: the mailbox afterwards and the messages handed to `drop_func`,
in call order; `none` when the fuel runs out or a pop does not return. -/
def drop_loop : Nat → message_queue → Option (message_queue × List skynet_message)
  | 0, _ => none
  | fuel + 1, q =>
    match skynet_mq_pop q with
    | none => none
    | some r =>
      if r.1 = 0 then
        match r.2.1 with
        | none => none
        | some msg => (drop_loop fuel r.2.2).map (fun x => (x.1, msg :: x.2))
      else some (r.2.2, [])

/-- Function `_release` on the mailbox at address `p`: `assert(q->next == NULL)`,
then the mailbox is freed. -/
def _release (s : mq_state) (p : Nat) : Option mq_state :=
  match s.mem p with
  | none => none
  | some q =>
    if q.next ≠ none then none
    else some { s with mem := mem_set s.mem p none }

/-- Function `_drop_queue` on the mailbox at address `p`: the loop, then
`_release`. The fuel covers every ring an `int` can index. -/
def _drop_queue (s : mq_state) (p : Nat) : Option (mq_state × List skynet_message) :=
  match s.mem p with
  | none => none
  | some q =>
    match drop_loop 4294967296 q with
    | none => none
    | some r =>
      (_release { s with mem := mem_set s.mem p (some r.1) } p).map (fun s1 => (s1, r.2))

/-- Function `skynet_mq_release` on the mailbox at address `p`: the state
afterwards and the messages handed to `drop_func`. -/
def skynet_mq_release (s : mq_state) (p : Nat) : Option (mq_state × List skynet_message) :=
  match s.mem p with
  | none => none
  | some q =>
    if q.release ≠ 0 then _drop_queue s p
    else (skynet_globalmq_push s p).map (fun s1 => (s1, []))

/-- The first `n` mailboxes reached from pointer `h` along the `next` links. -/
def ready_walk (mem : Nat → Option message_queue) : Nat → Option Nat → List Nat
  | 0, _ => []
  | _ + 1, none => []
  | n + 1, some p =>
    p :: (match mem p with
          | none => []
          | some q => ready_walk mem n q.next)

/-- The global queue holds exactly the mailboxes `l`, in this order: `head`
points to the first, each `next` to the following one, the last `next` is
NULL and `tail` points to the last. -/
def ready_chain (mem : Nat → Option message_queue) : Option Nat → List Nat → Prop
  | h, [] => h = none
  | h, p :: l => h = some p ∧ ∃ q, mem p = some q ∧ ready_chain mem q.next l

/-- Representation of the global queue by the list `l` of linked mailboxes. -/
def ready_list (s : mq_state) (l : List Nat) : Prop :=
  ready_chain s.mem s.Q.head l ∧ s.Q.tail = l.getLast?

/-- One call of a public MQ operation. -/
inductive mq_op where
  | create (p : Nat) (handle : Nat)
  | push (p : Nat) (m : skynet_message)
  | pop (p : Nat)
  | globalmq_push (p : Nat)
  | globalmq_pop
  | mark_release (p : Nat)
  | release (p : Nat)

/-- The state after one call; `none` when the call aborts on an `assert`,
uses a pointer to no mailbox, or does not return. -/
def mq_apply (s : mq_state) : mq_op → Option mq_state
  | mq_op.create p handle => mq_create_at s p handle
  | mq_op.push p m => mq_push_at s p m
  | mq_op.pop p => (mq_pop_at s p).map (fun r => r.2)
  | mq_op.globalmq_push p => skynet_globalmq_push s p
  | mq_op.globalmq_pop => (skynet_globalmq_pop s).map (fun r => r.2)
  | mq_op.mark_release p => skynet_mq_mark_release s p
  | mq_op.release p => (skynet_mq_release s p).map (fun r => r.1)

/-- The state after a sequence of calls, starting from `s`. -/
def mq_steps : mq_state → List mq_op → Option mq_state
  | s, [] => some s
  | s, op :: ops =>
    match mq_apply s op with
    | none => none
    | some s1 => mq_steps s1 ops

/-- The calling discipline of the specification, relative to the list `l` of
linked mailboxes: a mailbox marked for release receives no more messages;
`skynet_mq_pop` and `skynet_mq_release` are called by the worker that holds
the mailbox, which is then not linked; a holder links a mailbox itself only
while its `in_global` is still 1. -/
def mq_op_ok (s : mq_state) (l : List Nat) : mq_op → Prop
  | mq_op.create _ _ => True
  | mq_op.push p _ => ∀ q, s.mem p = some q → q.release = 0
  | mq_op.pop p => p ∉ l
  | mq_op.globalmq_push p => p ∉ l ∧ ∀ q, s.mem p = some q → q.in_global = 1
  | mq_op.globalmq_pop => True
  | mq_op.mark_release _ => True
  | mq_op.release p => p ∉ l ∧ ∀ q, s.mem p = some q → q.release = 0 → q.in_global = 1

/-- States reached from `skynet_mq_init` by calls that follow `mq_op_ok`. -/
inductive mq_reach : mq_state → Prop where
  | init : mq_reach skynet_mq_init
  | step (s s1 : mq_state) (l : List Nat) (op : mq_op) :
      mq_reach s → ready_list s l → mq_op_ok s l op → mq_apply s op = some s1 → mq_reach s1

/-- Invariant of the global queue: it holds the mailboxes `l`, none of them
twice, and each linked mailbox has `in_global = 1` or is marked for release. -/
def ready_inv (s : mq_state) (l : List Nat) : Prop :=
  ready_list s l ∧ l.Nodup ∧
    ∀ p ∈ l, ∃ q, s.mem p = some q ∧ (q.in_global = 1 ∨ q.release ≠ 0)

end Skynet

namespace Skynet

/-! ## skynet_timer.c -/

def TIME_NEAR_SHIFT : Nat := 8
def TIME_NEAR : Nat := 1 <<< TIME_NEAR_SHIFT
def TIME_LEVEL_SHIFT : Nat := 6
def TIME_LEVEL : Nat := 1 <<< TIME_LEVEL_SHIFT
def TIME_NEAR_MASK : Nat := TIME_NEAR - 1
def TIME_LEVEL_MASK : Nat := TIME_LEVEL - 1

/-- Record `struct timer_event`. -/
structure timer_event where
  handle : Nat
  session : Int
deriving DecidableEq, Inhabited

/-- Record `struct timer_node` together with the event stored behind it. The
`next` pointer is the position of the node in its list. -/
structure timer_node where
  expire : Nat
  event : timer_event
deriving DecidableEq, Inhabited

/-- Record `struct link_list`: the nodes from `head.next` to `tail`. -/
abbrev link_list := List timer_node

/-- Record `struct timer`: `near[TIME_NEAR]`, `t[4][TIME_LEVEL]` and the clock fields. -/
structure timer where
  near : Nat → link_list
  t : Nat → Nat → link_list
  time : Nat
  starttime : Nat
  current : Nat
  current_point : Nat

/-- Assignment `near[i] = l`. -/
def near_set (near : Nat → link_list) (i : Nat) (l : link_list) : Nat → link_list :=
  fun a => if a = i then l else near a

/-- Assignment `t[i][j] = l`. -/
def t_set (t : Nat → Nat → link_list) (i j : Nat) (l : link_list) : Nat → Nat → link_list :=
  fun a b => if a = i ∧ b = j then l else t a b

/-- Function `link_clear`: the detached nodes and the emptied list. -/
def link_clear (list : link_list) : List timer_node × link_list := (list, [])

/-- Function `link`: append at the tail. -/
def link (list : link_list) (node : timer_node) : link_list := list ++ [node]

/-- The `for (i=0;i<3;i++)` loop of `add_node` with `n` iterations left: the
level `i` at which it stops. `mask` is a `uint32_t`. -/
def add_node_loop : Nat → Nat → Nat → Nat → Nat → Nat
  | 0, i, _, _, _ => i
  | n + 1, i, mask, time, current_time =>
    if (time ||| (mask - 1)) = (current_time ||| (mask - 1)) then i
    else add_node_loop n (i + 1) (uint32 (mask <<< TIME_LEVEL_SHIFT)) time current_time

/-- Function `add_node`. -/
def add_node (T : timer) (node : timer_node) : timer :=
  let time := node.expire
  let current_time := T.time
  if (time ||| TIME_NEAR_MASK) = (current_time ||| TIME_NEAR_MASK) then
    { T with near := near_set T.near (time &&& TIME_NEAR_MASK)
                (link (T.near (time &&& TIME_NEAR_MASK)) node) }
  else
    let i := add_node_loop 3 0 (TIME_NEAR <<< TIME_LEVEL_SHIFT) time current_time
    let idx := (time >>> (TIME_NEAR_SHIFT + i * TIME_LEVEL_SHIFT)) &&& TIME_LEVEL_MASK
    { T with t := t_set T.t i idx (link (T.t i idx) node) }

/-- Function `timer_add`: `arg` is the event copied behind the node, `time`
the `int` delay; `expire` is computed in `uint32_t`. -/
def timer_add (T : timer) (arg : timer_event) (time : Int) : timer :=
  let node : timer_node := { expire := uint32 (int_to_uint32 time + T.time), event := arg }
  add_node T node

/-- Function `move_list`. -/
def move_list (T : timer) (level idx : Nat) : timer :=
  let current := (link_clear (T.t level idx)).1
  let T1 := { T with t := t_set T.t level idx (link_clear (T.t level idx)).2 }
  current.foldl add_node T1

/-- The `while ((ct & (mask-1))==0)` loop of `timer_shift`; `none` when the
fuel runs out. For a non-zero `uint32_t` tick the loop ends within four
rounds (theorem `timer_shift_loop_eq`), so the `int` `mask` stays at most
`2 ^ 26`. -/
def timer_shift_loop : Nat → timer → Nat → Nat → Nat → Nat → Option timer
  | 0, _, _, _, _, _ => none
  | fuel + 1, T, ct, mask, time, i =>
    if ct &&& (mask - 1) = 0 then
      let idx := time &&& TIME_LEVEL_MASK
      if idx ≠ 0 then some (move_list T i idx)
      else timer_shift_loop fuel T ct (mask <<< TIME_LEVEL_SHIFT) (time >>> TIME_LEVEL_SHIFT) (i + 1)
    else some T

/-- Function `timer_shift`. -/
def timer_shift (T : timer) : Option timer :=
  let mask := TIME_NEAR
  let ct := uint32 (T.time + 1)
  let T1 := { T with time := ct }
  if ct = 0 then some (move_list T1 3 0)
  else timer_shift_loop 32 T1 ct mask (ct >>> TIME_NEAR_SHIFT) 0

/-- What `skynet_timer.c` uses from the rest of the runtime: the constants
`PTYPE_RESPONSE` (skynet.h) and `MESSAGE_TYPE_SHIFT` (skynet_mq.h), and
`skynet_context_push` (skynet_server.c), which acts on a state `σ` of the
service registry and returns 0 on success, -1 for a dead handle. -/
structure runtime (σ : Type) where
  PTYPE_RESPONSE : Nat
  MESSAGE_TYPE_SHIFT : Nat
  skynet_context_push : σ → Nat → skynet_message → Int × σ

/-- The message built in `dispatch_list` and in `skynet_timeout`. -/
def response_message {σ : Type} (R : runtime σ) (session : Int) : skynet_message :=
  { source := 0, session := session, data := 0,
    sz := R.PTYPE_RESPONSE <<< R.MESSAGE_TYPE_SHIFT }

/-- The body of the `do ... while (current)` loop of `dispatch_list`, run over
the nodes of the detached list in order. -/
def dispatch_nodes {σ : Type} (R : runtime σ) : List timer_node → σ → σ
  | [], w => w
  | current :: rest, w =>
    dispatch_nodes R rest
      (R.skynet_context_push w current.event.handle (response_message R current.event.session)).2

/-- Function `dispatch_list`; `none` on a NULL list, which the loop body
would dereference. -/
def dispatch_list {σ : Type} (R : runtime σ) (current : List timer_node) (w : σ) : Option σ :=
  match current with
  | [] => none
  | _ :: _ => some (dispatch_nodes R current w)

/-- The `while (T->near[idx].head.next)` loop of `timer_execute`: the wheel,
the registry state and, appended to `handed`, the nodes given to
`dispatch_list`; `none` when the fuel runs out. With one thread the bucket is
empty after the first round, so the second test ends the loop. -/
def timer_execute_loop {σ : Type} (R : runtime σ) (idx : Nat) :
    Nat → timer → σ → List timer_node → Option (timer × σ × List timer_node)
  | 0, _, _, _ => none
  | fuel + 1, T, w, handed =>
    if T.near idx ≠ [] then
      let current := (link_clear (T.near idx)).1
      let T1 := { T with near := near_set T.near idx (link_clear (T.near idx)).2 }
      match dispatch_list R current w with
      | none => none
      | some w1 => timer_execute_loop R idx fuel T1 w1 (handed ++ current)
    else some (T, w, handed)

/-- Function `timer_execute`. -/
def timer_execute {σ : Type} (R : runtime σ) (T : timer) (w : σ) (handed : List timer_node) :
    Option (timer × σ × List timer_node) :=
  let idx := T.time &&& TIME_NEAR_MASK
  timer_execute_loop R idx 4 T w handed

/-- Function `timer_update`: the wheel, the registry state and the nodes given
to `dispatch_list` during the call, in order. -/
def timer_update {σ : Type} (R : runtime σ) (T : timer) (w : σ) :
    Option (timer × σ × List timer_node) :=
  match timer_execute R T w [] with
  | none => none
  | some r1 =>
    match timer_shift r1.1 with
    | none => none
    | some T2 => timer_execute R T2 r1.2.1 r1.2.2

/-- Function `timer_create_timer` (the `memset` zeroes the clock fields). -/
def timer_create_timer : timer :=
  { near := fun _ => (link_clear []).2
    t := fun _ _ => (link_clear []).2
    time := 0
    starttime := 0
    current := 0
    current_point := 0 }

/-- Function `skynet_timeout` on the wheel `TI`: the return value, the wheel
and the registry state afterwards. -/
def skynet_timeout {σ : Type} (R : runtime σ) (TI : timer) (w : σ)
    (handle : Nat) (time : Int) (session : Int) : Int × timer × σ :=
  if time ≤ 0 then
    let message := response_message R session
    let r := R.skynet_context_push w handle message
    if r.1 ≠ 0 then (-1, TI, r.2)
    else (session, TI, r.2)
  else
    let event : timer_event := { handle := handle, session := session }
    (session, timer_add TI event time, w)

end Skynet

namespace Skynet

/-! ## Vocabulary for the timing-wheel theorems -/

/-- Name of a bucket of the wheel: `near[i]` or `t[i][j]`. -/
inductive bucket_id where
  | near (i : Nat)
  | level (i j : Nat)
deriving DecidableEq

/-- The list stored in a bucket. -/
def bucket (T : timer) : bucket_id → link_list
  | bucket_id.near i => T.near i
  | bucket_id.level i j => T.t i j

/-- The bucket `add_node` chooses for expiry `e` at tick `t`, in arithmetic
form: `near[e mod 256]` when `e` and `t` agree above the low 8 bits,
otherwise the lowest level whose higher slices all agree. Theorem
`add_node_eq` shows that `add_node` writes exactly this bucket. -/
def place (e t : Nat) : bucket_id :=
  if e / 256 = t / 256 then bucket_id.near (e % 256)
  else if e / 16384 = t / 16384 then bucket_id.level 0 (e / 256 % 64)
  else if e / 1048576 = t / 1048576 then bucket_id.level 1 (e / 16384 % 64)
  else if e / 67108864 = t / 67108864 then bucket_id.level 2 (e / 1048576 % 64)
  else bucket_id.level 3 (e / 67108864 % 64)

/-- The bucket that `timer_shift` re-inserts when the tick becomes `ct`, if any,
in arithmetic form. Theorem `timer_shift_eq` shows that `timer_shift` always
returns and re-inserts exactly this bucket. -/
def cascade (ct : Nat) : Option bucket_id :=
  if ct = 0 then some (bucket_id.level 3 0)
  else if ct % 256 ≠ 0 then none
  else if ct / 256 % 64 ≠ 0 then some (bucket_id.level 0 (ct / 256 % 64))
  else if ct / 16384 % 64 ≠ 0 then some (bucket_id.level 1 (ct / 16384 % 64))
  else if ct / 1048576 % 64 ≠ 0 then some (bucket_id.level 2 (ct / 1048576 % 64))
  else some (bucket_id.level 3 (ct / 67108864 % 64))

/-- Re-insertion of the bucket chosen by `cascade`. -/
def cascade_apply (T : timer) : Option bucket_id → timer
  | some (bucket_id.level i j) => move_list T i j
  | _ => T

/-- Replace the list stored in a bucket. -/
def bucket_set (T : timer) (b : bucket_id) (l : link_list) : timer :=
  match b with
  | bucket_id.near i => { T with near := near_set T.near i l }
  | bucket_id.level i j => { T with t := t_set T.t i j l }

/-- The wheel part of `timer_update`: the wheel afterwards and the nodes given
to `dispatch_list`, first those of the bucket of the old tick, then those of
the bucket of the new tick. Theorem `timer_update_eq` shows that
`timer_update` always returns and yields exactly this wheel and these nodes. -/
def wheel_step (T : timer) : timer × List timer_node :=
  let T1 := bucket_set T (bucket_id.near (T.time % 256)) []
  let ct := (T.time + 1) % 4294967296
  let T2 := cascade_apply { T1 with time := ct } (cascade ct)
  (bucket_set T2 (bucket_id.near (ct % 256)) [],
    T.near (T.time % 256) ++ T2.near (ct % 256))

/-- One call on the wheel: `timer_add` or `timer_update`. -/
inductive timer_op where
  | add (arg : timer_event) (time : Int)
  | update

/-- Run calls on the wheel in order: the wheel, the registry state, and for
each `timer_update` the nodes it gave to `dispatch_list`. -/
def timer_run {σ : Type} (R : runtime σ) :
    timer → σ → List timer_op → Option (timer × σ × List (List timer_node))
  | T, w, [] => some (T, w, [])
  | T, w, timer_op.add arg time :: ops => timer_run R (timer_add T arg time) w ops
  | T, w, timer_op.update :: ops =>
    match timer_update R T w with
    | none => none
    | some r => (timer_run R r.1 r.2.1 ops).map (fun x => (x.1, x.2.1, r.2.2 :: x.2.2))

/-- Ticks left until expiry `e` when the tick is `t` (both `uint32_t`). -/
def ticks_left (e t : Nat) : Nat := (e + 4294967296 - t) % 4294967296

/-- Where a node with expiry `e` that sits in bucket `l` at tick `t` is after
one `timer_update`; `none` when the update gives it to `dispatch_list`. -/
def next_bucket (e t : Nat) (l : bucket_id) : Option bucket_id :=
  if l = bucket_id.near (t % 256) then none
  else
    let ct := (t + 1) % 4294967296
    let l2 := if cascade ct = some l then place e ct else l
    if l2 = bucket_id.near (ct % 256) then none else some l2

/-- Wheel `B` is at the same tick as wheel `A` and holds, bucket by bucket, the
occurrences of node `x` that `A` holds, plus one more in bucket `o` (no more
when `o` is `none`). -/
def one_more (x : timer_node) (o : Option bucket_id) (A B : timer) : Prop :=
  A.time = B.time ∧
    ∀ b, (bucket B b).count x = (bucket A b).count x + (if o = some b then 1 else 0)

end Skynet

namespace Skynet

/-! ## Vocabulary for the mailbox theorems -/

/-- Index of the `k`-th stored message of a ring with capacity `cap` whose
front is at `head`. -/
def ring_index (cap head : Int) (k : Nat) : Int :=
  if head + k < cap then head + k else head + k - cap

/-- The messages stored in a mailbox, oldest first. -/
def contents (q : message_queue) : List skynet_message :=
  (List.range (skynet_mq_length q).toNat).map (fun k => q.queue (ring_index q.cap q.head k))

/-- Shape of a mailbox whose indices lie inside the ring, whose capacity can
still be handled as an `int` and whose threshold is positive. -/
structure ring_ok (q : message_queue) : Prop where
  cap_pos : 0 < q.cap
  cap_le : q.cap ≤ 1073741824
  head_ge : 0 ≤ q.head
  head_lt : q.head < q.cap
  tail_ge : 0 ≤ q.tail
  tail_lt : q.tail < q.cap
  thr_pos : 0 < q.overload_threshold
  thr_lt : q.overload_threshold < 2147483648

/-- Invariant of a mailbox: the shape `ring_ok` and a capacity `64 * 2 ^ k`. -/
def mq_inv (q : message_queue) : Prop :=
  ring_ok q ∧ ∃ k : Nat, q.cap = 64 * 2 ^ k

/-- One call on a mailbox. -/
inductive mq_call where
  | push (m : skynet_message)
  | pop
deriving DecidableEq

/-- Run calls on a mailbox in order. The second component lists, for each
`skynet_mq_pop`, its return value and what it wrote through the out parameter. -/
def mq_run : message_queue → List mq_call →
    Option (message_queue × List (Int × Option skynet_message))
  | q, [] => some (q, [])
  | q, mq_call.push m :: cs => mq_run (skynet_mq_push q m).1 cs
  | q, mq_call.pop :: cs =>
    match skynet_mq_pop q with
    | none => none
    | some r => (mq_run r.2.2 cs).map (fun x => (x.1, (r.1, r.2.1) :: x.2))

/-- Number of `skynet_mq_push` calls in a list of calls. -/
def count_push : List mq_call → Nat
  | [] => 0
  | mq_call.push _ :: cs => count_push cs + 1
  | mq_call.pop :: cs => count_push cs

/-- The abstract FIFO of the specification: a push appends at the back, a pop
removes the oldest message when there is one. The second component lists what
each pop yields (`none` on an empty list). -/
def fifo_run : List skynet_message → List mq_call →
    List skynet_message × List (Option skynet_message)
  | l, [] => (l, [])
  | l, mq_call.push m :: cs => fifo_run (l ++ [m]) cs
  | l, mq_call.pop :: cs =>
    match l with
    | [] => ((fifo_run [] cs).1, none :: (fifo_run [] cs).2)
    | x :: l => ((fifo_run l cs).1, some x :: (fifo_run l cs).2)

/-- How `skynet_mq_pop` reports an abstract pop: return value 0 and the message
on success, return value 1 and no message on an empty mailbox. -/
def pop_report : Option skynet_message → Int × Option skynet_message
  | some m => (0, some m)
  | none => (1, none)

/-- Number of pops that returned 0 (a message was removed). -/
def count_removed (outs : List (Int × Option skynet_message)) : Nat :=
  (outs.filter (fun o => o.1 = 0)).length

end Skynet

namespace Skynet

/-! ## skynet_timer.c: the clock, and the loop of `timer_shift` with its variables -/

/-- The value a `uint64_t` holds after storing the mathematical result `x`. -/
def uint64 (x : Nat) : Nat := x % 18446744073709551616

/-- The loop of `timer_shift` once more, this time returning its local
variables instead of the wheel: the level `i` and the `mask` when the loop
ends, and the index `idx` when it ends through `move_list(T, i, idx)` (`none`
when it ends because its condition fails). Theorem `timer_shift_loop_vars`
relates it to `timer_shift_loop`. -/
def timer_shift_vars : Nat → Nat → Nat → Nat → Nat → Option (Nat × Nat × Option Nat)
  | 0, _, _, _, _ => none
  | fuel + 1, ct, mask, time, i =>
    if ct &&& (mask - 1) = 0 then
      let idx := time &&& TIME_LEVEL_MASK
      if idx ≠ 0 then some (i, mask, some idx)
      else timer_shift_vars fuel ct (mask <<< TIME_LEVEL_SHIFT) (time >>> TIME_LEVEL_SHIFT) (i + 1)
    else some (i, mask, none)

/-- The `for (i=0;i<diff;i++) timer_update(TI);` loop of `skynet_updatetime`
with `n` rounds left: the wheel, the registry state and, for each round, the
nodes given to `dispatch_list`. The test `i<diff` compares as `uint32_t` and
the `int` counter `i` wraps around, so the loop makes `diff` rounds. -/
def updatetime_loop {σ : Type} (R : runtime σ) :
    Nat → timer → σ → Option (timer × σ × List (List timer_node))
  | 0, T, w => some (T, w, [])
  | n + 1, T, w =>
    match timer_update R T w with
    | none => none
    | some r => (updatetime_loop R n r.1 r.2.1).map (fun x => (x.1, x.2.1, r.2.2 :: x.2.2))

/-- Function `skynet_updatetime` on the wheel `TI`; `cp` is the `uint64_t` that
`gettime()` returns. The call of `skynet_error` only writes a log line; the
subtraction is taken where `cp >= current_point`, so it does not wrap. -/
def skynet_updatetime {σ : Type} (R : runtime σ) (TI : timer) (w : σ) (cp : Nat) :
    Option (timer × σ × List (List timer_node)) :=
  if cp < TI.current_point then
    some ({ TI with current_point := cp }, w, [])
  else if cp ≠ TI.current_point then
    let diff := uint32 (cp - TI.current_point)
    let TI1 := { TI with current_point := cp }
    let TI2 := { TI1 with current := uint64 (TI1.current + diff) }
    updatetime_loop R diff TI2 w
  else some (TI, w, [])

/-- Wheels reached from `timer_create_timer` by `timer_add` with a delay in
`1 .. 2 ^ 31 - 1` and by `timer_update` calls that returned. -/
inductive timer_reach : timer → Prop where
  | create : timer_reach timer_create_timer
  | add (T : timer) (arg : timer_event) (time : Int) :
      timer_reach T → 0 < time → time < 2147483648 → timer_reach (timer_add T arg time)
  | update {σ : Type} (R : runtime σ) (T : timer) (w : σ) (r : timer × σ × List timer_node) :
      timer_reach T → timer_update R T w = some r → timer_reach r.1

/-- Number of copies of node `x` in the buckets `near[0..255]` and
`t[0..3][0..63]` of a wheel. -/
def wheel_count (x : timer_node) (T : timer) : Nat :=
  (∑ a ∈ Finset.range 256, (T.near a).count x)
    + ∑ i ∈ Finset.range 4, ∑ j ∈ Finset.range 64, (T.t i j).count x

/-- The nodes of the wheel that satisfy `P` are the list `L`, in this order,
all in bucket `loc`. -/
def held (P : timer_node → Bool) (L : List timer_node) (loc : bucket_id) (T : timer) : Prop :=
  ∀ b, (bucket T b).filter P = if b = loc then L else []

/-- The 6-bit slice `i` of a tick: bits `8 + 6 i` to `13 + 6 i`. -/
def slice (x i : Nat) : Nat := (x >>> (8 + 6 * i)) &&& 0x3F

/-- The bucket that the specification assigns to expiry `e` at tick `t`:
`near[e & 0xFF]` when `e` and `t` agree on the high 24 bits, otherwise the
level-`i` bucket `t[i][(e >> (8 + 6 i)) & 0x3F]` of the highest 6-bit slice
`i` at which `e` and `t` differ. -/
def spec_bucket (e t : Nat) : bucket_id :=
  if e >>> 8 = t >>> 8 then bucket_id.near (e &&& 0xFF)
  else if slice e 3 ≠ slice t 3 then bucket_id.level 3 (slice e 3)
  else if slice e 2 ≠ slice t 2 then bucket_id.level 2 (slice e 2)
  else if slice e 1 ≠ slice t 1 then bucket_id.level 1 (slice e 1)
  else bucket_id.level 0 (slice e 0)

/-- The registry state after the call of `skynet_context_push` that
`dispatch_list` makes for node `n`: to the handle of the event, with the
message `{source = 0, session, data = NULL, sz = PTYPE_RESPONSE <<
MESSAGE_TYPE_SHIFT}`. -/
def push_response {σ : Type} (R : runtime σ) (w : σ) (n : timer_node) : σ :=
  (R.skynet_context_push w n.event.handle
    { source := 0, session := n.event.session, data := 0,
      sz := R.PTYPE_RESPONSE <<< R.MESSAGE_TYPE_SHIFT }).2

/-- Number of `timer_update` calls in a list of calls. -/
def count_update : List timer_op → Nat
  | [] => 0
  | timer_op.add _ _ :: ops => count_update ops
  | timer_op.update :: ops => count_update ops + 1

/-- The wheel of the cascade scenario: `timer_create_timer` (tick 0) after
`timer_add` with the delays 1, 255, 256, 16383 and 16384, in this order. -/
def scenario_wheel (a1 a2 a3 a4 a5 : timer_event) : timer :=
  timer_add (timer_add (timer_add (timer_add (timer_add timer_create_timer a1 1) a2 255)
    a3 256) a4 16383) a5 16384

/-- The nodes that the calls of `scenario_wheel` create, in the order of the
calls. -/
def scenario_nodes (a1 a2 a3 a4 a5 : timer_event) : List timer_node :=
  [⟨1, a1⟩, ⟨255, a2⟩, ⟨256, a3⟩, ⟨16383, a4⟩, ⟨16384, a5⟩]

/-! ## skynet_mq.c: runs of one mailbox and of the global queue -/

/-- The mailboxes reached from `skynet_mq_create` by `skynet_mq_push` on a
mailbox whose `cap` is below `2 ^ 30` and by `skynet_mq_pop` calls that
returned, each paired with the messages pushed and not yet popped, oldest
first. -/
inductive mq_holds : message_queue → List skynet_message → Prop where
  | create (handle : Nat) : mq_holds (skynet_mq_create handle) []
  | push (q : message_queue) (l : List skynet_message) (m : skynet_message) :
      mq_holds q l → q.cap < 1073741824 → mq_holds (skynet_mq_push q m).1 (l ++ [m])
  | pop (q : message_queue) (l : List skynet_message)
      (r : Int × Option skynet_message × message_queue) :
      mq_holds q l → skynet_mq_pop q = some r → mq_holds r.2.2 l.tail

/-- Every `skynet_mq_push` of the calls is made while fewer than `2 ^ 30 - 1`
messages are queued, `l` being the messages queued at the start. This is the
range in which the capacity of the ring, doubled by `expand_queue`, is a C
`int`; it bounds the queued length, not the number of calls. -/
def fifo_fits : List skynet_message → List mq_call → Prop
  | _, [] => True
  | l, mq_call.push m :: cs => l.length + 1 < 1073741824 ∧ fifo_fits (l ++ [m]) cs
  | l, mq_call.pop :: cs => fifo_fits l.tail cs

/-- One call on the global queue. -/
inductive gq_op where
  | push (p : Nat)
  | pop
deriving DecidableEq

/-- Run calls on the global queue in order. The second component lists what
each `skynet_globalmq_pop` returned (`none` is NULL). -/
def gq_run : mq_state → List gq_op → Option (mq_state × List (Option Nat))
  | s, [] => some (s, [])
  | s, gq_op.push p :: ops =>
    match skynet_globalmq_push s p with
    | none => none
    | some s1 => gq_run s1 ops
  | s, gq_op.pop :: ops =>
    match skynet_globalmq_pop s with
    | none => none
    | some r => (gq_run r.2 ops).map (fun x => (x.1, r.1 :: x.2))

/-- The abstract ready list of the specification: a push appends the mailbox
at the back, a pop removes the first mailbox when there is one. The second
component lists what each pop yields. -/
def gq_fifo : List Nat → List gq_op → List Nat × List (Option Nat)
  | l, [] => (l, [])
  | l, gq_op.push p :: ops => gq_fifo (l ++ [p]) ops
  | l, gq_op.pop :: ops => ((gq_fifo l.tail ops).1, l.head? :: (gq_fifo l.tail ops).2)

/-- Every `skynet_globalmq_push` of the calls is for an allocated mailbox that
is not linked at that moment, `l` being the mailboxes linked at the start. -/
def gq_ok (s : mq_state) : List Nat → List gq_op → Prop
  | _, [] => True
  | l, gq_op.push p :: ops => (∃ q, s.mem p = some q) ∧ p ∉ l ∧ gq_ok s (l ++ [p]) ops
  | l, gq_op.pop :: ops => gq_ok s l.tail ops

end Skynet

namespace Skynet

/-! ## Lemmas on machine integers -/

theorem int32_of_range {x : Int} (h1 : -2147483648 ≤ x) (h2 : x < 2147483648) : int32 x = x := by
  unfold int32; omega

/-! ## The threshold loop of `skynet_mq_pop` -/

theorem overload_loop_spec (fuel : Nat) (length : Int) :
    ∀ q : message_queue, 0 < q.overload_threshold → length ≤ 1073741824 →
      length < 2 ^ fuel * q.overload_threshold →
      ∃ (k : Nat) (o : Int),
        overload_loop (fuel + 1) length q
          = some { q with overload := o, overload_threshold := q.overload_threshold * 2 ^ k } ∧
        length ≤ q.overload_threshold * 2 ^ k ∧
        (k = 0 → o = q.overload) ∧
        (k ≠ 0 → o = length ∧ q.overload_threshold * 2 ^ (k - 1) < length) := by
  induction fuel with
  | zero =>
    intro q h0 _ hf
    simp at hf
    refine ⟨0, q.overload, ?_, ?_, by simp, by simp⟩
    · have : ¬ length > q.overload_threshold := by omega
      simp [overload_loop, this]
    · simp; omega
  | succ n ih =>
    intro q h0 hl hf
    by_cases hgt : length > q.overload_threshold
    · have hw : int32 (q.overload_threshold * 2) = q.overload_threshold * 2 :=
        int32_of_range (by omega) (by omega)
      have hf2 : length < 2 ^ n * (q.overload_threshold * 2) := by
        have : (2:Int) ^ (n + 1) * q.overload_threshold = 2 ^ n * (q.overload_threshold * 2) := by ring
        omega
      obtain ⟨k, o, hk, hle, _, hk2⟩ :=
        ih { q with overload := length, overload_threshold := q.overload_threshold * 2 }
          (by simp; omega) hl (by simpa using hf2)
      refine ⟨k + 1, o, ?_, ?_, by simp, ?_⟩
      · rw [overload_loop]
        simp only [hgt, if_true, hw]
        rw [hk]
        simp [pow_succ, mul_assoc, mul_comm]
      · simp at hle
        have : q.overload_threshold * 2 ^ (k + 1) = q.overload_threshold * 2 * 2 ^ k := by ring
        omega
      · intro _
        by_cases hk0 : k = 0
        · subst hk0
          simp_all
        · obtain ⟨h1, h2⟩ := hk2 hk0
          refine ⟨h1, ?_⟩
          simp at h2
          have : q.overload_threshold * 2 ^ (k + 1 - 1) = q.overload_threshold * 2 * 2 ^ (k - 1) := by
            obtain ⟨j, rfl⟩ : ∃ j, k = j + 1 := ⟨k - 1, by omega⟩
            simp; ring
          omega
    · refine ⟨0, q.overload, ?_, ?_, by simp, by simp⟩
      · rw [overload_loop]; simp [hgt]
      · simp; omega

/-! ## `skynet_mq_length` and `skynet_mq_pop` on a well-shaped mailbox -/

theorem length_of_ring_ok {q : message_queue} (hq : ring_ok q) :
    skynet_mq_length q = if q.head ≤ q.tail then q.tail - q.head else q.tail + q.cap - q.head := by
  obtain ⟨h1, h2, h3, h4, h5, h6, _, _⟩ := hq
  unfold skynet_mq_length int32
  split <;> omega

theorem length_bounds {q : message_queue} (hq : ring_ok q) :
    0 ≤ skynet_mq_length q ∧ skynet_mq_length q < q.cap := by
  rw [length_of_ring_ok hq]
  obtain ⟨h1, h2, h3, h4, h5, h6, _, _⟩ := hq
  split <;> omega

theorem pop_empty (q : message_queue) (he : q.head = q.tail) :
    skynet_mq_pop q = some (1, none, { q with overload_threshold := MQ_OVERLOAD, in_global := 0 }) := by
  simp [skynet_mq_pop, he]

/-- The front index after a successful pop. -/
theorem pop_nonempty {q : message_queue} (hq : ring_ok q) (hne : q.head ≠ q.tail) :
    ∃ (k : Nat) (o : Int),
      skynet_mq_pop q
        = some (0, some (q.queue q.head),
            { q with head := (if q.head + 1 ≥ q.cap then 0 else q.head + 1),
                     overload := o,
                     overload_threshold := q.overload_threshold * 2 ^ k }) ∧
      skynet_mq_length q - 1 ≤ q.overload_threshold * 2 ^ k ∧
      (k = 0 → o = q.overload) ∧
      (k ≠ 0 → o = skynet_mq_length q - 1 ∧
        q.overload_threshold * 2 ^ (k - 1) < skynet_mq_length q - 1) := by
  have hlen := length_of_ring_ok hq
  obtain ⟨h1, h2, h3, h4, h5, h6, h7, h8⟩ := hq
  have hw : int32 (q.head + 1) = q.head + 1 := int32_of_range (by omega) (by omega)
  -- the length computed inside the function
  have hL : (if int32 (q.tail - (if q.head + 1 ≥ q.cap then 0 else q.head + 1)) < 0
              then int32 (int32 (q.tail - (if q.head + 1 ≥ q.cap then 0 else q.head + 1)) + q.cap)
              else int32 (q.tail - (if q.head + 1 ≥ q.cap then 0 else q.head + 1)))
            = skynet_mq_length q - 1 := by
    rw [hlen]
    unfold int32
    split_ifs <;> omega
  have hpow : skynet_mq_length q - 1 < 2 ^ 63 * q.overload_threshold := by
    rw [hlen]
    norm_num
    split_ifs <;> omega
  obtain ⟨k, o, hk, hrest⟩ := overload_loop_spec 63 (skynet_mq_length q - 1)
    { q with head := (if q.head + 1 ≥ q.cap then 0 else q.head + 1) } h7
    (by rw [hlen]; split_ifs <;> omega) hpow
  refine ⟨k, o, ?_, hrest⟩
  unfold skynet_mq_pop
  simp only [hne, ne_eq, not_false_eq_true, if_true, hw, hL]
  by_cases hc : q.head + 1 ≥ q.cap
  · simp only [hc, if_true] at hk ⊢
    rw [hk]; simp
  · simp only [hc, if_false] at hk ⊢
    rw [hk]; simp

/-- A successful pop on a well-shaped mailbox: what it returns and what it leaves. -/
theorem pop_spec {q : message_queue} (hq : ring_ok q) (hne : q.head ≠ q.tail) :
    ∃ q', skynet_mq_pop q = some (0, some (q.queue q.head), q') ∧ ring_ok q' ∧
      contents q = q.queue q.head :: contents q' ∧
      skynet_mq_length q' = skynet_mq_length q - 1 ∧
      q'.cap = q.cap ∧ q'.in_global = q.in_global ∧ q'.release = q.release ∧
      q'.handle = q.handle ∧ q'.next = q.next ∧ q'.queue = q.queue ∧ q'.tail = q.tail := by
  obtain ⟨k, o, hpop, hle, hk0, hk1⟩ := pop_nonempty hq hne
  have hlen := length_of_ring_ok hq
  have hq0 := hq
  obtain ⟨h1, h2, h3, h4, h5, h6, h7, h8⟩ := hq
  refine ⟨_, hpop, ?_, ?_, ?_, rfl, rfl, rfl, rfl, rfl, rfl, rfl⟩
  · -- shape
    refine ⟨h1, h2, ?_, ?_, h5, h6, ?_, ?_⟩
    · show 0 ≤ (if q.head + 1 ≥ q.cap then 0 else q.head + 1)
      split_ifs <;> omega
    · show (if q.head + 1 ≥ q.cap then 0 else q.head + 1) < q.cap
      split_ifs <;> omega
    · show 0 < q.overload_threshold * 2 ^ k
      positivity
    · show q.overload_threshold * 2 ^ k < 2147483648
      by_cases hk : k = 0
      · subst hk; simpa using h8
      · obtain ⟨_, hlt⟩ := hk1 hk
        obtain ⟨j, rfl⟩ : ∃ j, k = j + 1 := ⟨k - 1, by omega⟩
        have hb := (length_bounds hq0).2
        have : q.overload_threshold * 2 ^ (j + 1) = 2 * (q.overload_threshold * 2 ^ j) := by ring
        simp at hlt
        omega
  · -- contents
    have hpos : 0 < skynet_mq_length q := by rw [hlen]; split_ifs <;> omega
    obtain ⟨n, hn⟩ : ∃ n : Nat, skynet_mq_length q = n + 1 :=
      ⟨(skynet_mq_length q - 1).toNat, by omega⟩
    have hlen' : skynet_mq_length
        { q with head := (if q.head + 1 ≥ q.cap then 0 else q.head + 1), overload := o,
                 overload_threshold := q.overload_threshold * 2 ^ k } = n := by
      unfold skynet_mq_length int32
      simp only
      rw [hlen] at hn
      split_ifs at hn ⊢ <;> omega
    unfold contents
    rw [hlen', hn]
    have e1 : ((n : Int) + 1).toNat = n + 1 := by omega
    have e2 : ((n : Int)).toNat = n := by omega
    rw [e1, e2, List.range_succ_eq_map, List.map_cons, List.map_map]
    congr 1
    · simp [ring_index, h4]
    · apply List.map_congr_left
      intro a ha
      rw [List.mem_range] at ha
      have hb := (length_bounds hq0).2
      simp only [Function.comp, Nat.succ_eq_add_one]
      congr 1
      unfold ring_index
      push_cast
      split_ifs <;> omega
  · -- length
    unfold skynet_mq_length int32
    simp only
    split_ifs <;> omega

/-! ## `skynet_mq_push` and `expand_queue` on a well-shaped mailbox -/

theorem ring_index_lt {cap head : Int} {k : Nat} (h0 : 0 ≤ head) (h1 : head < cap)
    (hk : (k : Int) < cap) : 0 ≤ ring_index cap head k ∧ ring_index cap head k < cap := by
  unfold ring_index
  split_ifs <;> omega

theorem tmod_ring_index {cap head : Int} {k : Nat} (h0 : 0 ≤ head) (h1 : head < cap)
    (hc : cap ≤ 1073741824) (hk : (k : Int) < cap) :
    Int.tmod (int32 (head + k)) cap = ring_index cap head k := by
  rw [int32_of_range (by omega) (by omega), Int.tmod_eq_emod (by omega) (by omega)]
  unfold ring_index
  split_ifs with h
  · exact Int.emod_eq_of_lt (by omega) h
  · rw [Int.emod_eq_sub_self_emod]
    exact Int.emod_eq_of_lt (by omega) (by omega)

theorem expand_copy_get (q : message_queue) (n : Nat) (nq : Int → skynet_message) (i : Int) :
    expand_copy q n nq i
      = if 0 ≤ i ∧ i < n then q.queue (Int.tmod (int32 (q.head + i.toNat)) q.cap) else nq i := by
  induction n with
  | zero =>
    have h : ¬ (0 ≤ i ∧ i < ((0 : Nat) : Int)) := by omega
    rw [if_neg h]
    rfl
  | succ n ih =>
    simp only [expand_copy, ring_set]
    by_cases hi : i = (n : Int)
    · subst hi
      simp
    · rw [if_neg hi, ih]
      by_cases h : 0 ≤ i ∧ i < n
      · have h' : 0 ≤ i ∧ i < ((n + 1 : Nat) : Int) := by omega
        rw [if_pos h, if_pos h']
      · have h' : ¬ (0 ≤ i ∧ i < ((n + 1 : Nat) : Int)) := by omega
        rw [if_neg h, if_neg h']

/-- The tail index after a push that finds room. -/
theorem push_room {q : message_queue} (hq : ring_ok q) (m : skynet_message)
    (hroom : skynet_mq_length q + 1 < q.cap) :
    (skynet_mq_push q m).1
      = { q with queue := ring_set q.queue q.tail m,
                 tail := (if q.tail + 1 ≥ q.cap then 0 else q.tail + 1),
                 in_global := (if q.in_global = 0 then MQ_IN_GLOBAL else q.in_global) } := by
  rw [length_of_ring_ok hq] at hroom
  obtain ⟨h1, h2, h3, h4, h5, h6, h7, h8⟩ := hq
  have hw : int32 (q.tail + 1) = q.tail + 1 := int32_of_range (by omega) (by omega)
  unfold skynet_mq_push
  simp only [hw]
  by_cases hc : q.tail + 1 ≥ q.cap
  · have hne : ¬ q.head = 0 := by split_ifs at hroom <;> omega
    simp only [hc, if_true, hne, if_false]
    by_cases hg : q.in_global = 0 <;> simp [hg]
  · have hne : ¬ q.head = q.tail + 1 := by split_ifs at hroom <;> omega
    simp only [hc, if_false, hne]
    by_cases hg : q.in_global = 0 <;> simp [hg]

/-- The mailbox after a push that fills the ring. -/
theorem push_full {q : message_queue} (hq : ring_ok q) (m : skynet_message)
    (hfull : skynet_mq_length q + 1 = q.cap) :
    (skynet_mq_push q m).1
      = { q with queue := expand_copy
                    { q with queue := ring_set q.queue q.tail m,
                             tail := (if q.tail + 1 ≥ q.cap then 0 else q.tail + 1) }
                    q.cap.toNat (fun _ => default),
                 head := 0,
                 tail := q.cap,
                 cap := int32 (q.cap * 2),
                 in_global := (if q.in_global = 0 then MQ_IN_GLOBAL else q.in_global) } := by
  rw [length_of_ring_ok hq] at hfull
  obtain ⟨h1, h2, h3, h4, h5, h6, h7, h8⟩ := hq
  have hw : int32 (q.tail + 1) = q.tail + 1 := int32_of_range (by omega) (by omega)
  unfold skynet_mq_push
  simp only [hw]
  by_cases hc : q.tail + 1 ≥ q.cap
  · have hne : q.head = 0 := by split_ifs at hfull <;> omega
    simp only [hc, if_true, hne, expand_queue]
    by_cases hg : q.in_global = 0 <;> simp [hg, hne]
  · have hne : q.head = q.tail + 1 := by split_ifs at hfull <;> omega
    simp only [hc, if_false, hne, if_true, expand_queue]
    by_cases hg : q.in_global = 0 <;> simp [hg, hne]

theorem push_link (q : message_queue) (m : skynet_message) :
    (skynet_mq_push q m).2 = decide (q.in_global = 0) := by
  unfold skynet_mq_push expand_queue
  simp only
  split_ifs <;> simp_all

theorem ring_index_length {q : message_queue} (hq : ring_ok q) :
    ring_index q.cap q.head (skynet_mq_length q).toNat = q.tail := by
  rw [length_of_ring_ok hq]
  obtain ⟨h1, h2, h3, h4, h5, h6, h7, h8⟩ := hq
  unfold ring_index
  split_ifs <;> omega

theorem ring_index_ne_tail {q : message_queue} (hq : ring_ok q) {k : Nat}
    (hk : k < (skynet_mq_length q).toNat) : ring_index q.cap q.head k ≠ q.tail := by
  rw [length_of_ring_ok hq] at hk
  obtain ⟨h1, h2, h3, h4, h5, h6, h7, h8⟩ := hq
  unfold ring_index
  split_ifs at hk ⊢ <;> omega

/-- The stored messages followed by the pushed one, read through the ring that
has the new message written at `tail`. -/
theorem contents_snoc {q : message_queue} (hq : ring_ok q) (m : skynet_message) :
    (List.range ((skynet_mq_length q).toNat + 1)).map
        (fun k => ring_set q.queue q.tail m (ring_index q.cap q.head k))
      = contents q ++ [m] := by
  rw [List.range_succ, List.map_append]
  congr 1
  · unfold contents
    apply List.map_congr_left
    intro a ha
    rw [List.mem_range] at ha
    simp [ring_set, ring_index_ne_tail hq ha]
  · simp [ring_set, ring_index_length hq]

theorem push_room_spec {q : message_queue} (hq : ring_ok q) (m : skynet_message)
    (hroom : skynet_mq_length q + 1 < q.cap) :
    ring_ok (skynet_mq_push q m).1 ∧
      contents (skynet_mq_push q m).1 = contents q ++ [m] ∧
      skynet_mq_length (skynet_mq_push q m).1 = skynet_mq_length q + 1 ∧
      (skynet_mq_push q m).1.cap = q.cap ∧ (skynet_mq_push q m).1.head = q.head := by
  rw [push_room hq m hroom]
  have hlen := length_of_ring_ok hq
  have hq0 := hq
  have hnn := (length_bounds hq).1
  obtain ⟨h1, h2, h3, h4, h5, h6, h7, h8⟩ := hq
  have hL : skynet_mq_length
      { q with queue := ring_set q.queue q.tail m,
               tail := (if q.tail + 1 ≥ q.cap then 0 else q.tail + 1),
               in_global := (if q.in_global = 0 then MQ_IN_GLOBAL else q.in_global) }
        = skynet_mq_length q + 1 := by
    rw [hlen] at hroom ⊢
    unfold skynet_mq_length int32
    simp only
    split_ifs at hroom ⊢ <;> omega
  refine ⟨?_, ?_, hL, rfl, rfl⟩
  · refine ⟨h1, h2, h3, h4, ?_, ?_, h7, h8⟩
    · show 0 ≤ (if q.tail + 1 ≥ q.cap then 0 else q.tail + 1)
      split_ifs <;> omega
    · show (if q.tail + 1 ≥ q.cap then 0 else q.tail + 1) < q.cap
      split_ifs <;> omega
  · rw [← contents_snoc hq0 m]
    unfold contents
    rw [hL]
    have e : (skynet_mq_length q + 1).toNat = (skynet_mq_length q).toNat + 1 := by omega
    rw [e]

theorem push_full_spec {q : message_queue} (hq : ring_ok q) (m : skynet_message)
    (hfull : skynet_mq_length q + 1 = q.cap) (hcap : q.cap * 2 ≤ 1073741824) :
    ring_ok (skynet_mq_push q m).1 ∧
      contents (skynet_mq_push q m).1 = contents q ++ [m] ∧
      skynet_mq_length (skynet_mq_push q m).1 = skynet_mq_length q + 1 ∧
      (skynet_mq_push q m).1.cap = 2 * q.cap ∧ (skynet_mq_push q m).1.head = 0 ∧
      (skynet_mq_push q m).1.tail = q.cap ∧
      (List.range q.cap.toNat).map (fun (i : Nat) => (skynet_mq_push q m).1.queue (Int.ofNat i))
        = contents q ++ [m] := by
  rw [push_full hq m hfull]
  have hq0 := hq
  have hnn := (length_bounds hq).1
  obtain ⟨h1, h2, h3, h4, h5, h6, h7, h8⟩ := hq
  have hw0 : int32 (q.cap * 2) = q.cap * 2 := int32_of_range (by omega) (by omega)
  have hw : int32 (q.cap * 2) = 2 * q.cap := by rw [hw0]; ring
  have hL : skynet_mq_length
      { q with queue := expand_copy
                    { q with queue := ring_set q.queue q.tail m,
                             tail := (if q.tail + 1 ≥ q.cap then 0 else q.tail + 1) }
                    q.cap.toNat (fun _ => default),
                 head := 0,
                 tail := q.cap,
                 cap := int32 (q.cap * 2),
                 in_global := (if q.in_global = 0 then MQ_IN_GLOBAL else q.in_global) }
        = skynet_mq_length q + 1 := by
    rw [hfull]
    unfold skynet_mq_length
    simp only
    rw [if_pos h1.le]
    have e : q.cap - 0 = q.cap := by omega
    rw [e]
    exact int32_of_range (by omega) (by omega)
  have hring : (List.range q.cap.toNat).map
      (fun i : Nat => expand_copy
                    { q with queue := ring_set q.queue q.tail m,
                             tail := (if q.tail + 1 ≥ q.cap then 0 else q.tail + 1) }
                    q.cap.toNat (fun _ => default) (Int.ofNat i))
        = contents q ++ [m] := by
    rw [← contents_snoc hq0 m]
    have e : (skynet_mq_length q).toNat + 1 = q.cap.toNat := by omega
    rw [e]
    apply List.map_congr_left
    intro a ha
    rw [List.mem_range] at ha
    rw [expand_copy_get, if_pos (by simp; omega)]
    simp only [Int.ofNat_eq_coe, Int.toNat_ofNat]
    rw [tmod_ring_index h3 h4 h2 (by omega)]
  refine ⟨?_, ?_, hL, hw, rfl, rfl, hring⟩
  · refine ⟨?_, ?_, le_refl _, ?_, h1.le, ?_, h7, h8⟩
    · show 0 < int32 (q.cap * 2)
      rw [hw]; omega
    · show int32 (q.cap * 2) ≤ 1073741824
      rw [hw]; omega
    · show (0 : Int) < int32 (q.cap * 2)
      rw [hw]; omega
    · show q.cap < int32 (q.cap * 2)
      rw [hw]; omega
  · rw [← hring]
    unfold contents
    rw [hL, hfull]
    apply List.map_congr_left
    intro a ha
    rw [List.mem_range] at ha
    simp only [Int.ofNat_eq_coe]
    congr 1
    unfold ring_index
    rw [hw]
    split_ifs <;> omega

end Skynet

namespace Skynet

/-! ## Runs of pushes and pops against the abstract FIFO -/

theorem contents_length (q : message_queue) :
    (contents q).length = (skynet_mq_length q).toNat := by
  simp [contents]

theorem head_eq_tail_iff {q : message_queue} (hq : ring_ok q) :
    q.head = q.tail ↔ skynet_mq_length q = 0 := by
  rw [length_of_ring_ok hq]
  obtain ⟨h1, h2, h3, h4, h5, h6, h7, h8⟩ := hq
  split_ifs <;> omega

theorem contents_nil_iff {q : message_queue} (hq : ring_ok q) :
    contents q = [] ↔ q.head = q.tail := by
  rw [head_eq_tail_iff hq, ← List.length_eq_zero, contents_length]
  have := (length_bounds hq).1
  omega

theorem pow_cap_double {k : Nat} (h : (64 : Int) * 2 ^ k < 1073741824) :
    (64 : Int) * 2 ^ k * 2 ≤ 1073741824 := by
  have h1 : (2 : Int) ^ k < 2 ^ 24 := by norm_num; omega
  have h2 : k < 24 := (pow_lt_pow_iff_right₀ (by norm_num : (1 : Int) < 2)).1 h1
  have h3 : (2 : Int) ^ (k + 1) ≤ 2 ^ 24 := pow_le_pow_right₀ (by norm_num) (by omega)
  rw [pow_succ] at h3
  norm_num at h3
  omega

theorem push_inv {q : message_queue} (hq : mq_inv q) (m : skynet_message)
    (hb : skynet_mq_length q + 1 < 1073741824) :
    mq_inv (skynet_mq_push q m).1 ∧
      contents (skynet_mq_push q m).1 = contents q ++ [m] ∧
      skynet_mq_length (skynet_mq_push q m).1 = skynet_mq_length q + 1 := by
  obtain ⟨hr, k, hk⟩ := hq
  have hlt := (length_bounds hr).2
  by_cases hroom : skynet_mq_length q + 1 < q.cap
  · obtain ⟨a, b, c, d, _⟩ := push_room_spec hr m hroom
    exact ⟨⟨a, k, by rw [d, hk]⟩, b, c⟩
  · have hfull : skynet_mq_length q + 1 = q.cap := by omega
    have hc : q.cap * 2 ≤ 1073741824 := by
      rw [hk]; apply pow_cap_double; rw [← hk]; omega
    obtain ⟨a, b, c, d, _⟩ := push_full_spec hr m hfull hc
    refine ⟨⟨a, k + 1, ?_⟩, b, c⟩
    rw [d, hk, pow_succ]; ring

theorem create_inv (handle : Nat) : mq_inv (skynet_mq_create handle) := by
  refine ⟨⟨?_, ?_, ?_, ?_, ?_, ?_, ?_, ?_⟩, 0, ?_⟩ <;>
    simp [skynet_mq_create, DEFAULT_QUEUE_SIZE, MQ_OVERLOAD]

theorem create_contents (handle : Nat) : contents (skynet_mq_create handle) = [] := by
  rw [contents_nil_iff (create_inv handle).1]
  rfl

/-- Simulation of the abstract FIFO by a mailbox that satisfies the invariant. -/
theorem mq_run_simulates (cs : List mq_call) :
    ∀ q : message_queue, mq_inv q →
      skynet_mq_length q + count_push cs < 1073741824 →
      ∃ q' outs, mq_run q cs = some (q', outs) ∧ mq_inv q' ∧
        contents q' = (fifo_run (contents q) cs).1 ∧
        outs = (fifo_run (contents q) cs).2.map pop_report := by
  induction cs with
  | nil =>
    intro q hq _
    exact ⟨q, [], rfl, hq, rfl, rfl⟩
  | cons c cs ih =>
    intro q hq hb
    cases c with
    | push m =>
      simp only [count_push] at hb
      have hnn := (length_bounds hq.1).1
      obtain ⟨hi, hc, hl⟩ := push_inv hq m (by push_cast at hb; omega)
      obtain ⟨q', outs, h1, h2, h3, h4⟩ := ih (skynet_mq_push q m).1 hi
        (by rw [hl]; push_cast at hb; omega)
      refine ⟨q', outs, ?_, h2, ?_, ?_⟩
      · simpa [mq_run] using h1
      · rw [h3, hc]; rfl
      · rw [h4, hc]; rfl
    | pop =>
      simp only [count_push] at hb
      by_cases he : q.head = q.tail
      · have hnil := (contents_nil_iff hq.1).2 he
        have hi : mq_inv { q with overload_threshold := MQ_OVERLOAD, in_global := 0 } := by
          obtain ⟨⟨h1, h2, h3, h4, h5, h6, h7, h8⟩, hk⟩ := hq
          exact ⟨⟨h1, h2, h3, h4, h5, h6, by simp [MQ_OVERLOAD], by simp [MQ_OVERLOAD]⟩, hk⟩
        have hc : contents { q with overload_threshold := MQ_OVERLOAD, in_global := 0 }
            = contents q := rfl
        obtain ⟨q', outs, h1, h2, h3, h4⟩ := ih _ hi hb
        refine ⟨q', (1, none) :: outs, ?_, h2, ?_, ?_⟩
        · simp [mq_run, pop_empty q he, h1]
        · rw [h3, hc, hnil]; rfl
        · rw [h4, hc, hnil]; rfl
      · obtain ⟨q1, hp, hr1, hc, hl, hcap, _⟩ := pop_spec hq.1 he
        have hi : mq_inv q1 := ⟨hr1, by rw [hcap]; exact hq.2⟩
        obtain ⟨q', outs, h1, h2, h3, h4⟩ := ih q1 hi (by rw [hl]; omega)
        refine ⟨q', (0, some (q.queue q.head)) :: outs, ?_, h2, ?_, ?_⟩
        · simp [mq_run, hp, h1]
        · rw [h3, hc]; rfl
        · rw [h4, hc]; rfl

/-- Length of the abstract FIFO: messages pushed minus messages removed. -/
theorem fifo_run_length (cs : List mq_call) :
    ∀ l : List skynet_message,
      (fifo_run l cs).1.length + count_removed ((fifo_run l cs).2.map pop_report)
        = l.length + count_push cs := by
  induction cs with
  | nil => intro l; simp [fifo_run, count_removed, count_push]
  | cons c cs ih =>
    intro l
    cases c with
    | push m =>
      have := ih (l ++ [m])
      simp only [fifo_run, count_push, List.length_append, List.length_singleton] at this ⊢
      omega
    | pop =>
      cases l with
      | nil =>
        have := ih []
        simp only [fifo_run, count_push, count_removed, List.map_cons, pop_report] at this ⊢
        simpa using this
      | cons x l =>
        have := ih l
        simp only [fifo_run, count_push, count_removed, List.map_cons, pop_report,
          List.length_cons] at this ⊢
        simp at this ⊢
        omega

end Skynet

namespace Skynet

/-! ## The simulation under a bound on the queued length -/

/-- A bound on the number of pushes implies the bound on the queued length. -/
theorem fifo_fits_of_count_push (cs : List mq_call) :
    ∀ l : List skynet_message, l.length + count_push cs < 1073741824 → fifo_fits l cs := by
  induction cs with
  | nil => intro l _; trivial
  | cons c cs ih =>
    intro l hb
    cases c with
    | push m =>
      simp only [count_push] at hb
      refine ⟨by omega, ih _ ?_⟩
      simp only [List.length_append, List.length_singleton]
      omega
    | pop =>
      simp only [count_push] at hb
      refine ih _ ?_
      have : l.tail.length ≤ l.length := by simp
      omega

/-- The mailbox simulates the abstract FIFO along every sequence of calls in
which each push is made while fewer than `2 ^ 30 - 1` messages are queued,
however long the sequence is. -/
theorem mq_run_simulates_fits (cs : List mq_call) :
    ∀ q : message_queue, mq_inv q → fifo_fits (contents q) cs →
      ∃ q' outs, mq_run q cs = some (q', outs) ∧ mq_inv q' ∧
        contents q' = (fifo_run (contents q) cs).1 ∧
        outs = (fifo_run (contents q) cs).2.map pop_report := by
  induction cs with
  | nil =>
    intro q hq _
    exact ⟨q, [], rfl, hq, rfl, rfl⟩
  | cons c cs ih =>
    intro q hq hb
    cases c with
    | push m =>
      obtain ⟨hb1, hb2⟩ := hb
      have hnn := (length_bounds hq.1).1
      rw [contents_length] at hb1
      obtain ⟨hi, hc, _⟩ := push_inv hq m (by omega)
      obtain ⟨q', outs, h1, h2, h3, h4⟩ := ih (skynet_mq_push q m).1 hi (by rw [hc]; exact hb2)
      refine ⟨q', outs, ?_, h2, ?_, ?_⟩
      · simpa [mq_run] using h1
      · rw [h3, hc]; rfl
      · rw [h4, hc]; rfl
    | pop =>
      have hb' : fifo_fits (contents q).tail cs := hb
      by_cases he : q.head = q.tail
      · have hnil := (contents_nil_iff hq.1).2 he
        have hi : mq_inv { q with overload_threshold := MQ_OVERLOAD, in_global := 0 } := by
          obtain ⟨⟨h1, h2, h3, h4, h5, h6, h7, h8⟩, hk⟩ := hq
          exact ⟨⟨h1, h2, h3, h4, h5, h6, by simp [MQ_OVERLOAD], by simp [MQ_OVERLOAD]⟩, hk⟩
        have hc : contents { q with overload_threshold := MQ_OVERLOAD, in_global := 0 }
            = contents q := rfl
        obtain ⟨q', outs, h1, h2, h3, h4⟩ := ih _ hi (by rw [hc, hnil]; rw [hnil] at hb'; exact hb')
        refine ⟨q', (1, none) :: outs, ?_, h2, ?_, ?_⟩
        · simp [mq_run, pop_empty q he, h1]
        · rw [h3, hc, hnil]; rfl
        · rw [h4, hc, hnil]; rfl
      · obtain ⟨q1, hp, hr1, hc, hl, hcap, _⟩ := pop_spec hq.1 he
        have hi : mq_inv q1 := ⟨hr1, by rw [hcap]; exact hq.2⟩
        obtain ⟨q', outs, h1, h2, h3, h4⟩ := ih q1 hi (by rw [hc] at hb'; exact hb')
        refine ⟨q', (0, some (q.queue q.head)) :: outs, ?_, h2, ?_, ?_⟩
        · simp [mq_run, hp, h1]
        · rw [h3, hc]; rfl
        · rw [h4, hc]; rfl

end Skynet

namespace Skynet

/-! ## Frame of `skynet_mq_pop` on an arbitrary mailbox -/

theorem overload_loop_frame (length : Int) (fuel : Nat) :
    ∀ q q' : message_queue, overload_loop fuel length q = some q' →
      q' = { q with overload := q'.overload, overload_threshold := q'.overload_threshold } := by
  induction fuel with
  | zero => intro q q' h; simp [overload_loop] at h
  | succ n ih =>
    intro q q' h
    rw [overload_loop] at h
    split_ifs at h
    · have := ih _ _ h
      rw [this]
    · simp at h
      rw [← h]

/-- A pop that returns from a non-empty mailbox: return value 0, the front
message, and only `head`, `overload` and `overload_threshold` may differ. -/
theorem pop_nonempty_frame {q : message_queue} {r : Int × Option skynet_message × message_queue}
    (hne : q.head ≠ q.tail) (h : skynet_mq_pop q = some r) :
    r.1 = 0 ∧ r.2.1 = some (q.queue q.head) ∧
      r.2.2 = { q with head := r.2.2.head, overload := r.2.2.overload,
                       overload_threshold := r.2.2.overload_threshold } := by
  unfold skynet_mq_pop at h
  simp only [hne, ne_eq, not_false_eq_true, if_true, Option.map_map, Option.map_eq_some'] at h
  obtain ⟨q3, hq3, hr⟩ := h
  have hf := overload_loop_frame _ _ _ _ hq3
  subst hr
  refine ⟨rfl, rfl, ?_⟩
  simp only [Function.comp, ne_eq, not_true_eq_false, if_false]
  rw [hf]
  split_ifs <;> rfl

end Skynet

namespace Skynet

/-! ## Runs made of pushes only, and of pops only -/

/-- Fields of the mailbox that `skynet_mq_push` never writes. -/
theorem push_frame (q : message_queue) (m : skynet_message) :
    (skynet_mq_push q m).1.overload = q.overload ∧
      (skynet_mq_push q m).1.overload_threshold = q.overload_threshold ∧
      (skynet_mq_push q m).1.release = q.release ∧
      (skynet_mq_push q m).1.handle = q.handle ∧
      (skynet_mq_push q m).1.next = q.next := by
  unfold skynet_mq_push expand_queue
  simp only
  split_ifs <;> simp

theorem mq_run_append (a b : List mq_call) :
    ∀ q : message_queue,
      mq_run q (a ++ b)
        = (mq_run q a).bind (fun r => (mq_run r.1 b).map (fun x => (x.1, r.2 ++ x.2))) := by
  induction a with
  | nil =>
    intro q
    simp [mq_run]
  | cons c a ih =>
    intro q
    cases c with
    | push m =>
      simp only [List.cons_append, mq_run]
      exact ih _
    | pop =>
      simp only [List.cons_append, mq_run]
      cases hp : skynet_mq_pop q with
      | none => rfl
      | some r =>
        have h := ih r.2.2
        simp only [List.append_eq] at h ⊢
        rw [h]
        cases hr : mq_run r.2.2 a with
        | none => rfl
        | some y =>
          cases hb : mq_run y.1 b with
          | none => simp [hb]
          | some z => simp [hb]

/-- Pushes that all find room. -/
theorem run_pushes_room (msgs : List skynet_message) :
    ∀ q : message_queue, ring_ok q →
      skynet_mq_length q + msgs.length < q.cap →
      ∃ q', mq_run q (msgs.map mq_call.push) = some (q', []) ∧ ring_ok q' ∧
        contents q' = contents q ++ msgs ∧ q'.cap = q.cap ∧ q'.head = q.head ∧
        skynet_mq_length q' = skynet_mq_length q + msgs.length ∧
        q'.overload = q.overload ∧ q'.overload_threshold = q.overload_threshold := by
  induction msgs with
  | nil =>
    intro q hq _
    exact ⟨q, rfl, hq, by simp, rfl, rfl, by simp, rfl, rfl⟩
  | cons m msgs ih =>
    intro q hq hb
    simp only [List.length_cons, Nat.cast_add, Nat.cast_one] at hb
    obtain ⟨h1, h2, h3, h4, h5⟩ := push_room_spec hq m (by omega)
    obtain ⟨f1, f2, _⟩ := push_frame q m
    obtain ⟨q', r1, r2, r3, r4, r5, r6, r7, r8⟩ := ih (skynet_mq_push q m).1 h1
      (by rw [h3, h4]; omega)
    refine ⟨q', ?_, r2, ?_, ?_, ?_, ?_, ?_, ?_⟩
    · simpa [mq_run] using r1
    · rw [r3, h2]; simp
    · rw [r4, h4]
    · rw [r5, h5]
    · rw [r6, h3]; simp only [List.length_cons, Nat.cast_add, Nat.cast_one]; omega
    · rw [r7, f1]
    · rw [r8, f2]

/-- Pushes under the invariant, expansion included. -/
theorem run_pushes (msgs : List skynet_message) :
    ∀ q : message_queue, mq_inv q →
      skynet_mq_length q + msgs.length < 1073741824 →
      ∃ q', mq_run q (msgs.map mq_call.push) = some (q', []) ∧ mq_inv q' ∧
        contents q' = contents q ++ msgs ∧
        skynet_mq_length q' = skynet_mq_length q + msgs.length ∧
        q'.overload = q.overload ∧ q'.overload_threshold = q.overload_threshold := by
  induction msgs with
  | nil =>
    intro q hq _
    exact ⟨q, rfl, hq, by simp, by simp, rfl, rfl⟩
  | cons m msgs ih =>
    intro q hq hb
    simp only [List.length_cons, Nat.cast_add, Nat.cast_one] at hb
    have hnn := (length_bounds hq.1).1
    obtain ⟨h1, h2, h3⟩ := push_inv hq m (by omega)
    obtain ⟨f1, f2, _⟩ := push_frame q m
    obtain ⟨q', r1, r2, r3, r6, r7, r8⟩ := ih (skynet_mq_push q m).1 h1 (by rw [h3]; omega)
    refine ⟨q', ?_, r2, ?_, ?_, ?_, ?_⟩
    · simpa [mq_run] using r1
    · rw [r3, h2]; simp
    · rw [r6, h3]; simp only [List.length_cons, Nat.cast_add, Nat.cast_one]; omega
    · rw [r7, f1]
    · rw [r8, f2]

theorem fifo_run_pops (l : List skynet_message) :
    fifo_run l (List.replicate l.length mq_call.pop) = ([], l.map some) := by
  induction l with
  | nil => rfl
  | cons x l ih =>
    simp only [List.length_cons, List.replicate_succ, fifo_run, ih, List.map_cons]

theorem count_push_replicate_pop (n : Nat) : count_push (List.replicate n mq_call.pop) = 0 := by
  induction n with
  | zero => rfl
  | succ n ih => simp only [List.replicate_succ, count_push, ih]

/-- Popping as many times as there are stored messages returns them in order. -/
theorem run_pops {q : message_queue} (hq : mq_inv q) :
    ∃ q', mq_run q (List.replicate (contents q).length mq_call.pop)
        = some (q', (contents q).map (fun m => (0, some m))) ∧ contents q' = [] := by
  have hlt := (length_bounds hq.1).2
  have hc := hq.1.cap_le
  obtain ⟨q', outs, h1, _, h3, h4⟩ :=
    mq_run_simulates (List.replicate (contents q).length mq_call.pop) q hq
      (by rw [count_push_replicate_pop]; push_cast; omega)
  rw [fifo_run_pops] at h3 h4
  refine ⟨q', ?_, h3⟩
  rw [h1, h4]
  simp [pop_report, Function.comp]

end Skynet

namespace Skynet

/-! ## Overload report after filling a fresh mailbox and popping once -/

theorem create_fields (handle : Nat) :
    skynet_mq_length (skynet_mq_create handle) = 0 ∧
      (skynet_mq_create handle).overload = 0 ∧
      (skynet_mq_create handle).overload_threshold = 1024 :=
  ⟨(head_eq_tail_iff (create_inv handle).1).1 rfl, rfl, rfl⟩

theorem pop_after_pushes (handle : Nat) (msgs : List skynet_message)
    (h0 : 0 < msgs.length) (hb : msgs.length < 1073741824) :
    ∃ (q : message_queue) (outs : List (Int × Option skynet_message)) (k : Nat),
      mq_run (skynet_mq_create handle) (msgs.map mq_call.push ++ [mq_call.pop])
        = some (q, outs) ∧
      ((msgs.length : Int) - 1 ≤ 1024 * 2 ^ k) ∧
      (k = 0 → q.overload = 0) ∧
      (k ≠ 0 → q.overload = (msgs.length : Int) - 1 ∧
        (1024 : Int) * 2 ^ (k - 1) < (msgs.length : Int) - 1) := by
  obtain ⟨c1, c2, c3⟩ := create_fields handle
  obtain ⟨q1, r1, r2, _, r4, r5, r6⟩ := run_pushes msgs (skynet_mq_create handle)
    (create_inv handle) (by rw [c1]; omega)
  rw [c1] at r4
  rw [c2] at r5
  rw [c3] at r6
  have hne : q1.head ≠ q1.tail := by
    rw [Ne, head_eq_tail_iff r2.1, r4]; omega
  obtain ⟨k, o, hpop, hle, hk0, hk1⟩ := pop_nonempty r2.1 hne
  rw [r4, r6] at hle hk1
  rw [r5] at hk0
  refine ⟨{ q1 with head := (if q1.head + 1 ≥ q1.cap then 0 else q1.head + 1), overload := o,
                     overload_threshold := q1.overload_threshold * 2 ^ k },
    [(0, some (q1.queue q1.head))], k, ?_, by simpa using hle, ?_, ?_⟩
  · rw [mq_run_append, r1]
    simp only [Option.some_bind, mq_run, hpop, Option.map_some', List.nil_append]
  · intro h; exact hk0 h
  · intro h
    obtain ⟨a, b⟩ := hk1 h
    exact ⟨by simpa using a, by simpa using b⟩

theorem one_le_two_pow_int (k : Nat) : (1 : Int) ≤ 2 ^ k := one_le_pow₀ (by norm_num)

end Skynet

namespace Skynet

/-! ## The global queue as a list of mailboxes -/

theorem mem_set_same (mem : Nat → Option message_queue) (p : Nat) (q : Option message_queue) :
    mem_set mem p q p = q := by
  simp [mem_set]

theorem mem_set_other (mem : Nat → Option message_queue) {p a : Nat}
    (q : Option message_queue) (h : a ≠ p) : mem_set mem p q a = mem a := by
  simp [mem_set, h]

/-- Rewriting a mailbox without touching its `next` link keeps every chain. -/
theorem ready_chain_update (mem : Nat → Option message_queue) (p : Nat)
    (q q' : message_queue) (hp : mem p = some q) (hn : q'.next = q.next) (l : List Nat) :
    ∀ h, ready_chain mem h l → ready_chain (mem_set mem p (some q')) h l := by
  induction l with
  | nil => intro h hc; exact hc
  | cons a l ih =>
    intro h hc
    obtain ⟨h1, qa, h2, h3⟩ := hc
    by_cases hap : a = p
    · subst hap
      rw [hp] at h2
      simp only [Option.some.injEq] at h2
      subst h2
      exact ⟨h1, q', mem_set_same _ _ _, by rw [hn]; exact ih _ h3⟩
    · exact ⟨h1, qa, by rw [mem_set_other _ _ hap]; exact h2, ih _ h3⟩

/-- Writing a mailbox that is not on the chain keeps the chain. -/
theorem ready_chain_update_off (mem : Nat → Option message_queue) (p : Nat)
    (q' : Option message_queue) (l : List Nat) (hp : p ∉ l) :
    ∀ h, ready_chain mem h l → ready_chain (mem_set mem p q') h l := by
  induction l with
  | nil => intro h hc; exact hc
  | cons a l ih =>
    intro h hc
    obtain ⟨h1, qa, h2, h3⟩ := hc
    have hap : a ≠ p := fun e => hp (by rw [e]; exact List.mem_cons_self _ _)
    exact ⟨h1, qa, by rw [mem_set_other _ _ hap]; exact h2,
      ih (fun hm => hp (List.mem_cons_of_mem _ hm)) _ h3⟩

/-- Linking `p` behind the last mailbox `t` of a chain. -/
theorem ready_chain_snoc (mem : Nat → Option message_queue) (t p : Nat)
    (tq qp : message_queue) (hp : mem p = some qp)
    (hpn : qp.next = none) (l : List Nat) :
    ∀ h, ready_chain mem h (l ++ [t]) → (l ++ [t]).Nodup → p ∉ l ++ [t] →
      ready_chain (mem_set mem t (some { tq with next := some p })) h (l ++ [t] ++ [p]) := by
  induction l with
  | nil =>
    intro h hc _ hpl
    obtain ⟨h1, _, _, _⟩ := hc
    have hpt : p ≠ t := fun e => hpl (by simp [e])
    refine ⟨h1, _, mem_set_same _ _ _, rfl, qp, ?_, ?_⟩
    · rw [mem_set_other _ _ hpt]; exact hp
    · rw [hpn]; rfl
  | cons a l ih =>
    intro h hc hnd hpl
    obtain ⟨h1, qa, h2, h3⟩ := hc
    have hat : a ≠ t := by
      intro e
      rw [List.cons_append, List.nodup_cons] at hnd
      exact hnd.1 (by simp [e])
    refine ⟨h1, qa, by rw [mem_set_other _ _ hat]; exact h2, ?_⟩
    apply ih _ h3
    · rw [List.cons_append, List.nodup_cons] at hnd
      exact hnd.2
    · intro hm
      exact hpl (by rw [List.cons_append]; exact List.mem_cons_of_mem _ hm)

theorem ready_chain_last (mem : Nat → Option message_queue) (l : List Nat) (t : Nat) :
    ∀ h, ready_chain mem h (l ++ [t]) → ∃ tq, mem t = some tq ∧ tq.next = none := by
  induction l with
  | nil =>
    intro h hc
    obtain ⟨_, qa, h2, h3⟩ := hc
    exact ⟨qa, h2, h3⟩
  | cons a l ih =>
    intro h hc
    obtain ⟨_, qa, _, h3⟩ := hc
    exact ih _ h3

/-- Effect of `skynet_globalmq_push` on a queue that holds `l`, for a mailbox
that is not linked. -/
theorem globalmq_push_list {s : mq_state} {l : List Nat} {p : Nat} {qp : message_queue}
    (hl : ready_list s l) (hnd : l.Nodup) (hp : s.mem p = some qp) (hpn : qp.next = none)
    (hpl : p ∉ l) :
    ∃ s', skynet_globalmq_push s p = some s' ∧ ready_list s' (l ++ [p]) ∧
      s'.mem p = some qp ∧
      (∀ a q, s.mem a = some q → ∃ nx, s'.mem a = some { q with next := nx }) ∧
      (∀ a, s.mem a = none → s'.mem a = none) := by
  obtain ⟨hc, ht⟩ := hl
  rcases List.eq_nil_or_concat l with hnil | ⟨l0, t, hlt⟩
  · subst hnil
    simp only [List.getLast?_nil] at ht
    refine ⟨{ Q := { head := some p, tail := some p }, mem := s.mem }, ?_, ?_, hp, ?_, ?_⟩
    · simp [skynet_globalmq_push, hp, hpn, ht]
    · exact ⟨⟨rfl, qp, hp, by rw [hpn]; rfl⟩, by simp⟩
    · intro a q ha
      exact ⟨q.next, ha⟩
    · intro a ha
      exact ha
  · have hlt' : l = l0 ++ [t] := by rw [hlt]; simp
    subst hlt'
    rw [List.getLast?_concat] at ht
    obtain ⟨tq, htq, _⟩ := ready_chain_last s.mem l0 t _ hc
    have hpt : p ≠ t := fun e => hpl (by simp [e])
    refine ⟨{ Q := { head := s.Q.head, tail := some p },
              mem := mem_set s.mem t (some { tq with next := some p }) }, ?_, ?_, ?_, ?_, ?_⟩
    · simp [skynet_globalmq_push, hp, hpn, ht, htq]
    · exact ⟨ready_chain_snoc s.mem t p tq qp hp hpn l0 _ hc hnd hpl, by simp⟩
    · show mem_set s.mem t _ p = some qp
      rw [mem_set_other _ _ hpt]; exact hp
    · intro a q ha
      by_cases hat : a = t
      · subst hat
        rw [htq] at ha
        simp only [Option.some.injEq] at ha
        subst ha
        exact ⟨some p, mem_set_same _ _ _⟩
      · refine ⟨q.next, ?_⟩
        show mem_set s.mem t _ a = _
        rw [mem_set_other _ _ hat]
        exact ha
    · intro a ha
      have hat : a ≠ t := by
        intro e; rw [e, htq] at ha; simp at ha
      show mem_set s.mem t _ a = _
      rw [mem_set_other _ _ hat]
      exact ha

end Skynet

namespace Skynet

/-! ## The invariant of the global queue under the calling discipline -/

theorem ready_chain_none (mem : Nat → Option message_queue) (l : List Nat)
    (h : ready_chain mem none l) : l = [] := by
  cases l with
  | nil => rfl
  | cons a l => exact absurd h.1 (by simp)

theorem ready_chain_unique (mem : Nat → Option message_queue) (l : List Nat) :
    ∀ h l', ready_chain mem h l → ready_chain mem h l' → l = l' := by
  induction l with
  | nil =>
    intro h l' h1 h2
    have : h = none := h1
    subst this
    exact (ready_chain_none mem l' h2).symm
  | cons a l ih =>
    intro h l' h1 h2
    obtain ⟨e1, qa, m1, c1⟩ := h1
    cases l' with
    | nil =>
      have : h = none := h2
      rw [this] at e1; simp at e1
    | cons b l' =>
      obtain ⟨e2, qb, m2, c2⟩ := h2
      rw [e1] at e2
      simp only [Option.some.injEq] at e2
      subst e2
      rw [m1] at m2
      simp only [Option.some.injEq] at m2
      subst m2
      rw [ih _ _ c1 c2]

theorem ready_chain_walk (mem : Nat → Option message_queue) (l : List Nat) :
    ∀ h n, ready_chain mem h l → ready_walk mem n h = l.take n := by
  induction l with
  | nil =>
    intro h n hc
    have : h = none := hc
    subst this
    cases n <;> rfl
  | cons a l ih =>
    intro h n hc
    obtain ⟨e1, qa, m1, c1⟩ := hc
    subst e1
    cases n with
    | zero => rfl
    | succ n =>
      simp only [ready_walk, m1, List.take_succ_cons]
      rw [ih _ n c1]

theorem ready_chain_alloc (mem : Nat → Option message_queue) (l : List Nat) :
    ∀ h, ready_chain mem h l → ∀ p ∈ l, ∃ q, mem p = some q := by
  induction l with
  | nil => intro h _ p hp; simp at hp
  | cons a l ih =>
    intro h hc p hp
    obtain ⟨_, qa, m1, c1⟩ := hc
    rcases List.mem_cons.1 hp with e | hm
    · subst e; exact ⟨qa, m1⟩
    · exact ih _ c1 p hm

/-- Writing a mailbox that keeps its `next` link and its flags admissible. -/
theorem ready_inv_update {s : mq_state} {l : List Nat} {p : Nat} {q q' : message_queue}
    (hi : ready_inv s l) (hp : s.mem p = some q) (hn : q'.next = q.next)
    (hf : p ∈ l → (q'.in_global = 1 ∨ q'.release ≠ 0)) :
    ready_inv { s with mem := mem_set s.mem p (some q') } l := by
  obtain ⟨hl, hnd, hfl⟩ := hi
  refine ⟨⟨ready_chain_update s.mem p q q' hp hn l _ hl.1, hl.2⟩, hnd, ?_⟩
  intro a ha
  by_cases hap : a = p
  · subst hap
    exact ⟨q', mem_set_same _ _ _, hf ha⟩
  · obtain ⟨qa, h1, h2⟩ := hfl a ha
    exact ⟨qa, by show mem_set s.mem p _ a = _; rw [mem_set_other _ _ hap]; exact h1, h2⟩

/-- Writing (or freeing) a mailbox that is not linked. -/
theorem ready_inv_update_off {s : mq_state} {l : List Nat} {p : Nat}
    (hi : ready_inv s l) (q' : Option message_queue) (hpl : p ∉ l) :
    ready_inv { s with mem := mem_set s.mem p q' } l := by
  obtain ⟨hl, hnd, hfl⟩ := hi
  refine ⟨⟨ready_chain_update_off s.mem p q' l hpl _ hl.1, hl.2⟩, hnd, ?_⟩
  intro a ha
  have hap : a ≠ p := fun e => hpl (by rw [← e]; exact ha)
  obtain ⟨qa, h1, h2⟩ := hfl a ha
  exact ⟨qa, by show mem_set s.mem p _ a = _; rw [mem_set_other _ _ hap]; exact h1, h2⟩

/-- A successful `skynet_globalmq_push` of a mailbox that is not linked and
whose flags are admissible. -/
theorem ready_inv_link {s s1 : mq_state} {l : List Nat} {p : Nat} {qp : message_queue}
    (hi : ready_inv s l) (hp : s.mem p = some qp) (hpl : p ∉ l)
    (hf : qp.in_global = 1 ∨ qp.release ≠ 0)
    (h : skynet_globalmq_push s p = some s1) : ready_inv s1 (l ++ [p]) := by
  obtain ⟨hl, hnd, hfl⟩ := hi
  have hpn : qp.next = none := by
    by_contra hne
    simp [skynet_globalmq_push, hp, hne] at h
  obtain ⟨s', h1, h2, h3, h4, _⟩ := globalmq_push_list hl hnd hp hpn hpl
  rw [h1] at h
  simp only [Option.some.injEq] at h
  subst h
  refine ⟨h2, ?_, ?_⟩
  · rw [List.nodup_append]
    refine ⟨hnd, List.nodup_singleton _, ?_⟩
    intro a ha hb
    rw [List.mem_singleton] at hb
    subst hb
    exact hpl ha
  · intro a ha
    rcases List.mem_append.1 ha with hm | hm
    · obtain ⟨qa, g1, g2⟩ := hfl a hm
      obtain ⟨nx, g3⟩ := h4 a qa g1
      exact ⟨_, g3, g2⟩
    · rw [List.mem_singleton] at hm
      subst hm
      exact ⟨qp, h3, hf⟩

/-- Function `skynet_globalmq_pop` removes the first linked mailbox. -/
theorem ready_inv_unlink {s : mq_state} {l : List Nat}
    {r : Option Nat × mq_state} (hi : ready_inv s l)
    (h : skynet_globalmq_pop s = some r) :
    ready_inv r.2 l.tail ∧ r.1 = l.head? := by
  obtain ⟨⟨hc, ht⟩, hnd, hfl⟩ := hi
  cases l with
  | nil =>
    have hh : s.Q.head = none := hc
    simp only [skynet_globalmq_pop, hh, Option.some.injEq] at h
    subst h
    exact ⟨⟨⟨hc, ht⟩, hnd, hfl⟩, rfl⟩
  | cons a t =>
    obtain ⟨e1, qa, m1, c1⟩ := hc
    rw [List.nodup_cons] at hnd
    have hflt : ∀ (mem' : Nat → Option message_queue),
        mem' = mem_set s.mem a (some { qa with next := none }) →
        ∀ p ∈ t, ∃ q, mem' p = some q ∧ (q.in_global = 1 ∨ q.release ≠ 0) := by
      intro mem' hm p hp
      have hpa : p ≠ a := fun e => hnd.1 (by rw [← e]; exact hp)
      obtain ⟨q, g1, g2⟩ := hfl p (List.mem_cons_of_mem _ hp)
      exact ⟨q, by rw [hm, mem_set_other _ _ hpa]; exact g1, g2⟩
    by_cases hn : qa.next = none
    · rw [hn] at c1
      have htn := ready_chain_none _ _ c1
      subst htn
      have htl : s.Q.tail = some a := by simpa using ht
      simp only [skynet_globalmq_pop, e1, m1, hn, if_true, htl, ne_eq, not_true_eq_false,
        if_false, Option.some.injEq] at h
      subst h
      exact ⟨⟨⟨rfl, rfl⟩, List.nodup_nil, by intro p hp; simp at hp⟩, rfl⟩
    · simp only [skynet_globalmq_pop, e1, m1, hn, if_false, Option.some.injEq] at h
      subst h
      refine ⟨⟨⟨ready_chain_update_off s.mem a _ t hnd.1 _ c1, ?_⟩, hnd.2, hflt _ rfl⟩, rfl⟩
      show s.Q.tail = t.getLast?
      rw [ht]
      cases t with
      | nil =>
        have : qa.next = none := c1
        exact absurd this hn
      | cons b t => rfl

/-- One call that follows the discipline keeps the invariant. -/
theorem ready_inv_step {s s1 : mq_state} {l : List Nat} {op : mq_op}
    (hi : ready_inv s l) (hok : mq_op_ok s l op) (h : mq_apply s op = some s1) :
    ∃ l1, ready_inv s1 l1 := by
  cases op with
  | create p handle =>
    simp only [mq_apply, mq_create_at] at h
    cases hp : s.mem p with
    | some q => rw [hp] at h; simp at h
    | none =>
      rw [hp] at h
      simp only [Option.some.injEq] at h
      subst h
      have hpl : p ∉ l := by
        intro hm
        obtain ⟨q, hq⟩ := ready_chain_alloc s.mem l _ hi.1.1 p hm
        rw [hp] at hq; simp at hq
      exact ⟨l, ready_inv_update_off hi _ hpl⟩
  | push p m =>
    simp only [mq_apply, mq_push_at] at h
    cases hp : s.mem p with
    | none => rw [hp] at h; simp at h
    | some q =>
      rw [hp] at h
      simp only at h
      have hrel : q.release = 0 := hok q hp
      obtain ⟨_, _, f3, _, f5⟩ := push_frame q m
      have hig : (skynet_mq_push q m).1.in_global = (if q.in_global = 0 then 1 else q.in_global) := by
        unfold skynet_mq_push expand_queue
        simp only
        split_ifs <;> simp_all [MQ_IN_GLOBAL]
      rw [push_link] at h
      by_cases hg : q.in_global = 0
      · have hpl : p ∉ l := by
          intro hm
          obtain ⟨q0, g1, g2⟩ := hi.2.2 p hm
          rw [hp] at g1
          simp only [Option.some.injEq] at g1
          subst g1
          rcases g2 with g | g
          · rw [hg] at g; simp at g
          · exact g hrel
        simp only [hg, decide_True, if_true] at h
        have hi1 := ready_inv_update_off hi (some (skynet_mq_push q m).1) hpl
        exact ⟨l ++ [p], ready_inv_link hi1 (mem_set_same _ _ _) hpl
          (Or.inl (by rw [hig, if_pos hg])) h⟩
      · simp only [hg, decide_False] at h
        simp only [Bool.false_eq_true, if_false, Option.some.injEq] at h
        subst h
        refine ⟨l, ready_inv_update hi hp f5 ?_⟩
        intro hm
        obtain ⟨q0, g1, g2⟩ := hi.2.2 p hm
        rw [hp] at g1
        simp only [Option.some.injEq] at g1
        subst g1
        rw [hig, if_neg hg, f3]
        exact g2
  | pop p =>
    simp only [mq_apply, mq_pop_at] at h
    cases hp : s.mem p with
    | none => rw [hp] at h; simp at h
    | some q =>
      rw [hp] at h
      simp only at h
      cases hr : skynet_mq_pop q with
      | none => rw [hr] at h; simp at h
      | some r =>
        rw [hr] at h
        simp only [Option.map_some', Option.some.injEq] at h
        subst h
        exact ⟨l, ready_inv_update_off hi _ hok⟩
  | globalmq_push p =>
    simp only [mq_apply] at h
    cases hp : s.mem p with
    | none => simp [skynet_globalmq_push, hp] at h
    | some q => exact ⟨l ++ [p], ready_inv_link hi hp hok.1 (Or.inl (hok.2 q hp)) h⟩
  | globalmq_pop =>
    simp only [mq_apply] at h
    cases hr : skynet_globalmq_pop s with
    | none => rw [hr] at h; simp at h
    | some r =>
      rw [hr] at h
      simp only [Option.map_some', Option.some.injEq] at h
      subst h
      exact ⟨l.tail, (ready_inv_unlink hi hr).1⟩
  | mark_release p =>
    simp only [mq_apply, skynet_mq_mark_release] at h
    cases hp : s.mem p with
    | none => rw [hp] at h; simp at h
    | some q =>
      rw [hp] at h
      simp only at h
      by_cases hrel : q.release = 0
      · simp only [hrel, ne_eq, not_true_eq_false, if_false] at h
        by_cases hg : q.in_global = MQ_IN_GLOBAL
        · simp only [hg, not_true_eq_false, if_false, Option.some.injEq] at h
          subst h
          exact ⟨l, ready_inv_update hi hp rfl (fun _ => Or.inr (by simp))⟩
        · simp only [hg, not_false_eq_true, if_true] at h
          have hpl : p ∉ l := by
            intro hm
            obtain ⟨q0, g1, g2⟩ := hi.2.2 p hm
            rw [hp] at g1
            simp only [Option.some.injEq] at g1
            subst g1
            rcases g2 with g | g
            · exact hg g
            · exact g hrel
          have hi1 := ready_inv_update_off hi (some { q with release := 1 }) hpl
          exact ⟨l ++ [p], ready_inv_link hi1 (mem_set_same _ _ _) hpl (Or.inr (by simp)) h⟩
      · simp [hrel] at h
  | release p =>
    simp only [mq_apply, skynet_mq_release] at h
    cases hp : s.mem p with
    | none => rw [hp] at h; simp at h
    | some q =>
      rw [hp] at h
      simp only at h
      by_cases hrel : q.release = 0
      · simp only [hrel, ne_eq, not_true_eq_false, if_false, Option.map_map] at h
        cases hg : skynet_globalmq_push s p with
        | none => rw [hg] at h; simp at h
        | some s2 =>
          rw [hg] at h
          simp only [Option.map_some', Function.comp, Option.some.injEq] at h
          subst h
          exact ⟨l ++ [p], ready_inv_link hi hp hok.1 (Or.inl (hok.2 q hp hrel)) hg⟩
      · simp only [hrel, ne_eq, not_false_eq_true, if_true, _drop_queue, hp] at h
        cases hd : drop_loop 4294967296 q with
        | none => rw [hd] at h; simp at h
        | some r =>
          rw [hd] at h
          simp only [_release, mem_set_same] at h
          by_cases hn : r.1.next = none
          · simp only [hn, ne_eq, not_true_eq_false, if_false, Option.map_some',
              Option.some.injEq] at h
            subst h
            have e : mem_set (mem_set s.mem p (some r.1)) p none = mem_set s.mem p none := by
              funext a
              by_cases ha : a = p
              · subst ha; simp [mem_set]
              · simp [mem_set, ha]
            show ∃ l1, ready_inv { Q := s.Q, mem := mem_set (mem_set s.mem p (some r.1)) p none } l1
            rw [e]
            exact ⟨l, ready_inv_update_off hi _ hok.1⟩
          · simp [hn] at h

theorem init_ready_inv : ready_inv skynet_mq_init [] :=
  ⟨⟨rfl, rfl⟩, List.nodup_nil, by intro p hp; simp at hp⟩

theorem mq_reach_ready_inv {s : mq_state} (h : mq_reach s) : ∃ l, ready_inv s l := by
  induction h with
  | init => exact ⟨[], init_ready_inv⟩
  | step s s1 l op _ hl hok happ ih =>
    obtain ⟨l0, hi⟩ := ih
    have e : l0 = l := ready_chain_unique s.mem l0 _ l hi.1.1 hl.1
    subst e
    exact ready_inv_step hi hok happ

end Skynet

namespace Skynet

/-! ## Bit operations of the wheel in arithmetic form -/

theorem or_mask_eq_iff (a b k : Nat) :
    (a ||| (2 ^ k - 1)) = (b ||| (2 ^ k - 1)) ↔ a / 2 ^ k = b / 2 ^ k := by
  rw [← Nat.shiftRight_eq_div_pow, ← Nat.shiftRight_eq_div_pow]
  constructor
  · intro h
    apply Nat.eq_of_testBit_eq
    intro j
    have := congrArg (fun x => x.testBit (k + j)) h
    simp only [Nat.testBit_or, Nat.testBit_two_pow_sub_one] at this
    have hk : ¬ (k + j < k) := by omega
    simpa [Nat.testBit_shiftRight, hk] using this
  · intro h
    apply Nat.eq_of_testBit_eq
    intro i
    simp only [Nat.testBit_or, Nat.testBit_two_pow_sub_one]
    by_cases hi : i < k
    · simp [hi]
    · have := congrArg (fun x => x.testBit (i - k)) h
      simp only [Nat.testBit_shiftRight] at this
      have e : k + (i - k) = i := by omega
      rw [e] at this
      simp [hi, this]

theorem near_test_iff (e t : Nat) :
    (e ||| TIME_NEAR_MASK) = (t ||| TIME_NEAR_MASK) ↔ e / 256 = t / 256 :=
  or_mask_eq_iff e t 8

theorem add_node_loop_eq (e t : Nat) :
    add_node_loop 3 0 (TIME_NEAR <<< TIME_LEVEL_SHIFT) e t
      = if e / 16384 = t / 16384 then 0
        else if e / 1048576 = t / 1048576 then 1
        else if e / 67108864 = t / 67108864 then 2 else 3 := by
  have h1 := or_mask_eq_iff e t 14
  have h2 := or_mask_eq_iff e t 20
  have h3 := or_mask_eq_iff e t 26
  have m1 : TIME_NEAR <<< TIME_LEVEL_SHIFT = 16384 := by decide
  have m2 : uint32 (16384 <<< TIME_LEVEL_SHIFT) = 1048576 := by decide
  have m3 : uint32 (1048576 <<< TIME_LEVEL_SHIFT) = 67108864 := by decide
  norm_num at h1 h2 h3
  simp only [add_node_loop, m1, m2, m3]
  norm_num
  simp only [h1, h2, h3]

/-- The bucket that `add_node` writes. -/
theorem add_node_eq (T : timer) (node : timer_node) :
    add_node T node
      = match place node.expire T.time with
        | bucket_id.near i => { T with near := near_set T.near i (T.near i ++ [node]) }
        | bucket_id.level i j => { T with t := t_set T.t i j (T.t i j ++ [node]) } := by
  unfold add_node place
  simp only [near_test_iff, add_node_loop_eq, link]
  have a0 : ∀ x : Nat, x &&& TIME_NEAR_MASK = x % 256 := fun x =>
    Nat.and_pow_two_sub_one_eq_mod x 8
  have a1 : ∀ x : Nat, x &&& TIME_LEVEL_MASK = x % 64 := fun x =>
    Nat.and_pow_two_sub_one_eq_mod x 6
  simp only [a0, a1, Nat.shiftRight_eq_div_pow, TIME_NEAR_SHIFT, TIME_LEVEL_SHIFT]
  split_ifs <;> norm_num

theorem timer_shift_loop_eq (T : timer) (ct : Nat) (h0 : ct ≠ 0) (hlt : ct < 4294967296) :
    timer_shift_loop 32 T ct TIME_NEAR (ct >>> TIME_NEAR_SHIFT) 0
      = some (cascade_apply T (cascade ct)) := by
  have a0 : ∀ x k : Nat, x &&& (2 ^ k - 1) = x % 2 ^ k := Nat.and_pow_two_sub_one_eq_mod
  have b8 := a0 ct 8
  have b14 := a0 ct 14
  have b20 := a0 ct 20
  have b26 := a0 ct 26
  have a1 : ∀ x : Nat, x &&& TIME_LEVEL_MASK = x % 64 := fun x =>
    Nat.and_pow_two_sub_one_eq_mod x 6
  norm_num at b8 b14 b20 b26
  have m0 : TIME_NEAR = 256 := by decide
  have m1 : 256 <<< TIME_LEVEL_SHIFT = 16384 := by decide
  have m2 : 16384 <<< TIME_LEVEL_SHIFT = 1048576 := by decide
  have m3 : 1048576 <<< TIME_LEVEL_SHIFT = 67108864 := by decide
  have s0 : ct >>> TIME_NEAR_SHIFT = ct / 256 := Nat.shiftRight_eq_div_pow ct 8
  have s1 : ∀ x : Nat, x >>> TIME_LEVEL_SHIFT = x / 64 := fun x => Nat.shiftRight_eq_div_pow x 6
  have d1 : ct / 256 / 64 = ct / 16384 := by omega
  have d2 : ct / 16384 / 64 = ct / 1048576 := by omega
  have d3 : ct / 1048576 / 64 = ct / 67108864 := by omega
  unfold cascade
  rw [if_neg h0]
  simp only [timer_shift_loop, m0, m1, m2, m3, s0, s1, a1, d1, d2, d3]
  norm_num
  simp only [b8, b14, b20, b26]
  by_cases c0 : ct % 256 = 0
  · by_cases c1 : ct / 256 % 64 = 0
    · have e14 : ct % 16384 = 0 := by omega
      by_cases c2 : ct / 16384 % 64 = 0
      · have e20 : ct % 1048576 = 0 := by omega
        by_cases c3 : ct / 1048576 % 64 = 0
        · have e26 : ct % 67108864 = 0 := by omega
          have c4 : ¬ ct / 67108864 % 64 = 0 := by omega
          simp [c0, c1, c2, c3, c4, e14, e20, e26, cascade_apply]
        · simp [c0, c1, c2, c3, e14, e20, cascade_apply]
      · simp [c0, c1, c2, e14, cascade_apply]
    · simp [c0, c1, cascade_apply]
  · simp [c0, cascade_apply]

/-- Function `timer_shift` always returns: it advances the tick modulo `2 ^ 32`
and re-inserts the bucket named by `cascade`. -/
theorem timer_shift_eq (T : timer) :
    timer_shift T
      = some (cascade_apply { T with time := (T.time + 1) % 4294967296 }
          (cascade ((T.time + 1) % 4294967296))) := by
  have hlt : (T.time + 1) % 4294967296 < 4294967296 := Nat.mod_lt _ (by norm_num)
  unfold timer_shift
  simp only [uint32]
  by_cases h0 : (T.time + 1) % 4294967296 = 0
  · simp [h0, cascade, cascade_apply]
  · rw [if_neg h0]
    exact timer_shift_loop_eq _ _ h0 hlt

end Skynet

namespace Skynet

/-! ## One update of the wheel in closed form -/

theorem bucket_bucket_set (T : timer) (b b' : bucket_id) (l : link_list) :
    bucket (bucket_set T b l) b' = if b' = b then l else bucket T b' := by
  cases b <;> cases b' <;> simp [bucket, bucket_set, near_set, t_set]

theorem time_bucket_set (T : timer) (b : bucket_id) (l : link_list) :
    (bucket_set T b l).time = T.time := by
  cases b <;> rfl

theorem add_node_bucket_set (T : timer) (node : timer_node) :
    add_node T node
      = bucket_set T (place node.expire T.time)
          (bucket T (place node.expire T.time) ++ [node]) := by
  rw [add_node_eq]
  cases place node.expire T.time <;> rfl

theorem time_add_node (T : timer) (node : timer_node) : (add_node T node).time = T.time := by
  rw [add_node_bucket_set, time_bucket_set]

theorem time_foldl_add_node (ns : List timer_node) :
    ∀ T : timer, (ns.foldl add_node T).time = T.time := by
  induction ns with
  | nil => intro T; rfl
  | cons n ns ih => intro T; rw [List.foldl_cons, ih, time_add_node]

/-- Occurrences of a node in a bucket after `add_node`. -/
theorem count_add_node (x : timer_node) (T : timer) (node : timer_node) (b : bucket_id) :
    (bucket (add_node T node) b).count x
      = (bucket T b).count x
        + (if b = place node.expire T.time ∧ node = x then 1 else 0) := by
  rw [add_node_bucket_set, bucket_bucket_set]
  by_cases hb : b = place node.expire T.time
  · subst hb
    by_cases hx : node = x
    · subst hx; simp
    · simp [hx, List.count_cons]
  · simp [hb]

theorem count_foldl_add_node (x : timer_node) (ns : List timer_node) (b : bucket_id) :
    ∀ T : timer, (bucket (ns.foldl add_node T) b).count x
      = (bucket T b).count x + (if b = place x.expire T.time then ns.count x else 0) := by
  induction ns with
  | nil => intro T; simp
  | cons n ns ih =>
    intro T
    rw [List.foldl_cons, ih, time_add_node, count_add_node]
    by_cases hx : n = x
    · subst hx
      by_cases hb : b = place n.expire T.time
      · simp [hb]; omega
      · simp [hb]
    · have : ¬ (x = n) := fun h => hx h.symm
      simp [hx, List.count_cons, this]

theorem move_list_eq (T : timer) (i j : Nat) :
    move_list T i j = (T.t i j).foldl add_node (bucket_set T (bucket_id.level i j) []) := rfl

theorem time_move_list (T : timer) (i j : Nat) : (move_list T i j).time = T.time := by
  rw [move_list_eq, time_foldl_add_node, time_bucket_set]

theorem cascade_level {ct : Nat} {b : bucket_id} (h : cascade ct = some b) :
    ∃ i j, b = bucket_id.level i j := by
  unfold cascade at h
  split_ifs at h <;> simp at h <;> exact ⟨_, _, h.symm⟩

theorem time_cascade_apply (T : timer) (c : Option bucket_id) :
    (cascade_apply T c).time = T.time := by
  cases c with
  | none => rfl
  | some b =>
    cases b with
    | near i => rfl
    | level i j => exact time_move_list T i j

/-- Occurrences of a node in a bucket after the re-insertion of `timer_shift`. -/
theorem count_cascade_apply (x : timer_node) (T : timer) (ct : Nat) (b : bucket_id) :
    (bucket (cascade_apply T (cascade ct)) b).count x
      = (if cascade ct = some b then 0 else (bucket T b).count x)
        + (if b = place x.expire T.time then
            ((cascade ct).map (fun b' => (bucket T b').count x)).getD 0
           else 0) := by
  cases hc : cascade ct with
  | none => simp [cascade_apply]
  | some c =>
    obtain ⟨i, j, rfl⟩ := cascade_level hc
    simp only [cascade_apply, move_list_eq]
    rw [count_foldl_add_node, bucket_bucket_set, time_bucket_set]
    by_cases hb : b = bucket_id.level i j
    · subst hb; simp [bucket]
    · have : ¬ (bucket_id.level i j = b) := fun h => hb h.symm
      simp [hb, this, bucket]

theorem near_set_nil_of_nil (T : timer) (idx : Nat) (h : T.near idx = []) :
    bucket_set T (bucket_id.near idx) [] = T := by
  have : near_set T.near idx [] = T.near := by
    funext a
    by_cases ha : a = idx
    · subst ha; simp [near_set, h]
    · simp [near_set, ha]
  simp [bucket_set, this]

/-- Function `timer_execute` always returns: it empties the bucket of the
current tick and gives its nodes to `dispatch_list`. -/
theorem timer_execute_eq {σ : Type} (R : runtime σ) (T : timer) (w : σ)
    (handed : List timer_node) :
    ∃ w', timer_execute R T w handed
      = some (bucket_set T (bucket_id.near (T.time % 256)) [], w',
          handed ++ T.near (T.time % 256)) := by
  have a0 : T.time &&& TIME_NEAR_MASK = T.time % 256 := Nat.and_pow_two_sub_one_eq_mod T.time 8
  unfold timer_execute
  simp only [a0]
  by_cases h : T.near (T.time % 256) = []
  · refine ⟨w, ?_⟩
    rw [near_set_nil_of_nil T _ h, h]
    simp [timer_execute_loop, h]
  · obtain ⟨n, ns, hn⟩ : ∃ n ns, T.near (T.time % 256) = n :: ns := by
      cases hl : T.near (T.time % 256) with
      | nil => exact absurd hl h
      | cons n ns => exact ⟨n, ns, rfl⟩
    refine ⟨dispatch_nodes R (T.near (T.time % 256)) w, ?_⟩
    rw [timer_execute_loop]
    simp only [h, ne_eq, not_false_eq_true, if_true, link_clear]
    rw [hn]
    simp only [dispatch_list]
    rw [timer_execute_loop]
    simp [near_set, bucket_set]

/-- Function `timer_update` always returns, and its effect on the wheel is `wheel_step`. -/
theorem timer_update_eq {σ : Type} (R : runtime σ) (T : timer) (w : σ) :
    ∃ w', timer_update R T w = some ((wheel_step T).1, w', (wheel_step T).2) := by
  obtain ⟨w1, h1⟩ := timer_execute_eq R T w []
  have ht1 : (bucket_set T (bucket_id.near (T.time % 256)) []).time = T.time :=
    time_bucket_set _ _ _
  have h2 := timer_shift_eq (bucket_set T (bucket_id.near (T.time % 256)) [])
  rw [ht1] at h2
  obtain ⟨w2, h3⟩ := timer_execute_eq R
    (cascade_apply { bucket_set T (bucket_id.near (T.time % 256)) [] with
        time := (T.time + 1) % 4294967296 } (cascade ((T.time + 1) % 4294967296)))
    w1 ([] ++ T.near (T.time % 256))
  rw [time_cascade_apply] at h3
  refine ⟨w2, ?_⟩
  unfold timer_update
  rw [h1]
  simp only [h2, h3]
  rfl

theorem bucket_with_time (T : timer) (ct : Nat) (b : bucket_id) :
    bucket { T with time := ct } b = bucket T b := by
  cases b <;> rfl

/-- Occurrences of a node after `wheel_step`, bucket by bucket, and in the
nodes given to `dispatch_list`. -/
theorem count_wheel_step (x : timer_node) (T : timer) :
    (∀ b, (bucket (wheel_step T).1 b).count x
      = if b = bucket_id.near ((T.time + 1) % 4294967296 % 256) then 0
        else
          (if cascade ((T.time + 1) % 4294967296) = some b then 0
           else if b = bucket_id.near (T.time % 256) then 0 else (bucket T b).count x)
          + (if b = place x.expire ((T.time + 1) % 4294967296) then
              ((cascade ((T.time + 1) % 4294967296)).map (fun b' =>
                 if b' = bucket_id.near (T.time % 256) then 0 else (bucket T b').count x)).getD 0
             else 0)) ∧
    (wheel_step T).2.count x
      = (bucket T (bucket_id.near (T.time % 256))).count x
        + ((if cascade ((T.time + 1) % 4294967296)
                = some (bucket_id.near ((T.time + 1) % 4294967296 % 256)) then 0
            else if bucket_id.near ((T.time + 1) % 4294967296 % 256)
                = bucket_id.near (T.time % 256) then 0
            else (bucket T (bucket_id.near ((T.time + 1) % 4294967296 % 256))).count x)
          + (if bucket_id.near ((T.time + 1) % 4294967296 % 256)
                = place x.expire ((T.time + 1) % 4294967296) then
              ((cascade ((T.time + 1) % 4294967296)).map (fun b' =>
                 if b' = bucket_id.near (T.time % 256) then 0 else (bucket T b').count x)).getD 0
             else 0)) := by
  have key : ∀ b, (bucket (cascade_apply
        { bucket_set T (bucket_id.near (T.time % 256)) [] with
          time := (T.time + 1) % 4294967296 } (cascade ((T.time + 1) % 4294967296))) b).count x
      = (if cascade ((T.time + 1) % 4294967296) = some b then 0
           else if b = bucket_id.near (T.time % 256) then 0 else (bucket T b).count x)
          + (if b = place x.expire ((T.time + 1) % 4294967296) then
              ((cascade ((T.time + 1) % 4294967296)).map (fun b' =>
                 if b' = bucket_id.near (T.time % 256) then 0 else (bucket T b').count x)).getD 0
             else 0) := by
    intro b
    rw [count_cascade_apply]
    simp only [bucket_with_time, bucket_bucket_set]
    have e : ∀ b' : bucket_id,
        List.count x (if b' = bucket_id.near (T.time % 256) then [] else bucket T b')
          = if b' = bucket_id.near (T.time % 256) then 0 else List.count x (bucket T b') := by
      intro b'; split_ifs <;> simp
    simp only [e]
  constructor
  · intro b
    unfold wheel_step
    simp only
    rw [bucket_bucket_set]
    by_cases h : b = bucket_id.near ((T.time + 1) % 4294967296 % 256)
    · rw [if_pos h, if_pos h]; simp
    · rw [if_neg h, if_neg h]
      exact key b
  · unfold wheel_step
    simp only
    rw [List.count_append]
    congr 1
    exact key (bucket_id.near ((T.time + 1) % 4294967296 % 256))

end Skynet

namespace Skynet

/-! ## Two wheels that differ by one occurrence of a node -/

theorem time_wheel_step (T : timer) : (wheel_step T).1.time = (T.time + 1) % 4294967296 := by
  unfold wheel_step
  simp only
  rw [time_bucket_set, time_cascade_apply]

theorem one_more_none_step (x : timer_node) (A B : timer) (h : one_more x none A B) :
    one_more x none (wheel_step A).1 (wheel_step B).1 ∧
      (wheel_step B).2.count x = (wheel_step A).2.count x := by
  obtain ⟨ht, hc⟩ := h
  have hc' : ∀ b, (bucket B b).count x = (bucket A b).count x := by
    intro b; simpa using hc b
  obtain ⟨a1, a2⟩ := count_wheel_step x A
  obtain ⟨b1, b2⟩ := count_wheel_step x B
  refine ⟨⟨by rw [time_wheel_step, time_wheel_step, ht], ?_⟩, ?_⟩
  · intro b
    rw [b1 b, a1 b, ← ht]
    simp only [hc']
    simp
  · rw [b2, a2, ← ht]
    simp only [hc']

theorem one_more_core (cA : bucket_id → Nat) (l n0 n1 p : bucket_id) (c : Option bucket_id)
    (F G F' G' : bucket_id → Nat)
    (hF : ∀ b, F b = if b = n0 then 0 else cA b)
    (hF' : ∀ b, F' b = if b = n0 then 0 else cA b + (if l = b then 1 else 0))
    (hG : ∀ b, G b = (if c = some b then 0 else F b)
        + (if b = p then (c.map F).getD 0 else 0))
    (hG' : ∀ b, G' b = (if c = some b then 0 else F' b)
        + (if b = p then (c.map F').getD 0 else 0))
    (nx : Option bucket_id)
    (hnx : nx = if l = n0 then none
                else if (if c = some l then p else l) = n1 then none
                else some (if c = some l then p else l)) :
    (∀ b, (if b = n1 then 0 else G' b)
        = (if b = n1 then 0 else G b) + (if nx = some b then 1 else 0)) ∧
    (cA n0 + (if l = n0 then 1 else 0)) + G' n1 = cA n0 + G n1 + (if nx = none then 1 else 0) := by
  by_cases h0 : l = n0
  · subst h0
    have e : ∀ b, F' b = F b := by
      intro b; rw [hF, hF']; split_ifs <;> simp_all
    have e1 : F' = F := funext e
    have e2 : ∀ b, G' b = G b := by
      intro b; rw [hG, hG', e1]
    simp only [if_true] at hnx
    subst hnx
    simp [e2]
    omega
  · have e : ∀ b, F' b = F b + (if l = b then 1 else 0) := by
      intro b; rw [hF, hF']; split_ifs <;> simp_all
    simp only [h0, if_false] at hnx
    by_cases h1 : c = some l
    · subst h1
      simp only [if_true] at hnx
      have e2 : ∀ b, G' b = G b + (if b = p then 1 else 0) := by
        intro b; rw [hG, hG']
        simp only [Option.map_some', Option.getD_some, e, if_true]
        by_cases hb : some l = some b
        · have : l = b := Option.some.inj hb
          subst this
          simp only [if_true]
          split_ifs <;> omega
        · have : ¬ l = b := fun h => hb (by rw [h])
          simp only [hb, if_false, this, add_zero]
          split_ifs <;> omega
      by_cases h2 : p = n1
      · subst h2
        simp only [if_true] at hnx
        subst hnx
        constructor
        · intro b; rw [e2]; split_ifs <;> simp_all
        · rw [e2]; simp [h0]; omega
      · simp only [h2, if_false] at hnx
        subst hnx
        have h2' : ¬ n1 = p := fun h => h2 h.symm
        constructor
        · intro b; rw [e2]
          by_cases hb : b = n1
          · subst hb; simp [h2, h2']
          · by_cases hp : b = p
            · subst hp; simp [hb]
            · have : ¬ p = b := fun h => hp h.symm
              simp [hb, hp, this]
        · rw [e2]; simp [h2', h0]
    · simp only [h1, if_false] at hnx
      have e2 : ∀ b, G' b = G b + (if l = b then 1 else 0) := by
        intro b; rw [hG, hG']
        cases c with
        | none => simp only [Option.map_none', Option.getD_none, e]; simp
        | some c0 =>
          have hc0 : ¬ l = c0 := fun h => h1 (by rw [h])
          simp only [Option.map_some', Option.getD_some, e, hc0, if_false, add_zero]
          by_cases hb : some c0 = some b
          · have : c0 = b := Option.some.inj hb
            subst this
            simp [hc0]
          · simp only [hb, if_false]
            omega
      by_cases h2 : l = n1
      · subst h2
        simp only [if_true] at hnx
        subst hnx
        constructor
        · intro b; rw [e2]; split_ifs <;> simp_all
        · rw [e2]; simp [h0]; omega
      · simp only [h2, if_false] at hnx
        subst hnx
        constructor
        · intro b; rw [e2]
          by_cases hb : b = n1
          · subst hb; simp [h2]
          · simp [hb]
        · rw [e2]; simp [h2, h0]

theorem one_more_some_step (x : timer_node) (l : bucket_id) (A B : timer)
    (h : one_more x (some l) A B) :
    one_more x (next_bucket x.expire A.time l) (wheel_step A).1 (wheel_step B).1 ∧
      (wheel_step B).2.count x
        = (wheel_step A).2.count x + (if next_bucket x.expire A.time l = none then 1 else 0) := by
  obtain ⟨ht, hc⟩ := h
  obtain ⟨a1, a2⟩ := count_wheel_step x A
  obtain ⟨b1, b2⟩ := count_wheel_step x B
  rw [← ht] at b1 b2
  simp only [hc, Option.some.injEq] at b1 b2
  obtain ⟨c1, c2⟩ := one_more_core (fun b => (bucket A b).count x) l
    (bucket_id.near (A.time % 256)) (bucket_id.near ((A.time + 1) % 4294967296 % 256))
    (place x.expire ((A.time + 1) % 4294967296)) (cascade ((A.time + 1) % 4294967296))
    _ _ _ _ (fun _ => rfl) (fun _ => rfl) (fun _ => rfl) (fun _ => rfl)
    (next_bucket x.expire A.time l) rfl
  refine ⟨⟨by rw [time_wheel_step, time_wheel_step, ht], ?_⟩, ?_⟩
  · intro b
    rw [b1 b, a1 b]
    exact c1 b
  · rw [b2, a2]
    exact c2

/-- One `timer_update` on two wheels that differ by one occurrence of `x`. -/
theorem one_more_step (x : timer_node) (o : Option bucket_id) (A B : timer)
    (h : one_more x o A B) :
    one_more x (o.bind (next_bucket x.expire A.time)) (wheel_step A).1 (wheel_step B).1 ∧
      (wheel_step B).2.count x
        = (wheel_step A).2.count x
          + (if o ≠ none ∧ o.bind (next_bucket x.expire A.time) = none then 1 else 0) := by
  cases o with
  | none =>
    obtain ⟨h1, h2⟩ := one_more_none_step x A B h
    exact ⟨h1, by simpa using h2⟩
  | some l =>
    obtain ⟨h1, h2⟩ := one_more_some_step x l A B h
    refine ⟨h1, ?_⟩
    rw [h2]
    simp

/-- The same `timer_add` on two wheels that differ by one occurrence of `x`. -/
theorem one_more_add (x : timer_node) (o : Option bucket_id) (A B : timer)
    (arg : timer_event) (time : Int) (h : one_more x o A B) :
    one_more x o (timer_add A arg time) (timer_add B arg time) := by
  obtain ⟨ht, hc⟩ := h
  unfold timer_add
  refine ⟨by rw [time_add_node, time_add_node, ht], ?_⟩
  intro b
  rw [count_add_node, count_add_node, hc b, ← ht]
  simp only
  omega

end Skynet

namespace Skynet

/-! ## Arithmetic of bucket placement and cascading -/

theorem place_ne_current (e t : Nat) (h0 : 0 < ticks_left e t) :
    place e t ≠ bucket_id.near (t % 256) := by
  unfold ticks_left at h0
  unfold place
  split_ifs <;> simp
  omega

theorem place_eq_current_iff (e t : Nat) :
    place e t = bucket_id.near (t % 256) ↔ e = t := by
  unfold place
  split_ifs <;> simp <;> omega

theorem ticks_left_succ (e t : Nat) (he : e < 4294967296)
    (h0 : 0 < ticks_left e t) :
    ticks_left e ((t + 1) % 4294967296) = ticks_left e t - 1 := by
  unfold ticks_left at *
  omega

theorem ticks_left_eq_one_iff (e t : Nat) (he : e < 4294967296) (ht : t < 4294967296) :
    ticks_left e t = 1 ↔ e = (t + 1) % 4294967296 := by
  unfold ticks_left
  omega

theorem place_near {e t : Nat} (h : e / 256 = t / 256) : place e t = bucket_id.near (e % 256) := by
  unfold place; rw [if_pos h]

theorem place_level0 {e t : Nat} (h8 : e / 256 ≠ t / 256) (h14 : e / 16384 = t / 16384) :
    place e t = bucket_id.level 0 (e / 256 % 64) := by
  unfold place; rw [if_neg h8, if_pos h14]

theorem place_level1 {e t : Nat} (h14 : e / 16384 ≠ t / 16384) (h20 : e / 1048576 = t / 1048576) :
    place e t = bucket_id.level 1 (e / 16384 % 64) := by
  have h8 : e / 256 ≠ t / 256 := by omega
  unfold place; rw [if_neg h8, if_neg h14, if_pos h20]

theorem place_level2 {e t : Nat} (h20 : e / 1048576 ≠ t / 1048576)
    (h26 : e / 67108864 = t / 67108864) :
    place e t = bucket_id.level 2 (e / 1048576 % 64) := by
  have h8 : e / 256 ≠ t / 256 := by omega
  have h14 : e / 16384 ≠ t / 16384 := by omega
  unfold place; rw [if_neg h8, if_neg h14, if_neg h20, if_pos h26]

theorem place_level3 {e t : Nat} (h26 : e / 67108864 ≠ t / 67108864) :
    place e t = bucket_id.level 3 (e / 67108864 % 64) := by
  have h8 : e / 256 ≠ t / 256 := by omega
  have h14 : e / 16384 ≠ t / 16384 := by omega
  have h20 : e / 1048576 ≠ t / 1048576 := by omega
  unfold place; rw [if_neg h8, if_neg h14, if_neg h20, if_neg h26]

theorem cascade_level0 {ct : Nat} (h0 : ct ≠ 0) (h8 : ct % 256 = 0) (hd : ct / 256 % 64 ≠ 0) :
    cascade ct = some (bucket_id.level 0 (ct / 256 % 64)) := by
  unfold cascade; rw [if_neg h0, if_neg (by omega), if_pos hd]

theorem cascade_level1 {ct : Nat} (h0 : ct ≠ 0) (h14 : ct % 16384 = 0)
    (hd : ct / 16384 % 64 ≠ 0) :
    cascade ct = some (bucket_id.level 1 (ct / 16384 % 64)) := by
  have h8 : ¬ (ct % 256 ≠ 0) := by omega
  have hd0 : ¬ (ct / 256 % 64 ≠ 0) := by omega
  unfold cascade; rw [if_neg h0, if_neg h8, if_neg hd0, if_pos hd]

theorem cascade_level2 {ct : Nat} (h0 : ct ≠ 0) (h20 : ct % 1048576 = 0)
    (hd : ct / 1048576 % 64 ≠ 0) :
    cascade ct = some (bucket_id.level 2 (ct / 1048576 % 64)) := by
  have h8 : ¬ (ct % 256 ≠ 0) := by omega
  have hd0 : ¬ (ct / 256 % 64 ≠ 0) := by omega
  have hd1 : ¬ (ct / 16384 % 64 ≠ 0) := by omega
  unfold cascade; rw [if_neg h0, if_neg h8, if_neg hd0, if_neg hd1, if_pos hd]

theorem cascade_level3 {ct : Nat} (h0 : ct ≠ 0) (h26 : ct % 67108864 = 0) :
    cascade ct = some (bucket_id.level 3 (ct / 67108864 % 64)) := by
  have h8 : ¬ (ct % 256 ≠ 0) := by omega
  have hd0 : ¬ (ct / 256 % 64 ≠ 0) := by omega
  have hd1 : ¬ (ct / 16384 % 64 ≠ 0) := by omega
  have hd2 : ¬ (ct / 1048576 % 64 ≠ 0) := by omega
  unfold cascade; rw [if_neg h0, if_neg h8, if_neg hd0, if_neg hd1, if_neg hd2]

theorem cascade_zero : cascade 0 = some (bucket_id.level 3 0) := rfl

/-- When the tick advances, a pending node either keeps its bucket, or its
bucket is the one `timer_shift` re-inserts. -/
theorem cascade_or_stay (e t : Nat) (he : e < 4294967296) (ht : t < 4294967296)
    (h0 : 0 < ticks_left e t) (h1 : ticks_left e t < 2147483648) :
    place e t = place e ((t + 1) % 4294967296) ∨
      cascade ((t + 1) % 4294967296) = some (place e t) := by
  unfold ticks_left at h0 h1
  by_cases a8 : e / 256 = t / 256
  · -- near: the low byte of the tick has not reached that of the expiry
    left
    rw [place_near a8, place_near (by omega)]
  · by_cases a14 : e / 16384 = t / 16384
    · rw [place_level0 a8 a14]
      by_cases b8 : e / 256 = (t + 1) % 4294967296 / 256
      · right
        rw [cascade_level0 (by omega) (by omega) (by omega)]
        congr 2
        omega
      · left
        rw [place_level0 b8 (by omega)]
    · by_cases a20 : e / 1048576 = t / 1048576
      · rw [place_level1 a14 a20]
        by_cases b14 : e / 16384 = (t + 1) % 4294967296 / 16384
        · right
          rw [cascade_level1 (by omega) (by omega) (by omega)]
          congr 2
          omega
        · left
          rw [place_level1 b14 (by omega)]
      · by_cases a26 : e / 67108864 = t / 67108864
        · rw [place_level2 a20 a26]
          by_cases b20 : e / 1048576 = (t + 1) % 4294967296 / 1048576
          · right
            rw [cascade_level2 (by omega) (by omega) (by omega)]
            congr 2
            omega
          · left
            rw [place_level2 b20 (by omega)]
        · rw [place_level3 a26]
          by_cases b26 : e / 67108864 = (t + 1) % 4294967296 / 67108864
          · right
            by_cases hz : (t + 1) % 4294967296 = 0
            · rw [hz, cascade_zero]
              congr 2
              omega
            · rw [cascade_level3 hz (by omega)]
              congr 2
              omega
          · left
            rw [place_level3 b26]

/-- A pending node placed by the rule of `add_node` is, after one
`timer_update`, again where the rule puts it, unless this update is the one
at which the tick reaches its expiry: then it is given to `dispatch_list`. -/
theorem next_bucket_place (e t : Nat) (he : e < 4294967296) (ht : t < 4294967296)
    (h0 : 0 < ticks_left e t) (h1 : ticks_left e t < 2147483648) :
    next_bucket e t (place e t)
      = if ticks_left e t = 1 then none else some (place e ((t + 1) % 4294967296)) := by
  unfold next_bucket
  rw [if_neg (place_ne_current e t h0)]
  have hl2 : (if cascade ((t + 1) % 4294967296) = some (place e t)
      then place e ((t + 1) % 4294967296) else place e t) = place e ((t + 1) % 4294967296) := by
    rcases cascade_or_stay e t he ht h0 h1 with h | h
    · split_ifs
      · rfl
      · exact h
    · rw [if_pos h]
  simp only [hl2]
  by_cases hq : ticks_left e t = 1
  · have he1 := (ticks_left_eq_one_iff e t he ht).1 hq
    rw [if_pos hq, if_pos ((place_eq_current_iff _ _).2 he1)]
  · rw [if_neg hq, if_neg (fun h =>
      hq ((ticks_left_eq_one_iff e t he ht).2 ((place_eq_current_iff _ _).1 h)))]

end Skynet

namespace Skynet

/-! ## Runs of two wheels that differ by one occurrence of a node -/

theorem time_timer_add (T : timer) (arg : timer_event) (time : Int) :
    (timer_add T arg time).time = T.time := by
  unfold timer_add
  exact time_add_node _ _

/-- Two wheels with the same occurrences of `x` give `dispatch_list` the same
number of copies of `x` at every update. -/
theorem run_even {σ : Type} (R : runtime σ) (x : timer_node) (ops : List timer_op) :
    ∀ (A B : timer) (wa wb : σ), one_more x none A B →
      ∃ ra rb, timer_run R A wa ops = some ra ∧ timer_run R B wb ops = some rb ∧
        rb.2.2.length = ra.2.2.length ∧
        ∀ k, (rb.2.2.getD k []).count x = (ra.2.2.getD k []).count x := by
  induction ops with
  | nil =>
    intro A B wa wb _
    exact ⟨_, _, rfl, rfl, rfl, fun k => rfl⟩
  | cons op ops ih =>
    intro A B wa wb h
    cases op with
    | add arg time =>
      obtain ⟨ra, rb, h1, h2, h3, h4⟩ :=
        ih _ _ wa wb (one_more_add x none A B arg time h)
      exact ⟨ra, rb, by simpa [timer_run] using h1, by simpa [timer_run] using h2, h3, h4⟩
    | update =>
      obtain ⟨wa', ha⟩ := timer_update_eq R A wa
      obtain ⟨wb', hb⟩ := timer_update_eq R B wb
      obtain ⟨hs, hc⟩ := one_more_none_step x A B h
      obtain ⟨ra, rb, h1, h2, h3, h4⟩ := ih _ _ wa' wb' hs
      refine ⟨(ra.1, ra.2.1, (wheel_step A).2 :: ra.2.2),
        (rb.1, rb.2.1, (wheel_step B).2 :: rb.2.2), ?_, ?_, ?_, ?_⟩
      · simp [timer_run, ha, h1]
      · simp [timer_run, hb, h2]
      · simp [h3]
      · intro k
        cases k with
        | zero => simpa using hc
        | succ k => simpa using h4 k

/-- A wheel that holds one more occurrence of `x`, placed by the rule of
`add_node` with `n` ticks left (`0 < n < 2 ^ 31`), gives `dispatch_list` one
more copy of `x` at the `n`-th update and the same number at every other. -/
theorem run_one_more {σ : Type} (R : runtime σ) (x : timer_node) (hx : x.expire < 4294967296)
    (ops : List timer_op) :
    ∀ (A B : timer) (wa wb : σ), A.time < 4294967296 →
      0 < ticks_left x.expire A.time → ticks_left x.expire A.time < 2147483648 →
      one_more x (some (place x.expire A.time)) A B →
      ∃ ra rb, timer_run R A wa ops = some ra ∧ timer_run R B wb ops = some rb ∧
        rb.2.2.length = ra.2.2.length ∧
        ∀ k, k < ra.2.2.length →
          (rb.2.2.getD k []).count x
            = (ra.2.2.getD k []).count x
              + (if k + 1 = ticks_left x.expire A.time then 1 else 0) := by
  induction ops with
  | nil =>
    intro A B wa wb _ _ _ _
    exact ⟨_, _, rfl, rfl, rfl, fun k hk => by simp [timer_run] at hk⟩
  | cons op ops ih =>
    intro A B wa wb hA h0 h1 h
    cases op with
    | add arg time =>
      have ht := time_timer_add A arg time
      have h' := one_more_add x _ A B arg time h
      rw [← ht] at h' hA h0 h1
      obtain ⟨ra, rb, r1, r2, r3, r4⟩ := ih _ _ wa wb hA h0 h1 h'
      rw [ht] at r4
      exact ⟨ra, rb, by simpa [timer_run] using r1, by simpa [timer_run] using r2, r3, r4⟩
    | update =>
      obtain ⟨wa', ha⟩ := timer_update_eq R A wa
      obtain ⟨wb', hb⟩ := timer_update_eq R B wb
      obtain ⟨hs, hc⟩ := one_more_some_step x _ A B h
      rw [next_bucket_place _ _ hx hA h0 h1] at hs hc
      have htime := time_wheel_step A
      have hlt : (A.time + 1) % 4294967296 < 4294967296 := Nat.mod_lt _ (by norm_num)
      have hsucc := ticks_left_succ x.expire A.time hx h0
      by_cases hone : ticks_left x.expire A.time = 1
      · rw [if_pos hone] at hs hc
        obtain ⟨ra, rb, r1, r2, r3, r4⟩ := run_even R x ops _ _ wa' wb' hs
        refine ⟨(ra.1, ra.2.1, (wheel_step A).2 :: ra.2.2),
          (rb.1, rb.2.1, (wheel_step B).2 :: rb.2.2), ?_, ?_, ?_, ?_⟩
        · simp [timer_run, ha, r1]
        · simp [timer_run, hb, r2]
        · simp [r3]
        · intro k _
          cases k with
          | zero => simpa [hone] using hc
          | succ k =>
            have := r4 k
            simp only [List.getD_cons_succ, hone]
            rw [this]
            simp
      · rw [if_neg hone] at hs hc
        rw [← htime] at hs hlt hsucc
        obtain ⟨ra, rb, r1, r2, r3, r4⟩ := ih _ _ wa' wb' hlt (by omega) (by omega) hs
        refine ⟨(ra.1, ra.2.1, (wheel_step A).2 :: ra.2.2),
          (rb.1, rb.2.1, (wheel_step B).2 :: rb.2.2), ?_, ?_, ?_, ?_⟩
        · simp [timer_run, ha, r1]
        · simp [timer_run, hb, r2]
        · simp [r3]
        · intro k hk
          cases k with
          | zero =>
            have : ¬ (0 + 1 = ticks_left x.expire A.time) := by omega
            simpa [this] using hc
          | succ k =>
            have := r4 k (by simpa using hk)
            simp only [List.getD_cons_succ]
            rw [this, hsucc]
            congr 1
            by_cases hk1 : k + 1 = ticks_left x.expire A.time - 1
            · rw [if_pos hk1, if_pos (by omega)]
            · rw [if_neg hk1, if_neg (by omega)]


/-- Updates only, on a wheel that holds no occurrence of `x`: no copy of `x`
is ever given to `dispatch_list`, and the tick advances by one per update. -/
theorem run_updates_absent {σ : Type} (R : runtime σ) (x : timer_node) (n : Nat) :
    ∀ (A : timer) (w : σ), A.time < 4294967296 → (∀ b, (bucket A b).count x = 0) →
      ∃ ra, timer_run R A w (List.replicate n timer_op.update) = some ra ∧
        ra.2.2.length = n ∧ ra.1.time = (A.time + n) % 4294967296 ∧
        ∀ k, (ra.2.2.getD k []).count x = 0 := by
  induction n with
  | zero =>
    intro A w hA _
    exact ⟨(A, w, []), rfl, rfl, by simp; omega, fun k => by simp⟩
  | succ n ih =>
    intro A w hA h
    obtain ⟨w', ha⟩ := timer_update_eq R A w
    obtain ⟨c1, c2⟩ := count_wheel_step x A
    have hz : ∀ b, (bucket (wheel_step A).1 b).count x = 0 := by
      intro b
      rw [c1 b]
      simp only [h]
      cases cascade ((A.time + 1) % 4294967296) <;> simp
    have hz2 : (wheel_step A).2.count x = 0 := by
      rw [c2]
      simp only [h]
      cases cascade ((A.time + 1) % 4294967296) <;> simp
    obtain ⟨ra, r1, r2, r3, r4⟩ :=
      ih _ w' (by rw [time_wheel_step]; exact Nat.mod_lt _ (by norm_num)) hz
    refine ⟨(ra.1, ra.2.1, (wheel_step A).2 :: ra.2.2), ?_, ?_, ?_, ?_⟩
    · simp [List.replicate_succ, timer_run, ha, r1]
    · simp [r2]
    · show ra.1.time = _
      rw [r3, time_wheel_step]
      omega
    · intro k
      cases k with
      | zero => simpa using hz2
      | succ k => simpa using r4 k

/-- The node that `timer_add` creates, the wheel it yields, and the relation
of that wheel to the one before the call. -/
theorem timer_add_one_more (T : timer) (arg : timer_event) (d : Nat)
    (hT : T.time < 4294967296) (h0 : 0 < d) (h1 : d < 2147483648) :
    timer_add T arg (d : Int)
        = add_node T { expire := (T.time + d) % 4294967296, event := arg } ∧
      ticks_left ((T.time + d) % 4294967296) T.time = d ∧
      one_more { expire := (T.time + d) % 4294967296, event := arg }
        (some (place ((T.time + d) % 4294967296) T.time)) T (timer_add T arg (d : Int)) := by
  have he : uint32 (int_to_uint32 (d : Int) + T.time) = (T.time + d) % 4294967296 := by
    unfold uint32 int_to_uint32
    omega
  have hadd : timer_add T arg (d : Int)
      = add_node T { expire := (T.time + d) % 4294967296, event := arg } := by
    unfold timer_add
    rw [he]
  refine ⟨hadd, by unfold ticks_left; omega, ?_⟩
  rw [hadd]
  refine ⟨(time_add_node _ _).symm, ?_⟩
  intro b
  rw [count_add_node]
  simp only [and_true, Option.some.injEq]
  congr 1
  by_cases hb : b = place ((T.time + d) % 4294967296) T.time
  · rw [if_pos hb, if_pos hb.symm]
  · rw [if_neg hb, if_neg (fun h => hb h.symm)]

/-- The general statement behind C2 and C10: a node added with delay `d`
(`0 < d < 2 ^ 31`) is given to `dispatch_list` once more, at the `d`-th
following update, than without the call of `timer_add`. -/
theorem timer_add_dispatch {σ : Type} (R : runtime σ) (T : timer) (w : σ)
    (arg : timer_event) (d : Nat) (ops : List timer_op)
    (hT : T.time < 4294967296) (h0 : 0 < d) (h1 : d < 2147483648) :
    ∃ ra rb, timer_run R T w ops = some ra ∧
      timer_run R (timer_add T arg (d : Int)) w ops = some rb ∧
      rb.2.2.length = ra.2.2.length ∧
      ∀ k, k < ra.2.2.length →
        (rb.2.2.getD k []).count { expire := (T.time + d) % 4294967296, event := arg }
          = (ra.2.2.getD k []).count { expire := (T.time + d) % 4294967296, event := arg }
            + (if k + 1 = d then 1 else 0) := by
  obtain ⟨_, htl, hom⟩ := timer_add_one_more T arg d hT h0 h1
  have hx : (T.time + d) % 4294967296 < 4294967296 := Nat.mod_lt _ (by norm_num)
  obtain ⟨ra, rb, r1, r2, r3, r4⟩ :=
    run_one_more R { expire := (T.time + d) % 4294967296, event := arg } hx ops T
      (timer_add T arg (d : Int)) w w hT (by rw [htl]; exact h0) (by rw [htl]; exact h1) hom
  rw [htl] at r4
  exact ⟨ra, rb, r1, r2, r3, r4⟩

/-- Updates only: every update returns and advances the tick by one. -/
theorem run_updates_time {σ : Type} (R : runtime σ) (n : Nat) :
    ∀ (A : timer) (w : σ), A.time < 4294967296 →
      ∃ ra, timer_run R A w (List.replicate n timer_op.update) = some ra ∧
        ra.2.2.length = n ∧ ra.1.time = (A.time + n) % 4294967296 := by
  induction n with
  | zero =>
    intro A w hA
    exact ⟨(A, w, []), rfl, rfl, by simp; omega⟩
  | succ n ih =>
    intro A w hA
    obtain ⟨w', ha⟩ := timer_update_eq R A w
    obtain ⟨ra, r1, r2, r3⟩ :=
      ih (wheel_step A).1 w' (by rw [time_wheel_step]; exact Nat.mod_lt _ (by norm_num))
    refine ⟨(ra.1, ra.2.1, (wheel_step A).2 :: ra.2.2), ?_, ?_, ?_⟩
    · simp [List.replicate_succ, timer_run, ha, r1]
    · simp [r2]
    · show ra.1.time = _
      rw [r3, time_wheel_step]
      omega

/-- Updates only, after adding a node of which the wheel held no copy. -/
theorem timer_add_dispatch_fresh {σ : Type} (R : runtime σ) (T : timer) (w : σ)
    (arg : timer_event) (d n : Nat)
    (hT : T.time < 4294967296) (h0 : 0 < d) (h1 : d < 2147483648)
    (hfresh : ∀ b, (bucket T b).count { expire := (T.time + d) % 4294967296, event := arg } = 0) :
    ∃ rb, timer_run R (timer_add T arg (d : Int)) w (List.replicate n timer_op.update) = some rb ∧
      rb.2.2.length = n ∧ rb.1.time = (T.time + n) % 4294967296 ∧
      ∀ k, k < n →
        (rb.2.2.getD k []).count { expire := (T.time + d) % 4294967296, event := arg }
          = (if k + 1 = d then 1 else 0) := by
  obtain ⟨ra, rb, r1, r2, r3, r4⟩ :=
    timer_add_dispatch R T w arg d (List.replicate n timer_op.update) hT h0 h1
  obtain ⟨ra', a1, a2, _, a4⟩ :=
    run_updates_absent R { expire := (T.time + d) % 4294967296, event := arg } n T w hT hfresh
  rw [a1] at r1
  simp only [Option.some.injEq] at r1
  subst r1
  obtain ⟨rb', b1, b2, b3⟩ :=
    run_updates_time R n (timer_add T arg (d : Int)) w (by rw [time_timer_add]; exact hT)
  rw [r2] at b1
  simp only [Option.some.injEq] at b1
  subst b1
  rw [time_timer_add] at b3
  refine ⟨rb, r2, b2, b3, ?_⟩
  intro k hk
  rw [r4 k (by rw [a2]; exact hk), a4 k, Nat.zero_add]

end Skynet

namespace Skynet

/-! ## The loop of `timer_shift` and its variables -/

/-- The wheel that `timer_shift_loop` returns is determined by the variables
with which the loop ends. -/
theorem timer_shift_loop_vars (T : timer) (ct : Nat) :
    ∀ fuel mask time i,
      timer_shift_loop fuel T ct mask time i
        = (timer_shift_vars fuel ct mask time i).map
            (fun v => match v.2.2 with
              | some idx => move_list T v.1 idx
              | none => T) := by
  intro fuel
  induction fuel with
  | zero => intro mask time i; rfl
  | succ n ih =>
    intro mask time i
    unfold timer_shift_loop timer_shift_vars
    by_cases h : ct &&& (mask - 1) = 0
    · rw [if_pos h, if_pos h]
      by_cases h2 : time &&& TIME_LEVEL_MASK ≠ 0
      · simp only [if_pos h2, Option.map_some']
      · simp only [if_neg h2]
        exact ih _ _ _
    · rw [if_neg h, if_neg h]
      rfl

/-- The variables with which the loop of `timer_shift` ends, for a non-zero
`uint32_t` tick: four rounds are enough. -/
theorem timer_shift_vars_eq (ct : Nat) (h0 : ct ≠ 0) (hlt : ct < 4294967296) :
    timer_shift_vars 4 ct TIME_NEAR (ct >>> TIME_NEAR_SHIFT) 0
      = if ct % 256 ≠ 0 then some (0, 256, none)
        else if ct / 256 % 64 ≠ 0 then some (0, 256, some (ct / 256 % 64))
        else if ct / 16384 % 64 ≠ 0 then some (1, 16384, some (ct / 16384 % 64))
        else if ct / 1048576 % 64 ≠ 0 then some (2, 1048576, some (ct / 1048576 % 64))
        else some (3, 67108864, some (ct / 67108864 % 64)) := by
  have a0 : ∀ x k : Nat, x &&& (2 ^ k - 1) = x % 2 ^ k := Nat.and_pow_two_sub_one_eq_mod
  have b8 := a0 ct 8
  have b14 := a0 ct 14
  have b20 := a0 ct 20
  have b26 := a0 ct 26
  have a1 : ∀ x : Nat, x &&& TIME_LEVEL_MASK = x % 64 := fun x =>
    Nat.and_pow_two_sub_one_eq_mod x 6
  norm_num at b8 b14 b20 b26
  have m0 : TIME_NEAR = 256 := by decide
  have m1 : 256 <<< TIME_LEVEL_SHIFT = 16384 := by decide
  have m2 : 16384 <<< TIME_LEVEL_SHIFT = 1048576 := by decide
  have m3 : 1048576 <<< TIME_LEVEL_SHIFT = 67108864 := by decide
  have s0 : ct >>> TIME_NEAR_SHIFT = ct / 256 := Nat.shiftRight_eq_div_pow ct 8
  have s1 : ∀ x : Nat, x >>> TIME_LEVEL_SHIFT = x / 64 := fun x => Nat.shiftRight_eq_div_pow x 6
  have d1 : ct / 256 / 64 = ct / 16384 := by omega
  have d2 : ct / 16384 / 64 = ct / 1048576 := by omega
  have d3 : ct / 1048576 / 64 = ct / 67108864 := by omega
  simp only [timer_shift_vars, m0, m1, m2, m3, s0, s1, a1, d1, d2, d3]
  norm_num
  simp only [b8, b14, b20, b26]
  by_cases c0 : ct % 256 = 0
  · by_cases c1 : ct / 256 % 64 = 0
    · have e14 : ct % 16384 = 0 := by omega
      by_cases c2 : ct / 16384 % 64 = 0
      · have e20 : ct % 1048576 = 0 := by omega
        by_cases c3 : ct / 1048576 % 64 = 0
        · have e26 : ct % 67108864 = 0 := by omega
          have c4 : ¬ ct / 67108864 % 64 = 0 := by omega
          simp [c0, c1, c2, c3, c4, e14, e20, e26]
        · simp [c0, c1, c2, c3, e14, e20]
      · simp [c0, c1, c2, e14]
    · simp [c0, c1]
  · simp [c0]

end Skynet

namespace Skynet

/-! ## Invariant of the reachable mailboxes -/

/-- A pop on an empty mailbox keeps the shape and the stored messages. -/
theorem pop_empty_inv {q : message_queue} (hq : mq_inv q) :
    mq_inv { q with overload_threshold := MQ_OVERLOAD, in_global := 0 } ∧
      contents { q with overload_threshold := MQ_OVERLOAD, in_global := 0 } = contents q := by
  refine ⟨⟨⟨hq.1.cap_pos, hq.1.cap_le, hq.1.head_ge, hq.1.head_lt, hq.1.tail_ge, hq.1.tail_lt,
    ?_, ?_⟩, hq.2⟩, rfl⟩
  · show (0 : Int) < MQ_OVERLOAD
    decide
  · show MQ_OVERLOAD < (2147483648 : Int)
    decide

/-- Every reachable mailbox has the shape `mq_inv`, stores exactly the
messages pushed and not yet popped, and has a threshold `1024 * 2 ^ k`. -/
theorem mq_holds_inv {q : message_queue} {l : List skynet_message} (h : mq_holds q l) :
    mq_inv q ∧ contents q = l ∧ ∃ k : Nat, q.overload_threshold = 1024 * 2 ^ k := by
  induction h with
  | create handle => exact ⟨create_inv handle, create_contents handle, 0, rfl⟩
  | push q l m _ hcap ih =>
    obtain ⟨hi, hc, k, hk⟩ := ih
    have hb := length_bounds hi.1
    obtain ⟨p1, p2, _⟩ := push_inv hi m (by omega)
    refine ⟨p1, by rw [p2, hc], k, ?_⟩
    rw [(push_frame q m).2.1, hk]
  | pop q l r _ hr ih =>
    obtain ⟨hi, hc, k, hk⟩ := ih
    by_cases he : q.head = q.tail
    · rw [pop_empty q he] at hr
      have hr2 : r.2.2 = { q with overload_threshold := MQ_OVERLOAD, in_global := 0 } := by
        rw [← Option.some.inj hr]
      have hl : l = [] := by
        rw [← hc]
        exact (contents_nil_iff hi.1).2 he
      rw [hr2, hl]
      refine ⟨(pop_empty_inv hi).1, ?_, 0, rfl⟩
      rw [(pop_empty_inv hi).2, hc, hl]
      rfl
    · obtain ⟨q', s1, s2, s3, _, s5, _⟩ := pop_spec hi.1 he
      obtain ⟨k', o, n1, _⟩ := pop_nonempty hi.1 he
      have hr2 : r.2.2 = q' := by
        rw [s1] at hr
        rw [← Option.some.inj hr]
      have hthr : q'.overload_threshold = q.overload_threshold * 2 ^ k' := by
        rw [s1] at n1
        have := Option.some.inj n1
        simp only [Prod.mk.injEq, true_and] at this
        rw [this]
      rw [hr2]
      refine ⟨⟨s2, ?_⟩, ?_, k + k', ?_⟩
      · rw [s5]
        exact hi.2
      · rw [← hc, s3]
        rfl
      · rw [hthr, hk, pow_add, mul_assoc]

end Skynet

namespace Skynet

/-! ## The drop loop of `_drop_queue` -/

/-- With more fuel than stored messages the drop loop returns, and hands the
stored messages to `drop_func` oldest first. -/
theorem drop_loop_spec :
    ∀ (n : Nat) (q : message_queue), ring_ok q → (contents q).length < n →
      ∃ q', drop_loop n q = some (q', contents q) ∧ q'.next = q.next := by
  intro n
  induction n with
  | zero => intro q _ h; exact absurd h (Nat.not_lt_zero _)
  | succ n ih =>
    intro q hq hlen
    unfold drop_loop
    by_cases he : q.head = q.tail
    · rw [pop_empty q he]
      have hc : contents q = [] := (contents_nil_iff hq).2 he
      simp only [hc]
      exact ⟨_, rfl, rfl⟩
    · obtain ⟨q', s1, s2, s3, _, _, _, _, _, s9, _⟩ := pop_spec hq he
      rw [s1]
      have hlen' : (contents q').length < n := by
        rw [s3] at hlen
        simp only [List.length_cons] at hlen
        omega
      obtain ⟨q'', d1, d2⟩ := ih q' s2 hlen'
      simp only [d1, Option.map_some', if_true]
      exact ⟨q'', by rw [s3], by rw [d2, s9]⟩

end Skynet

namespace Skynet

/-! ## Runs of the global queue -/

/-- Function `skynet_globalmq_push` on an unlinked mailbox appends it to the
list and writes no mailbox outside the list. -/
theorem globalmq_push_frame {s : mq_state} {l : List Nat} {p : Nat} {qp : message_queue}
    (hl : ready_list s l) (hnd : l.Nodup) (hp : s.mem p = some qp) (hpn : qp.next = none)
    (hpl : p ∉ l) :
    ∃ s', skynet_globalmq_push s p = some s' ∧ ready_list s' (l ++ [p]) ∧
      (∀ a, a ∉ l → s'.mem a = s.mem a) ∧
      (∀ a, (∃ q, s'.mem a = some q) ↔ (∃ q, s.mem a = some q)) := by
  obtain ⟨hc, ht⟩ := hl
  rcases List.eq_nil_or_concat l with hnil | ⟨l0, t, hlt⟩
  · subst hnil
    simp only [List.getLast?_nil] at ht
    refine ⟨{ Q := { head := some p, tail := some p }, mem := s.mem }, ?_, ?_, ?_, ?_⟩
    · simp [skynet_globalmq_push, hp, hpn, ht]
    · exact ⟨⟨rfl, qp, hp, by rw [hpn]; rfl⟩, by simp⟩
    · intro a _
      rfl
    · intro a
      exact Iff.rfl
  · have hlt' : l = l0 ++ [t] := by rw [hlt]; simp
    subst hlt'
    rw [List.getLast?_concat] at ht
    obtain ⟨tq, htq, _⟩ := ready_chain_last s.mem l0 t _ hc
    refine ⟨{ Q := { head := s.Q.head, tail := some p },
              mem := mem_set s.mem t (some { tq with next := some p }) }, ?_, ?_, ?_, ?_⟩
    · simp [skynet_globalmq_push, hp, hpn, ht, htq]
    · exact ⟨ready_chain_snoc s.mem t p tq qp hp hpn l0 _ hc hnd hpl, by simp⟩
    · intro a ha
      have hat : a ≠ t := fun e => ha (by simp [e])
      exact mem_set_other _ _ hat
    · intro a
      show (∃ q, mem_set s.mem t _ a = some q) ↔ _
      by_cases hat : a = t
      · subst hat
        rw [mem_set_same, htq]
        exact ⟨fun _ => ⟨_, rfl⟩, fun _ => ⟨_, rfl⟩⟩
      · rw [mem_set_other _ _ hat]

/-- Function `skynet_globalmq_pop` returns the first mailbox of the list,
unlinks it with `next` reset to NULL, and writes no other mailbox. -/
theorem globalmq_pop_frame {s : mq_state} {l : List Nat}
    (hl : ready_list s l) (hnd : l.Nodup) :
    ∃ s', skynet_globalmq_pop s = some (l.head?, s') ∧ ready_list s' l.tail ∧
      (∀ a, l.head? = some a → ∃ q, s'.mem a = some q ∧ q.next = none) ∧
      (∀ a, l.head? ≠ some a → s'.mem a = s.mem a) ∧
      (∀ a, (∃ q, s'.mem a = some q) ↔ (∃ q, s.mem a = some q)) := by
  obtain ⟨hc, ht⟩ := hl
  cases l with
  | nil =>
    have hh : s.Q.head = none := hc
    refine ⟨s, ?_, ⟨hc, ht⟩, ?_, fun a _ => rfl, fun a => Iff.rfl⟩
    · simp only [skynet_globalmq_pop, hh, List.head?_nil]
    · intro a ha
      simp at ha
  | cons a t =>
    obtain ⟨e1, qa, m1, c1⟩ := hc
    rw [List.nodup_cons] at hnd
    have hal : ∀ (x : Nat), (∃ q, mem_set s.mem a (some { qa with next := none }) x = some q)
        ↔ (∃ q, s.mem x = some q) := by
      intro x
      by_cases hx : x = a
      · subst hx
        rw [mem_set_same, m1]
        exact ⟨fun _ => ⟨_, rfl⟩, fun _ => ⟨_, rfl⟩⟩
      · rw [mem_set_other _ _ hx]
    have hhd : ∀ x, (a :: t).head? = some x →
        ∃ q, mem_set s.mem a (some { qa with next := none }) x = some q ∧ q.next = none := by
      intro x hx
      simp only [List.head?_cons, Option.some.injEq] at hx
      subst hx
      exact ⟨_, mem_set_same _ _ _, rfl⟩
    have hot : ∀ x, (a :: t).head? ≠ some x →
        mem_set s.mem a (some { qa with next := none }) x = s.mem x := by
      intro x hx
      simp only [List.head?_cons, ne_eq, Option.some.injEq] at hx
      exact mem_set_other _ _ (fun e => hx e.symm)
    by_cases hn : qa.next = none
    · rw [hn] at c1
      have htn := ready_chain_none _ _ c1
      subst htn
      have htl : s.Q.tail = some a := by simpa using ht
      refine ⟨{ Q := { head := none, tail := none },
                mem := mem_set s.mem a (some { qa with next := none }) }, ?_, ⟨rfl, rfl⟩,
              hhd, hot, hal⟩
      simp only [skynet_globalmq_pop, e1, m1, hn, if_true, htl, ne_eq, not_true_eq_false,
        if_false, List.head?_cons]
    · refine ⟨{ Q := { head := qa.next, tail := s.Q.tail },
                mem := mem_set s.mem a (some { qa with next := none }) }, ?_,
              ⟨ready_chain_update_off s.mem a _ t hnd.1 _ c1, ?_⟩, hhd, hot, hal⟩
      · simp only [skynet_globalmq_pop, e1, m1, hn, if_false, List.head?_cons]
      · show s.Q.tail = t.getLast?
        rw [ht]
        cases t with
        | nil =>
          have : qa.next = none := c1
          exact absurd this hn
        | cons b t => rfl

/-- The discipline `gq_ok` depends only on which addresses are allocated. -/
theorem gq_ok_congr {s s' : mq_state}
    (h : ∀ a, (∃ q, s'.mem a = some q) ↔ (∃ q, s.mem a = some q)) (ops : List gq_op) :
    ∀ l, gq_ok s l ops → gq_ok s' l ops := by
  induction ops with
  | nil => intro l _; trivial
  | cons op ops ih =>
    intro l hk
    cases op with
    | push p => exact ⟨(h p).2 hk.1, hk.2.1, ih _ hk.2.2⟩
    | pop => exact ih _ hk

/-- The global queue refines the abstract FIFO `gq_fifo`. -/
theorem gq_run_simulates (ops : List gq_op) :
    ∀ (s : mq_state) (l : List Nat), ready_list s l → l.Nodup →
      (∀ a q, s.mem a = some q → a ∉ l → q.next = none) → gq_ok s l ops →
      ∃ s' outs, gq_run s ops = some (s', outs) ∧ outs = (gq_fifo l ops).2 ∧
        ready_list s' (gq_fifo l ops).1 ∧ (gq_fifo l ops).1.Nodup ∧
        (∀ a q, s'.mem a = some q → a ∉ (gq_fifo l ops).1 → q.next = none) := by
  induction ops with
  | nil =>
    intro s l hl hnd hun _
    exact ⟨s, [], rfl, rfl, hl, hnd, hun⟩
  | cons op ops ih =>
    intro s l hl hnd hun hk
    cases op with
    | push p =>
      obtain ⟨⟨qp, hp⟩, hpl, hk'⟩ := hk
      obtain ⟨s1, g1, g2, g3, g4⟩ := globalmq_push_frame hl hnd hp (hun p qp hp hpl) hpl
      have hnd1 : (l ++ [p]).Nodup := by
        rw [List.nodup_append]
        refine ⟨hnd, List.nodup_singleton p, ?_⟩
        intro a ha hb
        simp only [List.mem_singleton] at hb
        subst hb
        exact hpl ha
      have hun1 : ∀ a q, s1.mem a = some q → a ∉ l ++ [p] → q.next = none := by
        intro a q ha hal
        have hal' : a ∉ l := fun e => hal (List.mem_append_left _ e)
        rw [g3 a hal'] at ha
        exact hun a q ha hal'
      obtain ⟨s', outs, r1, r2, r3, r4, r5⟩ := ih s1 (l ++ [p]) g2 hnd1 hun1 (gq_ok_congr g4 ops _ hk')
      refine ⟨s', outs, ?_, r2, r3, r4, r5⟩
      simp only [gq_run, g1, r1]
    | pop =>
      obtain ⟨s1, g1, g2, g3, g4, g5⟩ := globalmq_pop_frame hl hnd
      have hnd1 : l.tail.Nodup := hnd.sublist (List.tail_sublist l)
      have hun1 : ∀ a q, s1.mem a = some q → a ∉ l.tail → q.next = none := by
        intro a q ha hal
        by_cases hh : l.head? = some a
        · obtain ⟨q', h1, h2⟩ := g3 a hh
          rw [h1] at ha
          rw [← Option.some.inj ha]
          exact h2
        · rw [g4 a hh] at ha
          refine hun a q ha ?_
          intro hm
          cases l with
          | nil => simp at hm
          | cons b t =>
            simp only [List.mem_cons] at hm
            rcases hm with e | e
            · exact hh (by simp [e])
            · exact hal e
      obtain ⟨s', outs, r1, r2, r3, r4, r5⟩ := ih s1 l.tail g2 hnd1 hun1 (gq_ok_congr g5 ops _ hk)
      refine ⟨s', l.head? :: outs, ?_, ?_, r3, r4, r5⟩
      · simp only [gq_run, g1, r1, Option.map_some']
      · rw [r2]
        rfl

/-- The list is empty exactly when `head` and `tail` of the global queue are
both NULL. -/
theorem ready_list_nil_iff {s : mq_state} {l : List Nat} (hl : ready_list s l) :
    (s.Q.head = none ∧ s.Q.tail = none) ↔ l = [] := by
  constructor
  · intro h
    have hc := hl.1
    rw [h.1] at hc
    exact ready_chain_none _ _ hc
  · intro h
    subst h
    exact ⟨hl.1, hl.2⟩

end Skynet

namespace Skynet

/-! ## The clock fields and `skynet_updatetime` -/

/-- The clock fields `current` and `current_point` of a wheel. -/
theorem clock_bucket_set (T : timer) (b : bucket_id) (l : link_list) :
    (bucket_set T b l).current = T.current ∧
      (bucket_set T b l).current_point = T.current_point := by
  cases b <;> exact ⟨rfl, rfl⟩

theorem clock_add_node (T : timer) (node : timer_node) :
    (add_node T node).current = T.current ∧
      (add_node T node).current_point = T.current_point := by
  rw [add_node_bucket_set]
  exact clock_bucket_set _ _ _

theorem clock_foldl_add_node (ns : List timer_node) :
    ∀ T : timer, (ns.foldl add_node T).current = T.current ∧
      (ns.foldl add_node T).current_point = T.current_point := by
  induction ns with
  | nil => intro T; exact ⟨rfl, rfl⟩
  | cons n ns ih =>
    intro T
    rw [List.foldl_cons]
    exact ⟨(ih _).1.trans (clock_add_node T n).1, (ih _).2.trans (clock_add_node T n).2⟩

theorem clock_cascade_apply (T : timer) (c : Option bucket_id) :
    (cascade_apply T c).current = T.current ∧
      (cascade_apply T c).current_point = T.current_point := by
  cases c with
  | none => exact ⟨rfl, rfl⟩
  | some b =>
    cases b with
    | near i => exact ⟨rfl, rfl⟩
    | level i j =>
      show (move_list T i j).current = _ ∧ (move_list T i j).current_point = _
      rw [move_list_eq]
      exact ⟨(clock_foldl_add_node _ _).1.trans (clock_bucket_set T _ _).1,
        (clock_foldl_add_node _ _).2.trans (clock_bucket_set T _ _).2⟩

theorem clock_wheel_step (T : timer) :
    (wheel_step T).1.current = T.current ∧
      (wheel_step T).1.current_point = T.current_point := by
  unfold wheel_step
  simp only
  refine ⟨((clock_bucket_set _ _ _).1.trans (clock_cascade_apply _ _).1).trans ?_,
    ((clock_bucket_set _ _ _).2.trans (clock_cascade_apply _ _).2).trans ?_⟩
  · exact (clock_bucket_set T _ _).1
  · exact (clock_bucket_set T _ _).2

/-- The loop of `skynet_updatetime` returns: it is a run of `n` calls of
`timer_update`, which advances the tick by `n` and keeps the clock fields. -/
theorem updatetime_loop_eq {σ : Type} (R : runtime σ) (n : Nat) :
    ∀ (A : timer) (w : σ), A.time < 4294967296 →
      ∃ r, updatetime_loop R n A w = some r ∧
        timer_run R A w (List.replicate n timer_op.update) = some r ∧
        r.2.2.length = n ∧ r.1.time = (A.time + n) % 4294967296 ∧
        r.1.current = A.current ∧ r.1.current_point = A.current_point := by
  induction n with
  | zero =>
    intro A w hA
    exact ⟨(A, w, []), rfl, rfl, rfl, by simp; omega, rfl, rfl⟩
  | succ n ih =>
    intro A w hA
    obtain ⟨w', ha⟩ := timer_update_eq R A w
    obtain ⟨r, r0, r1, r2, r3, r4, r5⟩ :=
      ih (wheel_step A).1 w' (by rw [time_wheel_step]; exact Nat.mod_lt _ (by norm_num))
    refine ⟨(r.1, r.2.1, (wheel_step A).2 :: r.2.2), ?_, ?_, ?_, ?_, ?_, ?_⟩
    · simp [updatetime_loop, ha, r0]
    · simp [List.replicate_succ, timer_run, ha, r1]
    · simp [r2]
    · show r.1.time = _
      rw [r3, time_wheel_step]
      omega
    · show r.1.current = _
      rw [r4, (clock_wheel_step A).1]
    · show r.1.current_point = _
      rw [r5, (clock_wheel_step A).2]

end Skynet

namespace Skynet

/-! ## The buckets as lists: `add_node`, `timer_shift` and `timer_update` -/

/-- The list in a bucket after `add_node`. -/
theorem bucket_add_node (T : timer) (node : timer_node) (b : bucket_id) :
    bucket (add_node T node) b
      = bucket T b ++ (if place node.expire T.time = b then [node] else []) := by
  rw [add_node_bucket_set, bucket_bucket_set]
  by_cases hb : b = place node.expire T.time
  · subst hb
    simp
  · have : ¬ place node.expire T.time = b := fun h => hb h.symm
    simp [hb, this]

/-- Re-inserting a list of nodes sends each node to the bucket that `place`
names and keeps the order of the nodes inside every bucket. -/
theorem bucket_foldl_add_node (ns : List timer_node) (b : bucket_id) :
    ∀ T : timer, bucket (ns.foldl add_node T) b
      = bucket T b ++ ns.filter (fun n => decide (place n.expire T.time = b)) := by
  induction ns with
  | nil => intro T; simp
  | cons n ns ih =>
    intro T
    rw [List.foldl_cons, ih, time_add_node, bucket_add_node, List.filter_cons]
    by_cases hb : place n.expire T.time = b
    · simp [hb]
    · simp [hb]

/-- The list in a bucket after the re-insertion of `timer_shift`. -/
theorem bucket_cascade_apply (T : timer) (ct : Nat) (b : bucket_id) :
    bucket (cascade_apply T (cascade ct)) b
      = (if cascade ct = some b then [] else bucket T b)
        ++ ((cascade ct).map (fun c =>
              (bucket T c).filter (fun n => decide (place n.expire T.time = b)))).getD [] := by
  cases hc : cascade ct with
  | none => simp [cascade_apply]
  | some c =>
    obtain ⟨i, j, rfl⟩ := cascade_level hc
    simp only [cascade_apply, move_list_eq]
    rw [bucket_foldl_add_node, bucket_bucket_set, time_bucket_set]
    by_cases hb : b = bucket_id.level i j
    · subst hb; simp [bucket]
    · have : ¬ (bucket_id.level i j = b) := fun h => hb h.symm
      simp [hb, this, bucket]

/-- The lists after `wheel_step`, bucket by bucket, and the nodes given to
`dispatch_list`. -/
theorem bucket_wheel_step (T : timer) :
    (∀ b, bucket (wheel_step T).1 b
      = if b = bucket_id.near ((T.time + 1) % 4294967296 % 256) then []
        else
          (if cascade ((T.time + 1) % 4294967296) = some b then []
           else if b = bucket_id.near (T.time % 256) then [] else bucket T b)
          ++ ((cascade ((T.time + 1) % 4294967296)).map (fun c =>
                (bucket T c).filter
                  (fun n => decide (place n.expire ((T.time + 1) % 4294967296) = b)))).getD []) ∧
    (wheel_step T).2
      = bucket T (bucket_id.near (T.time % 256))
        ++ ((if cascade ((T.time + 1) % 4294967296)
                = some (bucket_id.near ((T.time + 1) % 4294967296 % 256)) then []
            else if bucket_id.near ((T.time + 1) % 4294967296 % 256)
                = bucket_id.near (T.time % 256) then []
            else bucket T (bucket_id.near ((T.time + 1) % 4294967296 % 256)))
          ++ ((cascade ((T.time + 1) % 4294967296)).map (fun c =>
                (bucket T c).filter
                  (fun n => decide (place n.expire ((T.time + 1) % 4294967296)
                    = bucket_id.near ((T.time + 1) % 4294967296 % 256))))).getD []) := by
  have key : ∀ b, bucket (cascade_apply
        { bucket_set T (bucket_id.near (T.time % 256)) [] with
          time := (T.time + 1) % 4294967296 } (cascade ((T.time + 1) % 4294967296))) b
      = (if cascade ((T.time + 1) % 4294967296) = some b then []
           else if b = bucket_id.near (T.time % 256) then [] else bucket T b)
          ++ ((cascade ((T.time + 1) % 4294967296)).map (fun c =>
                (bucket T c).filter
                  (fun n => decide (place n.expire ((T.time + 1) % 4294967296) = b)))).getD [] := by
    intro b
    rw [bucket_cascade_apply]
    simp only [bucket_with_time, bucket_bucket_set]
    congr 1
    cases hc : cascade ((T.time + 1) % 4294967296) with
    | none => rfl
    | some c =>
      obtain ⟨i, j, rfl⟩ := cascade_level hc
      simp
  constructor
  · intro b
    unfold wheel_step
    simp only
    rw [bucket_bucket_set]
    by_cases h : b = bucket_id.near ((T.time + 1) % 4294967296 % 256)
    · rw [if_pos h, if_pos h]
    · rw [if_neg h, if_neg h]
      exact key b
  · unfold wheel_step
    simp only
    congr 1
    exact key (bucket_id.near ((T.time + 1) % 4294967296 % 256))

end Skynet

namespace Skynet

/-! ## Nodes with a common expiry move through the wheel together, in order -/

/-- Among the nodes that satisfy `P`, all with expiry `E`, re-insertion at tick
`ct` selects all or none. -/
theorem filter_place (P : timer_node → Bool) (E ct : Nat) (b : bucket_id)
    (hP : ∀ n, P n = true → n.expire = E) (L : List timer_node) :
    (L.filter (fun n => decide (place n.expire ct = b))).filter P
      = if place E ct = b then L.filter P else [] := by
  rw [List.filter_filter]
  by_cases h : place E ct = b
  · rw [if_pos h]
    apply List.filter_congr
    intro x _
    by_cases hx : P x = true
    · rw [hP x hx] at *
      simp [h, hx, hP x hx]
    · simp [hx]
  · rw [if_neg h, List.filter_eq_nil_iff]
    intro x _
    by_cases hx : P x = true
    · simp [hP x hx, h]
    · simp [hx]

/-- The case with no node that satisfies `P`. -/
theorem filter_place_nil (P : timer_node → Bool) (ct : Nat) (b : bucket_id)
    (L : List timer_node) (h : L.filter P = []) :
    (L.filter (fun n => decide (place n.expire ct = b))).filter P = [] := by
  rw [List.filter_eq_nil_iff] at h ⊢
  intro x hx
  exact h x (List.mem_of_mem_filter hx)

/-- One `wheel_step` on a wheel without nodes that satisfy `P`. -/
theorem absent_step (P : timer_node → Bool) (T : timer)
    (h : ∀ b, (bucket T b).filter P = []) :
    (wheel_step T).2.filter P = [] ∧ ∀ b, (bucket (wheel_step T).1 b).filter P = [] := by
  obtain ⟨hb, hd⟩ := bucket_wheel_step T
  have hm : ∀ b, (((cascade ((T.time + 1) % 4294967296)).map (fun c =>
      (bucket T c).filter
        (fun n => decide (place n.expire ((T.time + 1) % 4294967296) = b)))).getD []).filter P
      = [] := by
    intro b
    cases cascade ((T.time + 1) % 4294967296) with
    | none => rfl
    | some c => exact filter_place_nil P _ b _ (h c)
  constructor
  · rw [hd, List.filter_append, List.filter_append, h, hm]
    split_ifs <;> simp [h]
  · intro b
    rw [hb]
    split_ifs <;> simp [List.filter_append, h, hm]

/-- One `wheel_step` on a wheel whose nodes that satisfy `P`, all with expiry
`E`, form the list `L` in the bucket that `place` names: they are given to
`dispatch_list`, in order, when one tick is left, and otherwise they form the
same list in the bucket that `place` names at the new tick. -/
theorem held_step (P : timer_node → Bool) (E : Nat) (L : List timer_node) (T : timer)
    (hP : ∀ n, P n = true → n.expire = E) (hE : E < 4294967296) (hT : T.time < 4294967296)
    (h0 : 0 < ticks_left E T.time) (h1 : ticks_left E T.time < 2147483648)
    (hh : held P L (place E T.time) T) :
    (ticks_left E T.time = 1 →
      (wheel_step T).2.filter P = L ∧ ∀ b, (bucket (wheel_step T).1 b).filter P = []) ∧
    (ticks_left E T.time ≠ 1 →
      (wheel_step T).2.filter P = [] ∧
        held P L (place E ((T.time + 1) % 4294967296)) (wheel_step T).1) := by
  obtain ⟨hb, hd⟩ := bucket_wheel_step T
  have hne := place_ne_current E T.time h0
  have hcs := cascade_or_stay E T.time hE hT h0 h1
  have hdue := place_eq_current_iff E ((T.time + 1) % 4294967296)
  have hone := ticks_left_eq_one_iff E T.time hE hT
  unfold held at hh ⊢
  generalize (T.time + 1) % 4294967296 = ct at *
  generalize hp : place E ct = p at *
  generalize place E T.time = l at *
  have hM : ∀ b,
      (((cascade ct).map (fun c =>
          (bucket T c).filter (fun n => decide (place n.expire ct = b)))).getD []).filter P
        = if p = b then ((cascade ct).map (fun c => if c = l then L else [])).getD [] else [] := by
    intro b
    cases hc : cascade ct with
    | none => simp
    | some c =>
      simp only [Option.map_some', Option.getD_some]
      rw [filter_place P E ct b hP, hp, hh]
  have hF : ∀ b,
      (if cascade ct = some b then []
        else if b = bucket_id.near (T.time % 256) then [] else bucket T b).filter P
        = if cascade ct = some b then []
          else if b = bucket_id.near (T.time % 256) then [] else if b = l then L else [] := by
    intro b
    split_ifs <;> simp [hh, *]
  -- the nodes that satisfy `P` after the re-insertion, before the second dispatch
  have hX : ∀ b,
      ((if cascade ct = some b then []
         else if b = bucket_id.near (T.time % 256) then [] else bucket T b)
        ++ ((cascade ct).map (fun c =>
              (bucket T c).filter (fun n => decide (place n.expire ct = b)))).getD []).filter P
        = if b = p then L else [] := by
    intro b
    rw [List.filter_append, hF, hM]
    cases hc : cascade ct with
    | none =>
      have hlp : l = p := by
        rcases hcs with e | e
        · exact e
        · rw [hc] at e; exact Option.noConfusion e
      subst hlp
      have hns : ¬ (none : Option bucket_id) = some b := fun e => Option.noConfusion e
      simp only [Option.map_none', Option.getD_none, ite_self, List.append_nil, if_false]
      rw [if_neg hns]
      by_cases hbn : b = bucket_id.near (T.time % 256)
      · have hbl : ¬ b = l := fun e => hne (e.symm.trans hbn)
        rw [if_pos hbn, if_neg hbl]
      · rw [if_neg hbn]
    | some c =>
      simp only [Option.map_some', Option.getD_some, Option.some.injEq]
      by_cases hcl : c = l
      · subst hcl
        by_cases hbc : c = b
        · subst hbc
          simp only [if_true, List.nil_append]
          by_cases hpc : p = c
          · rw [if_pos hpc, if_pos hpc.symm]
          · rw [if_neg hpc, if_neg (fun e => hpc e.symm)]
        · rw [if_neg hbc]
          have hbc' : ¬ b = c := fun e => hbc e.symm
          simp only [hbc', if_false, ite_self, if_true, List.nil_append]
          by_cases hpb : p = b
          · rw [if_pos hpb, if_pos hpb.symm]
          · rw [if_neg hpb, if_neg (fun e => hpb e.symm)]
      · have hlp : l = p := by
          rcases hcs with e | e
          · exact e
          · rw [hc] at e
            exact absurd (Option.some.inj e) hcl
        subst hlp
        simp only [hcl, if_false, ite_self, List.append_nil]
        by_cases hbc : c = b
        · have hbl : ¬ b = l := fun e => hcl (hbc.trans e)
          rw [if_pos hbc, if_neg hbl]
        · rw [if_neg hbc]
          by_cases hbn : b = bucket_id.near (T.time % 256)
          · have hbl : ¬ b = l := fun e => hne (e.symm.trans hbn)
            rw [if_pos hbn, if_neg hbl]
          · rw [if_neg hbn]
  have hold : (bucket T (bucket_id.near (T.time % 256))).filter P = [] := by
    rw [hh, if_neg (fun e => hne e.symm)]
  constructor
  · intro h1'
    have hpn : p = bucket_id.near (ct % 256) := hdue.2 (hone.1 h1')
    constructor
    · rw [hd, List.filter_append, hold, hX, if_pos hpn.symm, List.nil_append]
    · intro b
      rw [hb]
      by_cases hbn : b = bucket_id.near (ct % 256)
      · rw [if_pos hbn, List.filter_nil]
      · rw [if_neg hbn, hX, if_neg (fun e => hbn (e.trans hpn))]
  · intro h1'
    have hpn : ¬ p = bucket_id.near (ct % 256) := fun e => h1' (hone.2 (hdue.1 e))
    constructor
    · rw [hd, List.filter_append, hold, hX, if_neg (fun e => hpn e.symm), List.nil_append]
    · intro b
      rw [hb]
      by_cases hbn : b = bucket_id.near (ct % 256)
      · have hbp : ¬ b = p := fun e => hpn (e.symm.trans hbn)
        rw [if_pos hbn, List.filter_nil, if_neg hbp]
      · rw [if_neg hbn, hX]

end Skynet

namespace Skynet

/-! ## Runs of calls on a wheel that holds nodes with a common expiry -/

/-- A `timer_add` whose node does not satisfy `P` leaves the nodes that
satisfy `P` where they are. -/
theorem filter_timer_add (P : timer_node → Bool) (T : timer) (arg : timer_event) (time : Int)
    (h : P ⟨uint32 (int_to_uint32 time + T.time), arg⟩ = false) (b : bucket_id) :
    (bucket (timer_add T arg time) b).filter P = (bucket T b).filter P := by
  unfold timer_add
  rw [bucket_add_node, List.filter_append]
  split_ifs
  · simp [List.filter_cons, h]
  · simp

/-- Calls on a wheel without nodes that satisfy `P`, none of which adds one:
every call returns and no such node is given to `dispatch_list`. -/
theorem run_absent {σ : Type} (R : runtime σ) (P : timer_node → Bool) (ops : List timer_op) :
    ∀ (T : timer) (w : σ), T.time < 4294967296 → (∀ b, (bucket T b).filter P = []) →
      (∀ arg time, timer_op.add arg time ∈ ops →
        ∀ t, P ⟨uint32 (int_to_uint32 time + t), arg⟩ = false) →
      ∃ r, timer_run R T w ops = some r ∧ r.2.2.length = count_update ops ∧
        r.1.time = (T.time + count_update ops) % 4294967296 ∧
        (∀ k, (r.2.2.getD k []).filter P = []) ∧
        ∀ b, (bucket r.1 b).filter P = [] := by
  induction ops with
  | nil =>
    intro T w hT h _
    exact ⟨(T, w, []), rfl, rfl, (Nat.mod_eq_of_lt hT).symm, fun k => by simp, h⟩
  | cons op ops ih =>
    intro T w hT h hops
    have hops' : ∀ arg time, timer_op.add arg time ∈ ops →
        ∀ t, P ⟨uint32 (int_to_uint32 time + t), arg⟩ = false :=
      fun arg time hm => hops arg time (List.mem_cons_of_mem _ hm)
    cases op with
    | add arg time =>
      have hn := hops arg time (List.mem_cons_self _ _) T.time
      obtain ⟨r, r1, r2, r3, r4, r5⟩ := ih (timer_add T arg time) w
        (by rw [time_timer_add]; exact hT)
        (fun b => by rw [filter_timer_add P T arg time hn b]; exact h b) hops'
      rw [time_timer_add] at r3
      exact ⟨r, r1, r2, r3, r4, r5⟩
    | update =>
      obtain ⟨w', ha⟩ := timer_update_eq R T w
      obtain ⟨a1, a2⟩ := absent_step P T h
      obtain ⟨r, r1, r2, r3, r4, r5⟩ := ih (wheel_step T).1 w'
        (by rw [time_wheel_step]; exact Nat.mod_lt _ (by norm_num)) a2 hops'
      refine ⟨(r.1, r.2.1, (wheel_step T).2 :: r.2.2), ?_, ?_, ?_, ?_, r5⟩
      · simp [timer_run, ha, r1]
      · simp [r2, count_update]
      · show r.1.time = _
        rw [r3, time_wheel_step]
        simp only [count_update]
        omega
      · intro k
        cases k with
        | zero => exact a1
        | succ k => exact r4 k

/-- Calls on a wheel whose nodes that satisfy `P`, all with expiry `E`, form
the list `L` in the bucket that `place` names, none of the calls adding such a
node: every call returns; the update at which the expiry is reached gives `L`
to `dispatch_list`, in order, and no other update gives it such a node; as
long as the expiry is not reached the nodes form the list `L` in the bucket
that `place` names. -/
theorem run_held {σ : Type} (R : runtime σ) (P : timer_node → Bool) (E : Nat)
    (L : List timer_node) (hP : ∀ n, P n = true → n.expire = E) (hE : E < 4294967296)
    (ops : List timer_op) :
    ∀ (T : timer) (w : σ), T.time < 4294967296 → held P L (place E T.time) T →
      0 < ticks_left E T.time → ticks_left E T.time < 2147483648 →
      (∀ arg time, timer_op.add arg time ∈ ops →
        ∀ t, P ⟨uint32 (int_to_uint32 time + t), arg⟩ = false) →
      ∃ r, timer_run R T w ops = some r ∧ r.2.2.length = count_update ops ∧
        r.1.time = (T.time + count_update ops) % 4294967296 ∧
        (∀ k, k < count_update ops →
          (r.2.2.getD k []).filter P = if k + 1 = ticks_left E T.time then L else []) ∧
        (count_update ops < ticks_left E T.time → held P L (place E r.1.time) r.1) ∧
        (ticks_left E T.time ≤ count_update ops → ∀ b, (bucket r.1 b).filter P = []) := by
  induction ops with
  | nil =>
    intro T w hT hh h0 _ _
    refine ⟨(T, w, []), rfl, rfl, (Nat.mod_eq_of_lt hT).symm, ?_, fun _ => hh, ?_⟩
    · intro k hk
      exact absurd hk (Nat.not_lt_zero k)
    · intro hle
      have : ticks_left E T.time ≤ 0 := hle
      omega
  | cons op ops ih =>
    intro T w hT hh h0 h1 hops
    have hops' : ∀ arg time, timer_op.add arg time ∈ ops →
        ∀ t, P ⟨uint32 (int_to_uint32 time + t), arg⟩ = false :=
      fun arg time hm => hops arg time (List.mem_cons_of_mem _ hm)
    cases op with
    | add arg time =>
      have hn := hops arg time (List.mem_cons_self _ _) T.time
      have ht : (timer_add T arg time).time = T.time := time_timer_add T arg time
      obtain ⟨r, r1, r2, r3, r4, r5, r6⟩ := ih (timer_add T arg time) w
        (by rw [ht]; exact hT)
        (by
          rw [ht]
          intro b
          rw [filter_timer_add P T arg time hn b]
          exact hh b)
        (by rw [ht]; exact h0) (by rw [ht]; exact h1) hops'
      rw [ht] at r3 r4 r5 r6
      exact ⟨r, r1, r2, r3, r4, r5, r6⟩
    | update =>
      obtain ⟨w', ha⟩ := timer_update_eq R T w
      obtain ⟨s1, s2⟩ := held_step P E L T hP hE hT h0 h1 hh
      have hct : (wheel_step T).1.time = (T.time + 1) % 4294967296 := time_wheel_step T
      have hct' : (wheel_step T).1.time < 4294967296 := by
        rw [hct]; exact Nat.mod_lt _ (by norm_num)
      by_cases hd : ticks_left E T.time = 1
      · obtain ⟨d1, d2⟩ := s1 hd
        obtain ⟨r, r1, r2, r3, r4, r5⟩ := run_absent R P ops (wheel_step T).1 w' hct' d2 hops'
        refine ⟨(r.1, r.2.1, (wheel_step T).2 :: r.2.2), ?_, ?_, ?_, ?_, ?_, fun _ => r5⟩
        · simp [timer_run, ha, r1]
        · simp [r2, count_update]
        · show r.1.time = _
          rw [r3, hct]
          simp only [count_update]
          omega
        · intro k _
          cases k with
          | zero =>
            show (wheel_step T).2.filter P = _
            rw [d1, hd, if_pos rfl]
          | succ k =>
            show (r.2.2.getD k []).filter P = _
            rw [r4 k, hd, if_neg (by omega)]
        · intro hlt
          simp only [count_update] at hlt
          omega
      · obtain ⟨d1, d2⟩ := s2 hd
        have hs := ticks_left_succ E T.time hE h0
        rw [← hct] at d2 hs
        obtain ⟨r, r1, r2, r3, r4, r5, r6⟩ := ih (wheel_step T).1 w' hct' d2
          (by rw [hs]; omega) (by rw [hs]; omega) hops'
        rw [hs] at r4 r5 r6
        refine ⟨(r.1, r.2.1, (wheel_step T).2 :: r.2.2), ?_, ?_, ?_, ?_, ?_, ?_⟩
        · simp [timer_run, ha, r1]
        · simp [r2, count_update]
        · show r.1.time = _
          rw [r3, hct]
          simp only [count_update]
          omega
        · intro k hk
          simp only [count_update] at hk
          cases k with
          | zero =>
            show (wheel_step T).2.filter P = _
            rw [d1, if_neg (by omega)]
          | succ k =>
            show (r.2.2.getD k []).filter P = _
            rw [r4 k (by omega)]
            by_cases hk2 : k + 1 = ticks_left E T.time - 1
            · rw [if_pos hk2, if_pos (by omega)]
            · rw [if_neg hk2, if_neg (by omega)]
        · intro hlt
          simp only [count_update] at hlt
          exact r5 (by omega)
        · intro hle
          simp only [count_update] at hle
          exact r6 (by omega)

end Skynet

namespace Skynet

/-! ## Adding nodes with a common expiry at one tick -/

/-- Adding a node that satisfies `P`, with the common expiry, appends it to
the list of the nodes that satisfy `P`. -/
theorem held_add_node (P : timer_node → Bool) (E : Nat) (L : List timer_node) (T : timer)
    (n : timer_node) (hn : P n = true) (hE : n.expire = E)
    (hh : held P L (place E T.time) T) :
    held P (L ++ [n]) (place E T.time) (add_node T n) := by
  intro b
  rw [bucket_add_node, List.filter_append, hh b, hE]
  by_cases hb : b = place E T.time
  · rw [if_pos hb, if_pos hb, if_pos hb.symm]
    simp [List.filter_cons, hn]
  · rw [if_neg hb, if_neg hb, if_neg (fun e => hb e.symm)]
    rfl

/-- A wheel without nodes that satisfy `P` holds the empty list of them in
any bucket. -/
theorem held_nil (P : timer_node → Bool) (loc : bucket_id) (T : timer)
    (h : ∀ b, (bucket T b).filter P = []) : held P [] loc T := by
  intro b
  rw [h b, ite_self]

/-- A run of `timer_add` calls, none of which adds a node that satisfies `P`,
is a run on a wheel at the same tick with the same nodes that satisfy `P`. -/
theorem run_adds_held {σ : Type} (R : runtime σ) (P : timer_node → Bool)
    (L : List timer_node) (loc : bucket_id) (mid : List (timer_event × Int)) :
    ∀ T : timer, held P L loc T →
      (∀ x ∈ mid, ∀ t, P ⟨uint32 (int_to_uint32 x.2 + t), x.1⟩ = false) →
      ∃ T', T'.time = T.time ∧ held P L loc T' ∧
        ∀ (w : σ) (rest : List timer_op),
          timer_run R T w (mid.map (fun x => timer_op.add x.1 x.2) ++ rest)
            = timer_run R T' w rest := by
  induction mid with
  | nil =>
    intro T hh _
    exact ⟨T, rfl, hh, fun w rest => rfl⟩
  | cons x mid ih =>
    intro T hh hm
    have hx := hm x (List.mem_cons_self _ _) T.time
    obtain ⟨T', t1, t2, t3⟩ := ih (timer_add T x.1 x.2)
      (fun b => by rw [filter_timer_add P T x.1 x.2 hx b]; exact hh b)
      (fun y hy => hm y (List.mem_cons_of_mem _ hy))
    rw [time_timer_add] at t1
    refine ⟨T', t1, t2, ?_⟩
    intro w rest
    rw [← t3 w rest]
    rfl

end Skynet

namespace Skynet

/-! ## Every pending node sits in the bucket of the placement rule -/

/-- For `uint32_t` values the arithmetic form `place` is the bucket of the
specification. -/
theorem place_eq_spec_bucket (e t : Nat) (he : e < 4294967296) (ht : t < 4294967296) :
    place e t = spec_bucket e t := by
  have a6 : ∀ x : Nat, x &&& 0x3F = x % 64 := fun x => Nat.and_pow_two_sub_one_eq_mod x 6
  have a8 : ∀ x : Nat, x &&& 0xFF = x % 256 := fun x => Nat.and_pow_two_sub_one_eq_mod x 8
  unfold place spec_bucket slice
  simp only [a6, a8, Nat.shiftRight_eq_div_pow]
  norm_num
  by_cases h8 : e / 256 = t / 256
  · rw [if_pos h8, if_pos h8]
  · rw [if_neg h8, if_neg h8]
    by_cases h26 : e / 67108864 = t / 67108864
    · have s3 : e / 67108864 % 64 = t / 67108864 % 64 := by rw [h26]
      rw [if_pos s3]
      by_cases h20 : e / 1048576 = t / 1048576
      · have s2 : e / 1048576 % 64 = t / 1048576 % 64 := by rw [h20]
        rw [if_pos s2]
        by_cases h14 : e / 16384 = t / 16384
        · have s1 : e / 16384 % 64 = t / 16384 % 64 := by rw [h14]
          rw [if_pos h14, if_pos s1]
        · have s1 : ¬ e / 16384 % 64 = t / 16384 % 64 := by omega
          rw [if_neg h14, if_pos h20, if_neg s1]
      · have s2 : ¬ e / 1048576 % 64 = t / 1048576 % 64 := by omega
        have h14 : ¬ e / 16384 = t / 16384 := by omega
        rw [if_neg h14, if_neg h20, if_pos h26, if_neg s2]
    · have s3 : ¬ e / 67108864 % 64 = t / 67108864 % 64 := by omega
      have h20 : ¬ e / 1048576 = t / 1048576 := by omega
      have h14 : ¬ e / 16384 = t / 16384 := by omega
      rw [if_neg h14, if_neg h20, if_neg h26, if_neg s3]

/-- Function `timer_add` with a delay in `1 .. 2 ^ 31 - 1` keeps the shape of
the wheel: every node in a bucket is pending (between 1 and `2 ^ 31 - 1` ticks
are left) and sits in the bucket that `place` names. -/
theorem placed_add (T : timer) (arg : timer_event) (time : Int)
    (h0 : 0 < time) (h1 : time < 2147483648) (hT : T.time < 4294967296)
    (h : ∀ b x, x ∈ bucket T b → b = place x.expire T.time ∧ x.expire < 4294967296 ∧
      0 < ticks_left x.expire T.time ∧ ticks_left x.expire T.time < 2147483648) :
    ∀ b x, x ∈ bucket (timer_add T arg time) b →
      b = place x.expire (timer_add T arg time).time ∧ x.expire < 4294967296 ∧
      0 < ticks_left x.expire (timer_add T arg time).time ∧
      ticks_left x.expire (timer_add T arg time).time < 2147483648 := by
  intro b x hx
  rw [time_timer_add]
  have hd : time = ((time.toNat : Nat) : Int) := (Int.toNat_of_nonneg (le_of_lt h0)).symm
  obtain ⟨ha, htl, _⟩ := timer_add_one_more T arg time.toNat hT (by omega) (by omega)
  rw [← hd] at ha
  rw [ha, bucket_add_node, List.mem_append] at hx
  rcases hx with hx | hx
  · exact h b x hx
  · split_ifs at hx with hb
    · simp only [List.mem_singleton] at hx
      subst hx
      exact ⟨hb.symm, Nat.mod_lt _ (by norm_num), by rw [htl]; omega, by rw [htl]; omega⟩
    · simp at hx

/-- One `wheel_step` keeps the shape of the wheel. -/
theorem placed_step (T : timer) (hT : T.time < 4294967296)
    (h : ∀ b x, x ∈ bucket T b → b = place x.expire T.time ∧ x.expire < 4294967296 ∧
      0 < ticks_left x.expire T.time ∧ ticks_left x.expire T.time < 2147483648) :
    ∀ b x, x ∈ bucket (wheel_step T).1 b →
      b = place x.expire (wheel_step T).1.time ∧ x.expire < 4294967296 ∧
      0 < ticks_left x.expire (wheel_step T).1.time ∧
      ticks_left x.expire (wheel_step T).1.time < 2147483648 := by
  intro b x hx
  rw [time_wheel_step]
  rw [(bucket_wheel_step T).1 b] at hx
  by_cases hbn : b = bucket_id.near ((T.time + 1) % 4294967296 % 256)
  · rw [if_pos hbn] at hx
    simp at hx
  · rw [if_neg hbn, List.mem_append] at hx
    -- the node was in some bucket `b0` of `T` and is now in `place` of the new tick
    have key : ∃ b0, x ∈ bucket T b0 ∧ b = place x.expire ((T.time + 1) % 4294967296) := by
      rcases hx with hx | hx
      · by_cases hc : cascade ((T.time + 1) % 4294967296) = some b
        · rw [if_pos hc] at hx
          simp at hx
        · rw [if_neg hc] at hx
          by_cases hb0 : b = bucket_id.near (T.time % 256)
          · rw [if_pos hb0] at hx
            simp at hx
          · rw [if_neg hb0] at hx
            obtain ⟨p1, p2, p3, p4⟩ := h b x hx
            refine ⟨b, hx, ?_⟩
            rcases cascade_or_stay x.expire T.time p2 hT p3 p4 with e | e
            · rw [← e]
              exact p1
            · rw [← p1] at e
              exact absurd e hc
      · cases hc : cascade ((T.time + 1) % 4294967296) with
        | none =>
          rw [hc] at hx
          simp at hx
        | some c =>
          rw [hc] at hx
          simp only [Option.map_some', Option.getD_some, List.mem_filter,
            decide_eq_true_eq] at hx
          exact ⟨c, hx.1, hx.2.symm⟩
    obtain ⟨b0, hx0, hb⟩ := key
    obtain ⟨_, p2, p3, p4⟩ := h b0 x hx0
    have hs := ticks_left_succ x.expire T.time p2 p3
    have hne1 : ticks_left x.expire T.time ≠ 1 := by
      intro h1
      have e := (ticks_left_eq_one_iff x.expire T.time p2 hT).1 h1
      have := (place_eq_current_iff x.expire ((T.time + 1) % 4294967296)).2 e
      exact hbn (hb.trans this)
    exact ⟨hb, p2, by rw [hs]; omega, by rw [hs]; omega⟩

/-- On every reachable wheel the tick is a `uint32_t` and every node in a
bucket is pending and sits in the bucket that `place` names. -/
theorem timer_reach_placed {T : timer} (h : timer_reach T) :
    T.time < 4294967296 ∧
      ∀ b x, x ∈ bucket T b → b = place x.expire T.time ∧ x.expire < 4294967296 ∧
        0 < ticks_left x.expire T.time ∧ ticks_left x.expire T.time < 2147483648 := by
  induction h with
  | create =>
    refine ⟨by decide, ?_⟩
    intro b x hx
    cases b <;> exact absurd hx (List.not_mem_nil _)
  | add T arg time _ h0 h1 ih =>
    exact ⟨by rw [time_timer_add]; exact ih.1, placed_add T arg time h0 h1 ih.1 ih.2⟩
  | update R T w r _ hr ih =>
    obtain ⟨w', ha⟩ := timer_update_eq R T w
    rw [ha] at hr
    have e : r.1 = (wheel_step T).1 := by rw [← Option.some.inj hr]
    rw [e]
    exact ⟨by rw [time_wheel_step]; exact Nat.mod_lt _ (by norm_num), placed_step T ih.1 ih.2⟩

end Skynet

namespace Skynet

/-! ## `timer_shift` neither drops nor duplicates nodes -/

/-- The bucket that `place` names is one of `near[0..255]`, `t[0..3][0..63]`. -/
theorem place_valid (e t : Nat) :
    (∃ k, k < 256 ∧ place e t = bucket_id.near k) ∨
      (∃ i j, i < 4 ∧ j < 64 ∧ place e t = bucket_id.level i j) := by
  unfold place
  split_ifs
  · exact Or.inl ⟨_, Nat.mod_lt _ (by norm_num), rfl⟩
  · exact Or.inr ⟨0, _, by norm_num, Nat.mod_lt _ (by norm_num), rfl⟩
  · exact Or.inr ⟨1, _, by norm_num, Nat.mod_lt _ (by norm_num), rfl⟩
  · exact Or.inr ⟨2, _, by norm_num, Nat.mod_lt _ (by norm_num), rfl⟩
  · exact Or.inr ⟨3, _, by norm_num, Nat.mod_lt _ (by norm_num), rfl⟩

/-- The bucket that `cascade` names is one of `t[0..3][0..63]`. -/
theorem cascade_valid {ct : Nat} {b : bucket_id} (h : cascade ct = some b) :
    ∃ i j, i < 4 ∧ j < 64 ∧ b = bucket_id.level i j := by
  unfold cascade at h
  split_ifs at h <;> simp only [Option.some.injEq] at h <;> subst h
  · exact ⟨3, 0, by norm_num, by norm_num, rfl⟩
  · exact ⟨0, _, by norm_num, Nat.mod_lt _ (by norm_num), rfl⟩
  · exact ⟨1, _, by norm_num, Nat.mod_lt _ (by norm_num), rfl⟩
  · exact ⟨2, _, by norm_num, Nat.mod_lt _ (by norm_num), rfl⟩
  · exact ⟨3, _, by norm_num, Nat.mod_lt _ (by norm_num), rfl⟩

/-- Sum over the level buckets of a value that sits at one index. -/
theorem sum_level_single (i j M : Nat) (hi : i < 4) (hj : j < 64) :
    (∑ a ∈ Finset.range 4, ∑ b ∈ Finset.range 64, (if a = i ∧ b = j then M else 0)) = M := by
  have h : ∀ a, (∑ b ∈ Finset.range 64, (if a = i ∧ b = j then M else 0))
      = if a = i then M else 0 := by
    intro a
    by_cases ha : a = i
    · simp [ha, Finset.sum_ite_eq', hj]
    · simp [ha]
  simp only [h, Finset.sum_ite_eq', Finset.mem_range, hi, if_true]

/-- Re-inserting a level bucket keeps the number of copies of every node in
the wheel. -/
theorem wheel_count_move_list (x : timer_node) (T : timer) (i j : Nat)
    (hi : i < 4) (hj : j < 64) :
    wheel_count x (move_list T i j) = wheel_count x T := by
  have hc : ∀ b, (bucket (move_list T i j) b).count x
      = (if b = bucket_id.level i j then 0 else (bucket T b).count x)
        + (if b = place x.expire T.time then (T.t i j).count x else 0) := by
    intro b
    rw [move_list_eq, count_foldl_add_node, bucket_bucket_set, time_bucket_set]
    by_cases hb : b = bucket_id.level i j
    · subst hb; simp [bucket]
    · simp [hb]
  have hn : ∀ a, ((move_list T i j).near a).count x
      = (T.near a).count x
        + (if bucket_id.near a = place x.expire T.time then (T.t i j).count x else 0) := by
    intro a
    have := hc (bucket_id.near a)
    simpa [bucket] using this
  have hl : ∀ a b, ((move_list T i j).t a b).count x
        + (if a = i ∧ b = j then (T.t i j).count x else 0)
      = (T.t a b).count x
        + (if bucket_id.level a b = place x.expire T.time then (T.t i j).count x else 0) := by
    intro a b
    have := hc (bucket_id.level a b)
    simp only [bucket, bucket_id.level.injEq] at this
    rw [this]
    by_cases hab : a = i ∧ b = j
    · rw [if_pos hab, if_pos hab, hab.1, hab.2]
      omega
    · rw [if_neg hab, if_neg hab]
      omega
  have hsum : (∑ a ∈ Finset.range 4, ∑ b ∈ Finset.range 64, ((move_list T i j).t a b).count x)
        + (T.t i j).count x
      = (∑ a ∈ Finset.range 4, ∑ b ∈ Finset.range 64, (T.t a b).count x)
        + ∑ a ∈ Finset.range 4, ∑ b ∈ Finset.range 64,
            (if bucket_id.level a b = place x.expire T.time then (T.t i j).count x else 0) := by
    rw [← sum_level_single i j ((T.t i j).count x) hi hj]
    simp only [← Finset.sum_add_distrib]
    apply Finset.sum_congr rfl
    intro a _
    apply Finset.sum_congr rfl
    intro b _
    rw [sum_level_single i j _ hi hj]
    exact hl a b
  have hplace : (∑ a ∈ Finset.range 256,
          (if bucket_id.near a = place x.expire T.time then (T.t i j).count x else 0))
        + (∑ a ∈ Finset.range 4, ∑ b ∈ Finset.range 64,
            (if bucket_id.level a b = place x.expire T.time then (T.t i j).count x else 0))
      = (T.t i j).count x := by
    rcases place_valid x.expire T.time with ⟨k, hk, e⟩ | ⟨a0, b0, ha0, hb0, e⟩
    · rw [e]
      simp only [bucket_id.near.injEq, Finset.sum_ite_eq', Finset.mem_range, hk, if_true,
        reduceCtorEq, if_false, Finset.sum_const_zero, Nat.add_zero]
    · rw [e]
      simp only [bucket_id.level.injEq, reduceCtorEq, if_false, Finset.sum_const_zero,
        Nat.zero_add]
      exact sum_level_single a0 b0 _ ha0 hb0
  unfold wheel_count
  simp only [hn, Finset.sum_add_distrib]
  omega

/-- Function `timer_shift` returns a wheel with the same number of copies of
every node. -/
theorem wheel_count_timer_shift (x : timer_node) (T : timer) :
    ∃ T', timer_shift T = some T' ∧ wheel_count x T' = wheel_count x T := by
  refine ⟨_, timer_shift_eq T, ?_⟩
  cases hc : cascade ((T.time + 1) % 4294967296) with
  | none => rfl
  | some c =>
    obtain ⟨i, j, hi, hj, rfl⟩ := cascade_valid hc
    exact wheel_count_move_list x _ i j hi hj

end Skynet

namespace Skynet

/-! ## Updates create no node, and the cascade scenario -/

/-- Every node that `wheel_step` leaves in a bucket or gives to
`dispatch_list` was in a bucket before. -/
theorem mem_wheel_step (T : timer) (x : timer_node) :
    (x ∈ (wheel_step T).2 → ∃ b, x ∈ bucket T b) ∧
      ∀ b, x ∈ bucket (wheel_step T).1 b → ∃ b0, x ∈ bucket T b0 := by
  obtain ⟨hb, hd⟩ := bucket_wheel_step T
  have key : ∀ b, x ∈
      ((if cascade ((T.time + 1) % 4294967296) = some b then []
         else if b = bucket_id.near (T.time % 256) then [] else bucket T b)
        ++ ((cascade ((T.time + 1) % 4294967296)).map (fun c =>
              (bucket T c).filter
                (fun n => decide (place n.expire ((T.time + 1) % 4294967296) = b)))).getD [])
      → ∃ b0, x ∈ bucket T b0 := by
    intro b hx
    rw [List.mem_append] at hx
    rcases hx with hx | hx
    · split_ifs at hx
      · simp at hx
      · simp at hx
      · exact ⟨b, hx⟩
    · cases hc : cascade ((T.time + 1) % 4294967296) with
      | none =>
        rw [hc] at hx
        simp at hx
      | some c =>
        rw [hc] at hx
        simp only [Option.map_some', Option.getD_some] at hx
        exact ⟨c, List.mem_of_mem_filter hx⟩
  constructor
  · intro hx
    rw [hd, List.mem_append] at hx
    rcases hx with hx | hx
    · exact ⟨_, hx⟩
    · exact key _ hx
  · intro b hx
    rw [hb] at hx
    by_cases hbn : b = bucket_id.near ((T.time + 1) % 4294967296 % 256)
    · rw [if_pos hbn] at hx
      simp at hx
    · rw [if_neg hbn] at hx
      exact key b hx

/-- A run of updates returns, and every node it gives to `dispatch_list` or
leaves in a bucket was in a bucket at the start. -/
theorem run_updates_mem {σ : Type} (R : runtime σ) (n : Nat) :
    ∀ (T : timer) (w : σ),
      ∃ r, timer_run R T w (List.replicate n timer_op.update) = some r ∧
        (∀ k x, x ∈ r.2.2.getD k [] → ∃ b, x ∈ bucket T b) ∧
        ∀ b x, x ∈ bucket r.1 b → ∃ b0, x ∈ bucket T b0 := by
  induction n with
  | zero =>
    intro T w
    refine ⟨(T, w, []), rfl, ?_, fun b x hx => ⟨b, hx⟩⟩
    intro k x hx
    simp at hx
  | succ n ih =>
    intro T w
    obtain ⟨w', ha⟩ := timer_update_eq R T w
    obtain ⟨r, r1, r2, r3⟩ := ih (wheel_step T).1 w'
    refine ⟨(r.1, r.2.1, (wheel_step T).2 :: r.2.2), ?_, ?_, ?_⟩
    · simp [List.replicate_succ, timer_run, ha, r1]
    · intro k x hx
      cases k with
      | zero => exact (mem_wheel_step T x).1 hx
      | succ k =>
        obtain ⟨b, hb⟩ := r2 k x hx
        exact (mem_wheel_step T x).2 b hb
    · intro b x hx
      obtain ⟨b1, hb1⟩ := r3 b x hx
      exact (mem_wheel_step T x).2 b1 hb1

/-- A list of nodes taken from `Ns` whose part with the expiry of `x` is `[x]`
when `c x` holds and empty otherwise, for every `x` of `Ns`. -/
theorem list_of_classes (Ns L : List timer_node) (c : timer_node → Prop)
    [DecidablePred c]
    (hmem : ∀ x ∈ L, x ∈ Ns)
    (hf : ∀ x ∈ Ns, L.filter (fun n => decide (n.expire = x.expire))
      = if c x then [x] else []) :
    ((∀ x ∈ Ns, ¬ c x) → L = []) ∧
    (∀ x ∈ Ns, c x → (∀ y ∈ Ns, c y → y.expire = x.expire) → L = [x]) := by
  have hc : ∀ y ∈ L, c y := by
    intro y hy
    have h1 : y ∈ L.filter (fun n => decide (n.expire = y.expire)) := by
      rw [List.mem_filter]
      exact ⟨hy, by simp⟩
    rw [hf y (hmem y hy)] at h1
    by_contra hn
    rw [if_neg hn] at h1
    simp at h1
  constructor
  · intro hno
    rw [List.eq_nil_iff_forall_not_mem]
    intro y hy
    exact hno y (hmem y hy) (hc y hy)
  · intro x hx hcx huniq
    have h2 := hf x hx
    rw [if_pos hcx] at h2
    rw [← h2, eq_comm, List.filter_eq_self]
    intro y hy
    simp only [decide_eq_true_eq]
    exact huniq y (hmem y hy) (hc y hy)

end Skynet

namespace Skynet

/-! ## The cascade scenario -/

theorem count_update_replicate (n : Nat) :
    count_update (List.replicate n timer_op.update) = n := by
  induction n with
  | zero => rfl
  | succ n ih => rw [List.replicate_succ, count_update, ih]

/-- At tick 0 `timer_add` with delay `d` adds a node with expiry `d`. -/
theorem timer_add_at_zero (T : timer) (arg : timer_event) (d : Nat) (hT : T.time = 0)
    (hd : d < 4294967296) : timer_add T arg (d : Int) = add_node T ⟨d, arg⟩ := by
  unfold timer_add
  rw [hT]
  have : uint32 (int_to_uint32 (d : Int) + 0) = d := by
    unfold uint32 int_to_uint32
    omega
  rw [this]

theorem timer_add_at_zero_time (T : timer) (arg : timer_event) (d : Int) (hT : T.time = 0) :
    (timer_add T arg d).time = 0 := by
  rw [time_timer_add]; exact hT

/-- The wheel of the scenario is the fresh wheel after `add_node` for each of
its nodes. -/
theorem scenario_wheel_eq (a1 a2 a3 a4 a5 : timer_event) :
    scenario_wheel a1 a2 a3 a4 a5
      = (scenario_nodes a1 a2 a3 a4 a5).foldl add_node timer_create_timer := by
  have t0 : timer_create_timer.time = 0 := rfl
  have t1 := timer_add_at_zero_time timer_create_timer a1 1 t0
  have t2 := timer_add_at_zero_time _ a2 255 t1
  have t3 := timer_add_at_zero_time _ a3 256 t2
  have t4 := timer_add_at_zero_time _ a4 16383 t3
  have e5 := timer_add_at_zero _ a5 16384 t4 (by norm_num)
  have e4 := timer_add_at_zero _ a4 16383 t3 (by norm_num)
  have e3 := timer_add_at_zero _ a3 256 t2 (by norm_num)
  have e2 := timer_add_at_zero _ a2 255 t1 (by norm_num)
  have e1 := timer_add_at_zero _ a1 1 t0 (by norm_num)
  simp only [Nat.cast_ofNat, Nat.cast_one] at e1 e2 e3 e4 e5
  unfold scenario_wheel scenario_nodes
  rw [e5, e4, e3, e2, e1, List.foldl_cons, List.foldl_cons, List.foldl_cons, List.foldl_cons,
    List.foldl_cons, List.foldl_nil]

/-- The buckets of the wheel of the scenario. -/
theorem scenario_wheel_bucket (a1 a2 a3 a4 a5 : timer_event) (b : bucket_id) :
    bucket (scenario_wheel a1 a2 a3 a4 a5) b
      = (scenario_nodes a1 a2 a3 a4 a5).filter (fun n => decide (place n.expire 0 = b)) := by
  rw [scenario_wheel_eq, bucket_foldl_add_node]
  have : bucket timer_create_timer b = [] := by cases b <;> rfl
  rw [this, List.nil_append]
  rfl

/-- The nodes of the scenario have pairwise different expiries below `2 ^ 31`. -/
theorem scenario_nodes_class (a1 a2 a3 a4 a5 : timer_event) :
    ∀ x ∈ scenario_nodes a1 a2 a3 a4 a5,
      (scenario_nodes a1 a2 a3 a4 a5).filter (fun n => decide (n.expire = x.expire)) = [x] ∧
        0 < x.expire ∧ x.expire < 2147483648 := by
  intro x hx
  simp only [scenario_nodes, List.mem_cons, List.mem_singleton, List.not_mem_nil,
    or_false] at hx
  rcases hx with e | e | e | e | e <;> subst e <;>
    exact ⟨by simp [scenario_nodes, List.filter_cons], by norm_num, by norm_num⟩

/-- The scenario after `n` updates: what each update gave to
`dispatch_list` and what the buckets hold, expiry by expiry. -/
theorem scenario_run {σ : Type} (R : runtime σ) (w : σ) (a1 a2 a3 a4 a5 : timer_event)
    (n : Nat) :
    ∃ r, timer_run R (scenario_wheel a1 a2 a3 a4 a5) w (List.replicate n timer_op.update)
        = some r ∧
      r.2.2.length = n ∧ r.1.time = n % 4294967296 ∧
      (∀ k, k < n →
        (∀ x ∈ r.2.2.getD k [], x ∈ scenario_nodes a1 a2 a3 a4 a5) ∧
        ∀ x ∈ scenario_nodes a1 a2 a3 a4 a5,
          (r.2.2.getD k []).filter (fun y => decide (y.expire = x.expire))
            = if k + 1 = x.expire then [x] else []) ∧
      (∀ b,
        (∀ x ∈ bucket r.1 b, x ∈ scenario_nodes a1 a2 a3 a4 a5) ∧
        ∀ x ∈ scenario_nodes a1 a2 a3 a4 a5,
          (bucket r.1 b).filter (fun y => decide (y.expire = x.expire))
            = if n < x.expire ∧ b = place x.expire (n % 4294967296) then [x] else []) := by
  obtain ⟨r, hr, m1, m2⟩ := run_updates_mem R n (scenario_wheel a1 a2 a3 a4 a5) w
  have hmem : ∀ b x, x ∈ bucket (scenario_wheel a1 a2 a3 a4 a5) b →
      x ∈ scenario_nodes a1 a2 a3 a4 a5 := by
    intro b x hx
    rw [scenario_wheel_bucket] at hx
    exact List.mem_of_mem_filter hx
  have ht0 : (scenario_wheel a1 a2 a3 a4 a5).time = 0 := by
    rw [scenario_wheel_eq, time_foldl_add_node]
    rfl
  -- the run, seen from the nodes with the expiry of `x`
  have hx : ∀ x ∈ scenario_nodes a1 a2 a3 a4 a5,
      r.2.2.length = n ∧ r.1.time = n % 4294967296 ∧
      (∀ k, k < n → (r.2.2.getD k []).filter (fun y => decide (y.expire = x.expire))
        = if k + 1 = x.expire then [x] else []) ∧
      (n < x.expire → held (fun y => decide (y.expire = x.expire)) [x]
        (place x.expire r.1.time) r.1) ∧
      (x.expire ≤ n → ∀ b, (bucket r.1 b).filter (fun y => decide (y.expire = x.expire)) = []) := by
    intro x hxm
    obtain ⟨c1, c2, c3⟩ := scenario_nodes_class a1 a2 a3 a4 a5 x hxm
    have htl : ticks_left x.expire 0 = x.expire := by
      unfold ticks_left
      omega
    have hheld : held (fun y => decide (y.expire = x.expire)) [x]
        (place x.expire (scenario_wheel a1 a2 a3 a4 a5).time) (scenario_wheel a1 a2 a3 a4 a5) := by
      rw [ht0]
      intro b
      rw [scenario_wheel_bucket,
        filter_place (fun y => decide (y.expire = x.expire)) x.expire 0 b
          (fun n hn => by simpa using hn), c1]
      by_cases hb : b = place x.expire 0
      · rw [if_pos hb, if_pos hb.symm]
      · rw [if_neg hb, if_neg (fun e => hb e.symm)]
    obtain ⟨r', q1, q2, q3, q4, q5, q6⟩ := run_held R (fun y => decide (y.expire = x.expire))
      x.expire [x] (fun n hn => by simpa using hn) (by omega)
      (List.replicate n timer_op.update) (scenario_wheel a1 a2 a3 a4 a5) w
      (by rw [ht0]; norm_num) hheld (by rw [ht0, htl]; exact c2) (by rw [ht0, htl]; exact c3)
      (fun arg time hm => by
        have := List.eq_of_mem_replicate hm
        exact timer_op.noConfusion this)
    rw [hr] at q1
    have e : r = r' := Option.some.inj q1
    subst e
    rw [count_update_replicate] at q2 q3 q4 q5 q6
    rw [ht0, htl] at q4 q5 q6
    rw [ht0, Nat.zero_add] at q3
    exact ⟨q2, q3, q4, q5, q6⟩
  have hx1 := hx ⟨1, a1⟩ (by simp [scenario_nodes])
  refine ⟨r, hr, hx1.1, hx1.2.1, ?_, ?_⟩
  · intro k hk
    refine ⟨fun x hxk => ?_, fun x hxm => (hx x hxm).2.2.1 k hk⟩
    obtain ⟨b, hb⟩ := m1 k x hxk
    exact hmem b x hb
  · intro b
    refine ⟨fun x hxb => ?_, fun x hxm => ?_⟩
    · obtain ⟨b0, hb0⟩ := m2 b x hxb
      exact hmem b0 x hb0
    · obtain ⟨_, q3, _, q5, q6⟩ := hx x hxm
      by_cases hn : n < x.expire
      · have := q5 hn b
        rw [q3] at this
        rw [this]
        by_cases hb : b = place x.expire (n % 4294967296)
        · rw [if_pos hb, if_pos ⟨hn, hb⟩]
        · rw [if_neg hb, if_neg (fun e => hb e.2)]
      · rw [q6 (by omega) b, if_neg (fun e => hn e.1)]

end Skynet

namespace Skynet

/-- A property of all nodes of the scenario, node by node. -/
theorem forall_scenario_nodes (a1 a2 a3 a4 a5 : timer_event) (Q : timer_node → Prop) :
    (∀ x ∈ scenario_nodes a1 a2 a3 a4 a5, Q x)
      ↔ Q ⟨1, a1⟩ ∧ Q ⟨255, a2⟩ ∧ Q ⟨256, a3⟩ ∧ Q ⟨16383, a4⟩ ∧ Q ⟨16384, a5⟩ := by
  simp [scenario_nodes]

/-- The scenario after `n` updates, list by list: update `k + 1` gives
`dispatch_list` exactly the node with expiry `k + 1`, if there is one; a
bucket holds exactly the node that is still pending and has its place there,
if there is one. -/
theorem scenario_lists {σ : Type} (R : runtime σ) (w : σ) (a1 a2 a3 a4 a5 : timer_event)
    (n : Nat) :
    ∃ r, timer_run R (scenario_wheel a1 a2 a3 a4 a5) w (List.replicate n timer_op.update)
        = some r ∧
      r.2.2.length = n ∧ r.1.time = n % 4294967296 ∧
      (∀ k, k < n → ∀ x ∈ scenario_nodes a1 a2 a3 a4 a5, x.expire = k + 1 →
        r.2.2.getD k [] = [x]) ∧
      (∀ k, k < n → (∀ x ∈ scenario_nodes a1 a2 a3 a4 a5, x.expire ≠ k + 1) →
        r.2.2.getD k [] = []) ∧
      (∀ b, ∀ x ∈ scenario_nodes a1 a2 a3 a4 a5,
        n < x.expire → b = place x.expire (n % 4294967296) →
        (∀ y ∈ scenario_nodes a1 a2 a3 a4 a5,
          n < y.expire → b = place y.expire (n % 4294967296) → y.expire = x.expire) →
        bucket r.1 b = [x]) ∧
      (∀ b, (∀ x ∈ scenario_nodes a1 a2 a3 a4 a5,
          ¬ (n < x.expire ∧ b = place x.expire (n % 4294967296))) →
        bucket r.1 b = []) := by
  obtain ⟨r, r1, r2, r3, r4, r5⟩ := scenario_run R w a1 a2 a3 a4 a5 n
  refine ⟨r, r1, r2, r3, ?_, ?_, ?_, ?_⟩
  · intro k hk x hx he
    obtain ⟨m, f⟩ := r4 k hk
    exact (list_of_classes _ _ (fun y => k + 1 = y.expire) m f).2 x hx he.symm
      (fun y _ hy => by rw [← hy, he])
  · intro k hk hno
    obtain ⟨m, f⟩ := r4 k hk
    exact (list_of_classes _ _ (fun y => k + 1 = y.expire) m f).1
      (fun x hx e => hno x hx e.symm)
  · intro b x hx hn hb huniq
    obtain ⟨m, f⟩ := r5 b
    exact (list_of_classes _ _ (fun y => n < y.expire ∧ b = place y.expire (n % 4294967296))
      m f).2 x hx ⟨hn, hb⟩ (fun y hy hc => huniq y hy hc.1 hc.2)
  · intro b hno
    obtain ⟨m, f⟩ := r5 b
    exact (list_of_classes _ _ (fun y => n < y.expire ∧ b = place y.expire (n % 4294967296))
      m f).1 hno

/-- The scenario after 256 updates. -/
theorem scenario_after_256 {σ : Type} (R : runtime σ) (w : σ) (a1 a2 a3 a4 a5 : timer_event) :
    ∃ r, timer_run R (scenario_wheel a1 a2 a3 a4 a5) w (List.replicate 256 timer_op.update)
        = some r ∧
      r.2.2.length = 256 ∧ r.1.time = 256 ∧
      r.2.2.getD 0 [] = [⟨1, a1⟩] ∧ r.2.2.getD 254 [] = [⟨255, a2⟩] ∧
      r.2.2.getD 255 [] = [⟨256, a3⟩] ∧
      (∀ k, k < 256 → k ≠ 0 → k ≠ 254 → k ≠ 255 → r.2.2.getD k [] = []) ∧
      r.1.t 0 63 = [⟨16383, a4⟩] ∧ r.1.t 1 1 = [⟨16384, a5⟩] ∧
      ∀ i, r.1.near i = [] := by
  obtain ⟨r, r1, r2, r3, r4, r5, r6, r7⟩ := scenario_lists R w a1 a2 a3 a4 a5 256
  have p4 : place 16383 (256 % 4294967296) = bucket_id.level 0 63 := by decide
  have p5 : place 16384 (256 % 4294967296) = bucket_id.level 1 1 := by decide
  refine ⟨r, r1, r2, r3, ?_, ?_, ?_, ?_, ?_, ?_, ?_⟩
  · exact r4 0 (by norm_num) ⟨1, a1⟩ (by simp [scenario_nodes]) rfl
  · exact r4 254 (by norm_num) ⟨255, a2⟩ (by simp [scenario_nodes]) rfl
  · exact r4 255 (by norm_num) ⟨256, a3⟩ (by simp [scenario_nodes]) rfl
  · intro k hk k0 k1 k2
    apply r5 k hk
    rw [forall_scenario_nodes]
    simp only [ne_eq]
    omega
  · apply r6 (bucket_id.level 0 63) ⟨16383, a4⟩ (by simp [scenario_nodes]) (by norm_num)
      p4.symm
    rw [forall_scenario_nodes]
    refine ⟨fun h _ => absurd h (by norm_num), fun h _ => absurd h (by norm_num),
      fun h _ => absurd h (by norm_num), fun _ _ => rfl, fun _ h => ?_⟩
    rw [show (⟨16384, a5⟩ : timer_node).expire = 16384 from rfl, p5] at h
    exact absurd h (by decide)
  · apply r6 (bucket_id.level 1 1) ⟨16384, a5⟩ (by simp [scenario_nodes]) (by norm_num)
      p5.symm
    rw [forall_scenario_nodes]
    refine ⟨fun h _ => absurd h (by norm_num), fun h _ => absurd h (by norm_num),
      fun h _ => absurd h (by norm_num), fun _ h => ?_, fun _ _ => rfl⟩
    rw [show (⟨16383, a4⟩ : timer_node).expire = 16383 from rfl, p4] at h
    exact absurd h (by decide)
  · intro i
    apply r7 (bucket_id.near i)
    rw [forall_scenario_nodes]
    simp only [p4, p5, reduceCtorEq, and_false, not_false_eq_true, and_true, not_and]
    omega

end Skynet

namespace Skynet

/-! ## The registry after a run: one `skynet_context_push` per node, in order -/

/-- Function `dispatch_nodes` calls `skynet_context_push` once for each node,
first node first. -/
theorem dispatch_nodes_foldl {σ : Type} (R : runtime σ) (ns : List timer_node) :
    ∀ w : σ, dispatch_nodes R ns w
      = ns.foldl (push_response R) w := by
  induction ns with
  | nil => intro w; rfl
  | cons n ns ih =>
    intro w
    rw [List.foldl_cons, ← ih]
    rfl

/-- Function `timer_execute` with the registry state it returns. -/
theorem timer_execute_state {σ : Type} (R : runtime σ) (T : timer) (w : σ)
    (handed : List timer_node) :
    timer_execute R T w handed
      = some (bucket_set T (bucket_id.near (T.time % 256)) [],
          dispatch_nodes R (T.near (T.time % 256)) w,
          handed ++ T.near (T.time % 256)) := by
  have a0 : T.time &&& TIME_NEAR_MASK = T.time % 256 := Nat.and_pow_two_sub_one_eq_mod T.time 8
  unfold timer_execute
  simp only [a0]
  by_cases h : T.near (T.time % 256) = []
  · rw [near_set_nil_of_nil T _ h, h]
    simp [timer_execute_loop, h, dispatch_nodes]
  · obtain ⟨n, ns, hn⟩ : ∃ n ns, T.near (T.time % 256) = n :: ns := by
      cases hl : T.near (T.time % 256) with
      | nil => exact absurd hl h
      | cons n ns => exact ⟨n, ns, rfl⟩
    rw [timer_execute_loop]
    simp only [h, ne_eq, not_false_eq_true, if_true, link_clear]
    rw [hn]
    simp only [dispatch_list]
    rw [timer_execute_loop]
    simp [near_set, bucket_set]

/-- Function `timer_update` with the registry state it returns: the state
after one `skynet_context_push` for each node given to `dispatch_list`, in the
order in which they are given. -/
theorem timer_update_state {σ : Type} (R : runtime σ) (T : timer) (w : σ) :
    timer_update R T w
      = some ((wheel_step T).1,
          (wheel_step T).2.foldl (push_response R) w,
          (wheel_step T).2) := by
  have h1 := timer_execute_state R T w []
  have ht1 : (bucket_set T (bucket_id.near (T.time % 256)) []).time = T.time :=
    time_bucket_set _ _ _
  have h2 := timer_shift_eq (bucket_set T (bucket_id.near (T.time % 256)) [])
  rw [ht1] at h2
  have h3 := timer_execute_state R
    (cascade_apply { bucket_set T (bucket_id.near (T.time % 256)) [] with
        time := (T.time + 1) % 4294967296 } (cascade ((T.time + 1) % 4294967296)))
    (dispatch_nodes R (T.near (T.time % 256)) w) ([] ++ T.near (T.time % 256))
  rw [time_cascade_apply] at h3
  unfold timer_update
  rw [h1]
  simp only [h2, h3]
  unfold wheel_step
  simp only [List.foldl_append, dispatch_nodes_foldl, List.nil_append]

/-- After a run of calls the registry is in the state reached by one
`skynet_context_push` for each node given to `dispatch_list`, in the order of
the updates and, inside an update, in the order of its list. -/
theorem timer_run_state {σ : Type} (R : runtime σ) (ops : List timer_op) :
    ∀ (T : timer) (w : σ) (r : timer × σ × List (List timer_node)),
      timer_run R T w ops = some r →
      r.2.1 = r.2.2.flatten.foldl (push_response R) w := by
  induction ops with
  | nil =>
    intro T w r h
    have e : (T, w, []) = r := Option.some.inj h
    rw [← e]
    rfl
  | cons op ops ih =>
    intro T w r h
    cases op with
    | add arg time => exact ih _ _ r h
    | update =>
      simp only [timer_run, timer_update_state] at h
      cases hr : timer_run R (wheel_step T).1
          ((wheel_step T).2.foldl (push_response R) w) ops with
      | none =>
        rw [hr] at h
        exact Option.noConfusion h
      | some x =>
        rw [hr] at h
        have e := Option.some.inj h
        rw [← e]
        simp only [List.flatten_cons, List.foldl_append]
        exact ih _ _ x hr

/-- A list whose part that satisfies `P` is `[a, b]` has `a` before `b`, and
no other element satisfies `P`. -/
theorem filter_pair_split (P : timer_node → Bool) (a b : timer_node) (L : List timer_node)
    (h : L.filter P = [a, b]) :
    ∃ pre mid post, L = pre ++ a :: (mid ++ b :: post) ∧
      (∀ x ∈ pre, P x = false) ∧ (∀ x ∈ mid, P x = false) ∧ (∀ x ∈ post, P x = false) := by
  rw [List.filter_eq_cons_iff] at h
  obtain ⟨pre, l2, e1, n1, _, h2⟩ := h
  rw [List.filter_eq_cons_iff] at h2
  obtain ⟨mid, post, e2, n2, _, h3⟩ := h2
  rw [List.filter_eq_nil_iff] at h3
  refine ⟨pre, mid, post, by rw [e1, e2], ?_, ?_, ?_⟩
  · intro x hx
    simpa using n1 x hx
  · intro x hx
    simpa using n2 x hx
  · intro x hx
    simpa using h3 x hx

/-- The part that satisfies `P` of the concatenation of lists, when that part
is `L` in the `d`-th list and empty in the others. -/
theorem filter_flatten_at (P : timer_node → Bool) (L : List timer_node)
    (Ls : List (List timer_node)) :
    ∀ d, (∀ k, k < Ls.length → (Ls.getD k []).filter P = if k + 1 = d then L else []) →
      Ls.flatten.filter P = if 0 < d ∧ d ≤ Ls.length then L else [] := by
  induction Ls with
  | nil =>
    intro d _
    have : ¬ (0 < d ∧ d ≤ ([] : List (List timer_node)).length) := by
      simp only [List.length_nil]
      omega
    rw [if_neg this]
    rfl
  | cons X Ls ih =>
    intro d h
    have h0 := h 0 (by simp)
    have hs : ∀ k, k < Ls.length → (Ls.getD k []).filter P
        = if k + 1 = d - 1 then L else [] := by
      intro k hk
      have := h (k + 1) (by simp; omega)
      simp only [List.getD_cons_succ] at this
      rw [this]
      by_cases e : k + 1 + 1 = d
      · rw [if_pos e, if_pos (by omega)]
      · rw [if_neg e, if_neg (by omega)]
    have ih' := ih (d - 1) hs
    simp only [List.getD_cons_zero] at h0
    rw [List.flatten_cons, List.filter_append, h0, ih']
    simp only [List.length_cons]
    by_cases e1 : 0 + 1 = d
    · rw [if_pos e1, if_neg (by omega), if_pos (by omega), List.append_nil]
    · rw [if_neg e1, List.nil_append]
      by_cases e2 : 0 < d - 1 ∧ d - 1 ≤ Ls.length
      · rw [if_pos e2, if_pos (by omega)]
      · rw [if_neg e2, if_neg (by omega)]

end Skynet

namespace Skynet

/-! ## Claims on the mailbox -/

/-- C1. A mailbox returned by `skynet_mq_create` simulates the abstract FIFO
along every sequence of `skynet_mq_push` and `skynet_mq_pop` calls, however
long, in which each push is made while fewer than `2 ^ 30 - 1` messages are
queued (the range in which the capacity of the ring is a C `int`): every call
returns, every pop reports exactly what the abstract FIFO yields (the oldest
message not yet popped, or emptiness), the stored messages are the abstract
list (nothing lost or duplicated, also across `expand_queue`), and
`skynet_mq_length` is the number of pushes minus the number of pops that
removed a message. Each prefix of a sequence is itself such a sequence, so
the equalities hold after every call. -/
theorem C1_mailbox_simulates_fifo (handle : Nat) (cs : List mq_call)
    (hb : fifo_fits [] cs) :
    ∃ q outs, mq_run (skynet_mq_create handle) cs = some (q, outs) ∧
      outs = (fifo_run [] cs).2.map pop_report ∧
      contents q = (fifo_run [] cs).1 ∧
      skynet_mq_length q = (count_push cs : Int) - (count_removed outs : Int) := by
  have hi := create_inv handle
  have hc := create_contents handle
  obtain ⟨q, outs, h1, h2, h3, h4⟩ := mq_run_simulates_fits cs (skynet_mq_create handle) hi
    (by rw [hc]; exact hb)
  rw [hc] at h3 h4
  refine ⟨q, outs, h1, h4, h3, ?_⟩
  have hlen := fifo_run_length cs []
  rw [← h3, ← h4, contents_length] at hlen
  have hnn := (length_bounds h2.1).1
  simp only [List.length_nil] at hlen
  omega

theorem C1_mailbox_simulates_fifo_witness :
    fifo_fits [] [mq_call.push ⟨1, 10, 0, 0⟩, mq_call.push ⟨2, 20, 0, 0⟩,
        mq_call.pop, mq_call.pop, mq_call.pop] ∧
    ∃ q outs, mq_run (skynet_mq_create 7)
        [mq_call.push ⟨1, 10, 0, 0⟩, mq_call.push ⟨2, 20, 0, 0⟩,
          mq_call.pop, mq_call.pop, mq_call.pop] = some (q, outs) ∧
      outs = (fifo_run [] [mq_call.push ⟨1, 10, 0, 0⟩, mq_call.push ⟨2, 20, 0, 0⟩,
          mq_call.pop, mq_call.pop, mq_call.pop]).2.map pop_report ∧
      contents q = (fifo_run [] [mq_call.push ⟨1, 10, 0, 0⟩, mq_call.push ⟨2, 20, 0, 0⟩,
          mq_call.pop, mq_call.pop, mq_call.pop]).1 ∧
      skynet_mq_length q
        = (count_push [mq_call.push ⟨1, 10, 0, 0⟩, mq_call.push ⟨2, 20, 0, 0⟩,
            mq_call.pop, mq_call.pop, mq_call.pop] : Int) - (count_removed outs : Int) :=
  ⟨⟨by decide, by decide, trivial⟩,
    C1_mailbox_simulates_fifo 7 _ ⟨by decide, by decide, trivial⟩⟩

/-- C3, as the code has it. `skynet_mq_pop` returns 0 when it removed the front
message (written through the out parameter) and 1 when the mailbox was empty
(nothing written); on a well-shaped mailbox it always returns, and a removed
message is the oldest one stored. -/
theorem C3_pop_return_value (q : message_queue) :
    (∀ r, skynet_mq_pop q = some r →
      r.1 = (if q.head = q.tail then 1 else 0) ∧
      r.2.1 = (if q.head = q.tail then none else some (q.queue q.head))) ∧
    (ring_ok q → ∃ q', skynet_mq_pop q
        = some ((if q.head = q.tail then 1 else 0),
                (if q.head = q.tail then none else some (q.queue q.head)), q') ∧
        contents q' = (contents q).tail) := by
  constructor
  · intro r h
    by_cases he : q.head = q.tail
    · rw [pop_empty q he] at h
      simp only [Option.some.injEq] at h
      subst h
      simp [he]
    · obtain ⟨h1, h2, _⟩ := pop_nonempty_frame he h
      simp [he, h1, h2]
  · intro hq
    by_cases he : q.head = q.tail
    · refine ⟨{ q with overload_threshold := MQ_OVERLOAD, in_global := 0 },
        by rw [pop_empty q he, if_pos he, if_pos he], ?_⟩
      have : contents q = [] := (contents_nil_iff hq).2 he
      show contents q = (contents q).tail
      rw [this]
      rfl
    · obtain ⟨q', hp, _, hc, _⟩ := pop_spec hq he
      refine ⟨q', by rw [hp, if_neg he, if_neg he], ?_⟩
      rw [hc]; rfl

/-- C3 fails as stated: on the empty mailbox just created `skynet_mq_pop`
returns 1 (non-zero), and after one push it returns 0 together with the
message. -/
theorem C3_counterexample :
    (skynet_mq_pop (skynet_mq_create 7)).map (fun r => (r.1, r.2.1)) = some (1, none) ∧
    (skynet_mq_pop (skynet_mq_push (skynet_mq_create 7) ⟨1, 10, 0, 0⟩).1).map
        (fun r => (r.1, r.2.1)) = some (0, some ⟨1, 10, 0, 0⟩) := by
  constructor
  · rfl
  · rfl

theorem C3_pop_return_value_witness :
    (∃ q', skynet_mq_pop (skynet_mq_create 7) = some (1, none, q')) ∧
    (∃ q', skynet_mq_pop (skynet_mq_push (skynet_mq_create 7) ⟨1, 10, 0, 0⟩).1
        = some (0, some ⟨1, 10, 0, 0⟩, q')) := by
  constructor
  · obtain ⟨q', h, _⟩ := (C3_pop_return_value (skynet_mq_create 7)).2 (create_inv 7).1
    exact ⟨q', h⟩
  · have hr := (push_inv (create_inv 7) ⟨1, 10, 0, 0⟩ (by decide)).1.1
    obtain ⟨q', h, _⟩ :=
      (C3_pop_return_value (skynet_mq_push (skynet_mq_create 7) ⟨1, 10, 0, 0⟩).1).2 hr
    exact ⟨q', h⟩

/-- C4. `skynet_mq_pop` sets `in_global` to 0 exactly when the mailbox was
empty (`head == tail`) at the call: on an empty mailbox the result is the same
mailbox with `overload_threshold` back at 1024 and `in_global` 0 (head, tail,
cap, overload, release and the ring are untouched); a pop that removes a
message leaves `in_global`, `tail`, `cap`, `release` and the ring as they
were. On a well-shaped mailbox the pop always returns. -/
theorem C4_pop_in_global_frame (q : message_queue) :
    (q.head = q.tail →
      skynet_mq_pop q
        = some (1, none, { q with overload_threshold := 1024, in_global := 0 })) ∧
    (∀ r, skynet_mq_pop q = some r →
      r.2.2.in_global = (if q.head = q.tail then 0 else q.in_global)) ∧
    (∀ r, q.head ≠ q.tail → skynet_mq_pop q = some r →
      r.2.2.in_global = q.in_global ∧ r.2.2.tail = q.tail ∧ r.2.2.cap = q.cap ∧
      r.2.2.release = q.release ∧ r.2.2.queue = q.queue) ∧
    (ring_ok q → ∃ r, skynet_mq_pop q = some r) := by
  refine ⟨fun he => pop_empty q he, ?_, ?_, ?_⟩
  · intro r h
    by_cases he : q.head = q.tail
    · rw [pop_empty q he] at h
      simp only [Option.some.injEq] at h
      subst h
      simp [he]
    · obtain ⟨_, _, h3⟩ := pop_nonempty_frame he h
      rw [h3]; simp [he]
  · intro r he h
    obtain ⟨_, _, h3⟩ := pop_nonempty_frame he h
    rw [h3]; simp
  · intro hq
    by_cases he : q.head = q.tail
    · exact ⟨_, pop_empty q he⟩
    · obtain ⟨q', hp, _⟩ := pop_spec hq he
      exact ⟨_, hp⟩

theorem C4_pop_in_global_frame_witness :
    skynet_mq_pop (skynet_mq_create 7)
      = some (1, none, { skynet_mq_create 7 with overload_threshold := 1024, in_global := 0 }) ∧
    (∃ r, skynet_mq_pop (skynet_mq_push (skynet_mq_create 7) ⟨1, 10, 0, 0⟩).1 = some r ∧
      r.2.2.in_global = 1) := by
  constructor
  · exact (C4_pop_in_global_frame (skynet_mq_create 7)).1 rfl
  · have hr := (push_inv (create_inv 7) ⟨1, 10, 0, 0⟩ (by decide)).1.1
    have hC := C4_pop_in_global_frame (skynet_mq_push (skynet_mq_create 7) ⟨1, 10, 0, 0⟩).1
    obtain ⟨r, h⟩ := hC.2.2.2 hr
    exact ⟨r, h, by rw [(hC.2.2.1 r (by decide) h).1]; rfl⟩

/-- C5, as the code has it. The pop computes the length after removing the
message. From a fresh mailbox, 1026 pushes followed by one pop leave 1025
messages: `skynet_mq_overload` returns 1025 and a second call right after
returns 0. After only 1025 pushes and one pop the remaining length 1024 does
not exceed the threshold 1024, and `skynet_mq_overload` returns 0. -/
theorem C5_overload_report (handle : Nat) (msgs : List skynet_message) :
    (msgs.length = 1026 →
      ∃ q outs, mq_run (skynet_mq_create handle) (msgs.map mq_call.push ++ [mq_call.pop])
          = some (q, outs) ∧
        (skynet_mq_overload q).1 = 1025 ∧
        (skynet_mq_overload (skynet_mq_overload q).2).1 = 0) ∧
    (msgs.length = 1025 →
      ∃ q outs, mq_run (skynet_mq_create handle) (msgs.map mq_call.push ++ [mq_call.pop])
          = some (q, outs) ∧
        (skynet_mq_overload q).1 = 0) := by
  constructor
  · intro hl
    obtain ⟨q, outs, k, h1, h2, h3, h4⟩ := pop_after_pushes handle msgs (by omega) (by omega)
    refine ⟨q, outs, h1, ?_⟩
    have hk : k ≠ 0 := by
      intro hk; subst hk
      rw [hl] at h2; norm_num at h2
    obtain ⟨ho, _⟩ := h4 hk
    rw [hl] at ho
    norm_num at ho
    simp [skynet_mq_overload, ho]
  · intro hl
    obtain ⟨q, outs, k, h1, h2, h3, h4⟩ := pop_after_pushes handle msgs (by omega) (by omega)
    refine ⟨q, outs, h1, ?_⟩
    have hk : k = 0 := by
      by_contra hk
      obtain ⟨_, hlt⟩ := h4 hk
      have := one_le_two_pow_int (k - 1)
      rw [hl] at hlt
      norm_num at hlt
      omega
    simp [skynet_mq_overload, h3 hk]

theorem C5_overload_report_witness :
    (List.replicate 1026 (⟨1, 10, 0, 0⟩ : skynet_message)).length = 1026 ∧
    ∃ q outs, mq_run (skynet_mq_create 7)
        ((List.replicate 1026 (⟨1, 10, 0, 0⟩ : skynet_message)).map mq_call.push ++ [mq_call.pop])
          = some (q, outs) ∧
        (skynet_mq_overload q).1 = 1025 ∧
        (skynet_mq_overload (skynet_mq_overload q).2).1 = 0 :=
  ⟨List.length_replicate _ _,
    (C5_overload_report 7 (List.replicate 1026 ⟨1, 10, 0, 0⟩)).1 (List.length_replicate _ _)⟩

/-- C5 fails as stated: after 1025 pushes and one pop on a fresh mailbox,
`skynet_mq_overload` returns 0, not 1025. -/
theorem C5_counterexample :
    ∃ q outs, mq_run (skynet_mq_create 7)
        ((List.replicate 1025 (⟨1, 10, 0, 0⟩ : skynet_message)).map mq_call.push ++ [mq_call.pop])
          = some (q, outs) ∧
        (skynet_mq_overload q).1 = 0 ∧ (skynet_mq_overload q).1 ≠ 1025 := by
  obtain ⟨q, outs, k, h1, h2, h3, h4⟩ := pop_after_pushes 7
    (List.replicate 1025 (⟨1, 10, 0, 0⟩ : skynet_message))
    (by rw [List.length_replicate]; decide) (by rw [List.length_replicate]; decide)
  rw [List.length_replicate] at h2 h4
  have hk : k = 0 := by
    by_contra hk
    obtain ⟨_, hlt⟩ := h4 hk
    have := one_le_two_pow_int (k - 1)
    norm_num at hlt
    omega
  have ho : (skynet_mq_overload q).1 = 0 := by simp [skynet_mq_overload, h3 hk]
  exact ⟨q, outs, h1, ho, by rw [ho]; decide⟩

/-- C9. On a well-shaped mailbox with capacity `c` that holds `c - 1` messages
(`2 * c <= 2 ^ 30`; for the capacities `64 * 2 ^ k` that the code produces
this says that `2 * c` is still a C `int`), `skynet_mq_push` runs
`expand_queue`: afterwards
`cap = 2 * c`, `head = 0`, `tail = c`, and slots `0 .. c - 1` of the ring hold
the `c` messages in FIFO order. A push that leaves fewer than `cap` messages
keeps `cap`. On a fresh mailbox the 64th push yields `cap = 128`, `head = 0`,
`tail = 64`, and the next 64 pops return the messages in push order. -/
theorem C9_expand_queue (q : message_queue) (m : skynet_message) (hq : ring_ok q) :
    (skynet_mq_length q + 1 = q.cap → q.cap * 2 ≤ 1073741824 →
      (skynet_mq_push q m).1.cap = 2 * q.cap ∧ (skynet_mq_push q m).1.head = 0 ∧
      (skynet_mq_push q m).1.tail = q.cap ∧
      (List.range q.cap.toNat).map (fun (i : Nat) => (skynet_mq_push q m).1.queue (Int.ofNat i))
        = contents q ++ [m] ∧
      contents (skynet_mq_push q m).1 = contents q ++ [m]) ∧
    (skynet_mq_length q + 1 < q.cap →
      (skynet_mq_push q m).1.cap = q.cap ∧
      contents (skynet_mq_push q m).1 = contents q ++ [m]) ∧
    (∀ (handle : Nat) (msgs : List skynet_message), msgs.length = 64 →
      ∃ q1 q2, mq_run (skynet_mq_create handle) (msgs.map mq_call.push) = some (q1, []) ∧
        q1.cap = 128 ∧ q1.head = 0 ∧ q1.tail = 64 ∧
        mq_run q1 (List.replicate 64 mq_call.pop)
          = some (q2, msgs.map (fun x => (0, some x)))) := by
  refine ⟨?_, ?_, ?_⟩
  · intro hfull hcap
    obtain ⟨_, h2, _, h4, h5, h6, h7⟩ := push_full_spec hq m hfull hcap
    exact ⟨h4, h5, h6, h7, h2⟩
  · intro hroom
    obtain ⟨_, h2, _, h4, _⟩ := push_room_spec hq m hroom
    exact ⟨h4, h2⟩
  · intro handle msgs hl
    obtain ⟨c1, _, _⟩ := create_fields handle
    have hi := create_inv handle
    -- split off the last message
    obtain ⟨init, last, rfl⟩ : ∃ init last, msgs = init ++ [last] := by
      rcases List.eq_nil_or_concat msgs with h | ⟨i, l, h⟩
      · rw [h] at hl; simp at hl
      · exact ⟨i, l, by rw [h]; simp⟩
    have hil : init.length = 63 := by simp at hl; omega
    obtain ⟨qa, ra, rok, rc, rcap, rhead, rlen, _⟩ :=
      run_pushes_room init (skynet_mq_create handle) hi.1
        (by rw [c1, hil]; simp [skynet_mq_create, DEFAULT_QUEUE_SIZE])
    rw [c1, hil] at rlen
    have hcapa : qa.cap = 64 := by rw [rcap]; rfl
    obtain ⟨p1, p2, p3, p4, p5, p6, _⟩ := push_full_spec rok last
      (by rw [rlen, hcapa]; norm_num) (by rw [hcapa]; norm_num)
    have hinv : mq_inv (skynet_mq_push qa last).1 := ⟨p1, 1, by rw [p4, hcapa]; norm_num⟩
    obtain ⟨q2, hpops, _⟩ := run_pops hinv
    rw [p2, rc, create_contents] at hpops
    simp only [List.nil_append, List.length_append, List.length_singleton, hil] at hpops
    refine ⟨(skynet_mq_push qa last).1, q2, ?_, by rw [p4, hcapa]; norm_num, p5,
      by rw [p6, hcapa], hpops⟩
    rw [List.map_append, mq_run_append, ra]
    simp [mq_run]

theorem C9_expand_queue_witness :
    ((skynet_mq_push { skynet_mq_create 7 with tail := 63 } ⟨1, 10, 0, 0⟩).1.cap
        = 2 * ({ skynet_mq_create 7 with tail := 63 } : message_queue).cap ∧
      (skynet_mq_push { skynet_mq_create 7 with tail := 63 } ⟨1, 10, 0, 0⟩).1.head = 0 ∧
      (skynet_mq_push { skynet_mq_create 7 with tail := 63 } ⟨1, 10, 0, 0⟩).1.tail
        = ({ skynet_mq_create 7 with tail := 63 } : message_queue).cap) ∧
    (skynet_mq_push (skynet_mq_create 7) ⟨1, 10, 0, 0⟩).1.cap = (skynet_mq_create 7).cap ∧
    ∃ q1 q2, mq_run (skynet_mq_create 7)
        ((List.replicate 64 (⟨1, 10, 0, 0⟩ : skynet_message)).map mq_call.push) = some (q1, []) ∧
      q1.cap = 128 ∧ q1.head = 0 ∧ q1.tail = 64 ∧
      mq_run q1 (List.replicate 64 mq_call.pop)
        = some (q2, (List.replicate 64 (⟨1, 10, 0, 0⟩ : skynet_message)).map
            (fun x => (0, some x))) :=
  ⟨(fun h => ⟨h.1, h.2.1, h.2.2.1⟩)
      ((C9_expand_queue { skynet_mq_create 7 with tail := 63 } ⟨1, 10, 0, 0⟩
        ⟨by decide, by decide, by decide, by decide, by decide, by decide, by decide,
          by decide⟩).1 (by decide) (by decide)),
    ((C9_expand_queue (skynet_mq_create 7) ⟨1, 10, 0, 0⟩ (create_inv 7).1).2.1
      (by rw [(create_fields 7).1]; decide)).1,
    (C9_expand_queue (skynet_mq_create 7) ⟨1, 10, 0, 0⟩ (create_inv 7).1).2.2 7 _
      (List.length_replicate _ _)⟩

/-- C7. `skynet_mq_push` on the mailbox at address `p`, with the global queue
holding the mailboxes `l`: when `in_global` was 0 at the call (the mailbox is
then not linked and its `next` is NULL) the mailbox is appended at the tail of
the queue and `in_global` becomes 1; when `in_global` was already set the
global queue is left as it was (same head and tail, same list) and `in_global`
keeps its value. In both cases `in_global` is set afterwards. -/
theorem C7_push_links_once (s : mq_state) (p : Nat) (q : message_queue)
    (m : skynet_message) (l : List Nat)
    (hp : s.mem p = some q) (hl : ready_list s l) (hnd : l.Nodup)
    (hfree : q.in_global = 0 → p ∉ l ∧ q.next = none) :
    ∃ s' q', mq_push_at s p m = some s' ∧ s'.mem p = some q' ∧
      q'.in_global ≠ 0 ∧
      q'.in_global = (if q.in_global = 0 then 1 else q.in_global) ∧
      (q.in_global = 0 → ready_list s' (l ++ [p])) ∧
      (q.in_global ≠ 0 → ready_list s' l ∧ s'.Q = s.Q) := by
  have hlink := push_link q m
  obtain ⟨_, _, _, _, hnext⟩ := push_frame q m
  have hig : (skynet_mq_push q m).1.in_global = (if q.in_global = 0 then 1 else q.in_global) := by
    unfold skynet_mq_push expand_queue
    simp only
    split_ifs <;> simp_all [MQ_IN_GLOBAL]
  -- the state after the mailbox itself has been written
  have hl1 : ready_list { s with mem := mem_set s.mem p (some (skynet_mq_push q m).1) } l :=
    ⟨ready_chain_update s.mem p q _ hp hnext l _ hl.1, hl.2⟩
  by_cases hg : q.in_global = 0
  · obtain ⟨hpl, hpn⟩ := hfree hg
    obtain ⟨s', h1, h2, h3, _⟩ := globalmq_push_list hl1 hnd
      (show mem_set s.mem p (some (skynet_mq_push q m).1) p = some _ from mem_set_same _ _ _)
      (by rw [hnext]; exact hpn) hpl
    refine ⟨s', (skynet_mq_push q m).1, ?_, h3, ?_, hig, fun _ => h2, fun h => absurd hg h⟩
    · simp [mq_push_at, hp, hlink, hg, h1]
    · rw [hig, if_pos hg]; decide
  · refine ⟨_, (skynet_mq_push q m).1, ?_, mem_set_same _ _ _, ?_, hig,
      fun h => absurd h hg, fun _ => ⟨hl1, rfl⟩⟩
    · simp [mq_push_at, hp, hlink, hg]
    · rw [hig, if_neg hg]; exact hg

theorem C7_push_links_once_witness :
    ∃ s' q', mq_push_at
        { Q := { head := none, tail := none },
          mem := mem_set (fun _ => none) 1 (some { skynet_mq_create 7 with in_global := 0 }) }
        1 ⟨1, 10, 0, 0⟩ = some s' ∧ s'.mem 1 = some q' ∧
      q'.in_global ≠ 0 ∧
      q'.in_global
        = (if ({ skynet_mq_create 7 with in_global := 0 } : message_queue).in_global = 0 then 1
           else ({ skynet_mq_create 7 with in_global := 0 } : message_queue).in_global) ∧
      (({ skynet_mq_create 7 with in_global := 0 } : message_queue).in_global = 0 →
        ready_list s' ([] ++ [1])) ∧
      (({ skynet_mq_create 7 with in_global := 0 } : message_queue).in_global ≠ 0 →
        ready_list s' [] ∧
        s'.Q = ({ Q := { head := none, tail := none },
                  mem := mem_set (fun _ => none) 1
                    (some { skynet_mq_create 7 with in_global := 0 }) } : mq_state).Q) :=
  C7_push_links_once
    { Q := { head := none, tail := none },
      mem := mem_set (fun _ => none) 1 (some { skynet_mq_create 7 with in_global := 0 }) }
    1 { skynet_mq_create 7 with in_global := 0 } ⟨1, 10, 0, 0⟩ []
    rfl ⟨rfl, rfl⟩ List.nodup_nil (fun _ => ⟨List.not_mem_nil 1, rfl⟩)

/-- C8, as the code has it. In every state reached from `skynet_mq_init` by
the public MQ operations used under the calling discipline `mq_op_ok` (pop and
release only on a mailbox that is not linked, no push to a mailbox marked for
release, an explicit `skynet_globalmq_push` only on an unlinked mailbox whose
`in_global` is 1), the `next` links from `Q.head` form a finite list that ends
at `Q.tail`, no mailbox occurs in it twice, and every linked mailbox has
`in_global = 1` or is marked for release (`skynet_mq_mark_release` links a
mailbox whose `in_global` is 0 and leaves the flag at 0). -/
theorem C8_ready_list_invariant (s : mq_state) (h : mq_reach s) :
    ∃ l, ready_list s l ∧ l.Nodup ∧
      (∀ n, ready_walk s.mem n s.Q.head = l.take n) ∧
      (∀ n, (ready_walk s.mem n s.Q.head).Nodup) ∧
      ∀ p ∈ l, ∃ q, s.mem p = some q ∧ (q.in_global = 1 ∨ q.release ≠ 0) := by
  obtain ⟨l, hl, hnd, hf⟩ := mq_reach_ready_inv h
  have hw : ∀ n, ready_walk s.mem n s.Q.head = l.take n :=
    fun n => ready_chain_walk s.mem l _ n hl.1
  refine ⟨l, hl, hnd, hw, ?_, hf⟩
  intro n
  rw [hw n]
  exact List.Nodup.sublist (List.take_sublist n l) hnd

theorem C8_ready_list_invariant_witness :
    ∃ l, ready_list
        { Q := { head := some 1, tail := some 1 },
          mem := mem_set (fun _ => none) 1 (some (skynet_mq_create 7)) } l ∧
      l.Nodup ∧
      (∀ n, ready_walk (mem_set (fun _ => none) 1 (some (skynet_mq_create 7))) n (some 1)
        = l.take n) ∧
      (∀ n, (ready_walk (mem_set (fun _ => none) 1 (some (skynet_mq_create 7))) n
        (some 1)).Nodup) ∧
      ∀ p ∈ l, ∃ q, mem_set (fun _ => none) 1 (some (skynet_mq_create 7)) p = some q ∧
        (q.in_global = 1 ∨ q.release ≠ 0) :=
  C8_ready_list_invariant _
    (mq_reach.step
      { Q := { head := none, tail := none },
        mem := mem_set (fun _ => none) 1 (some (skynet_mq_create 7)) }
      _ [] (mq_op.globalmq_push 1)
      (mq_reach.step skynet_mq_init _ [] (mq_op.create 1 7) mq_reach.init ⟨rfl, rfl⟩
        trivial rfl)
      ⟨rfl, rfl⟩
      ⟨List.not_mem_nil 1, fun q hq => by
        have e : some (skynet_mq_create 7) = some q := hq
        rw [← Option.some.inj e]; rfl⟩
      rfl)

/-- C8 fails as stated. After `skynet_mq_create`, a `skynet_mq_pop` on the
empty mailbox and `skynet_mq_mark_release`, the mailbox is linked in the
global queue while its `in_global` is 0; a `skynet_mq_push` that follows links
it a second time (its `next` then points to itself). -/
theorem C8_counterexample :
    (∃ s q, mq_steps skynet_mq_init
        [mq_op.create 1 7, mq_op.pop 1, mq_op.mark_release 1] = some s ∧
      ready_walk s.mem 1 s.Q.head = [1] ∧ s.mem 1 = some q ∧ q.in_global = 0) ∧
    (∃ s, mq_steps skynet_mq_init
        [mq_op.create 1 7, mq_op.pop 1, mq_op.mark_release 1, mq_op.push 1 ⟨1, 10, 0, 0⟩]
          = some s ∧
      ready_walk s.mem 2 s.Q.head = [1, 1]) :=
  ⟨⟨_, _, rfl, rfl, rfl, rfl⟩, ⟨_, rfl, rfl⟩⟩

end Skynet

namespace Skynet

/-! ## Claims on the timing wheel -/

/-- C2. For every wheel whose tick is a `uint32_t` (hence every wheel reached
from `timer_create_timer` by `timer_add` and `timer_update`) and every node
added by `timer_add` at tick `T` with delay `d` (`0 < d`, an `int`) such that
the expiry `E = T + d` does not wrap: along every following sequence of
`timer_add` and `timer_update` calls, the `d`-th `timer_update` gives
`dispatch_list` one copy of the node more than it would without the call of
`timer_add`, and every other update (in particular every earlier one) gives it
the same number. When the wheel held no copy of the node, the updates that
follow give the node to `dispatch_list` exactly once, at the `d`-th update. -/
theorem C2_dispatch_at_expiry {σ : Type} (R : runtime σ) (T : timer) (w : σ)
    (arg : timer_event) (d : Nat)
    (hT : T.time < 4294967296) (h0 : 0 < d) (h1 : d < 2147483648)
    (hE : T.time + d < 4294967296) :
    (∀ ops : List timer_op,
      ∃ ra rb, timer_run R T w ops = some ra ∧
        timer_run R (timer_add T arg (d : Int)) w ops = some rb ∧
        rb.2.2.length = ra.2.2.length ∧
        ∀ k, k < ra.2.2.length →
          (rb.2.2.getD k []).count { expire := T.time + d, event := arg }
            = (ra.2.2.getD k []).count { expire := T.time + d, event := arg }
              + (if k + 1 = d then 1 else 0)) ∧
    (∀ n : Nat, (∀ b, (bucket T b).count { expire := T.time + d, event := arg } = 0) →
      ∃ rb, timer_run R (timer_add T arg (d : Int)) w (List.replicate n timer_op.update)
          = some rb ∧
        rb.2.2.length = n ∧
        ∀ k, k < n →
          (rb.2.2.getD k []).count { expire := T.time + d, event := arg }
            = (if k + 1 = d then 1 else 0)) := by
  have he : (T.time + d) % 4294967296 = T.time + d := Nat.mod_eq_of_lt hE
  constructor
  · intro ops
    have h := timer_add_dispatch R T w arg d ops hT h0 h1
    rw [he] at h
    exact h
  · intro n hfresh
    have h := timer_add_dispatch_fresh R T w arg d n hT h0 h1 (by rw [he]; exact hfresh)
    rw [he] at h
    obtain ⟨rb, r1, r2, _, r4⟩ := h
    exact ⟨rb, r1, r2, r4⟩

theorem C2_dispatch_at_expiry_witness :
    ∃ rb, timer_run
        ({ PTYPE_RESPONSE := 1, MESSAGE_TYPE_SHIFT := 56,
           skynet_context_push := fun w _ _ => (0, w) } : runtime Unit)
        (timer_add timer_create_timer ⟨1, 5⟩ ((3 : Nat) : Int)) ()
        (List.replicate 3 timer_op.update) = some rb ∧
      rb.2.2.length = 3 ∧
      ∀ k, k < 3 →
        (rb.2.2.getD k []).count { expire := timer_create_timer.time + 3, event := ⟨1, 5⟩ }
          = (if k + 1 = 3 then 1 else 0) :=
  (C2_dispatch_at_expiry
      ({ PTYPE_RESPONSE := 1, MESSAGE_TYPE_SHIFT := 56,
         skynet_context_push := fun w _ _ => (0, w) } : runtime Unit)
      timer_create_timer () ⟨1, 5⟩ 3 (by decide) (by decide) (by decide) (by decide)).2 3
    (fun b => by cases b <;> rfl)

/-- C6. For every handle, session and delay `time <= 0`, `skynet_timeout` makes
one call of `skynet_context_push`, for that handle, with the message
`{source = 0, session, data = NULL, sz = PTYPE_RESPONSE << MESSAGE_TYPE_SHIFT}`;
the wheel (every bucket and the tick) is the one before the call; the return
value is `session` when the push returned 0 and `-1` when it did not (dead
handle). For every `time > 0` it returns `session`; the registry is untouched
and the wheel is the result of `timer_add`. -/
theorem C6_timeout_direct {σ : Type} (R : runtime σ) (TI : timer) (w : σ)
    (handle : Nat) (time session : Int) :
    (time ≤ 0 →
      skynet_timeout R TI w handle time session
        = ((if (R.skynet_context_push w handle
                  { source := 0, session := session, data := 0,
                    sz := R.PTYPE_RESPONSE <<< R.MESSAGE_TYPE_SHIFT }).1 = 0
            then session else -1),
           TI,
           (R.skynet_context_push w handle
              { source := 0, session := session, data := 0,
                sz := R.PTYPE_RESPONSE <<< R.MESSAGE_TYPE_SHIFT }).2)) ∧
    (0 < time →
      skynet_timeout R TI w handle time session
        = (session, timer_add TI { handle := handle, session := session } time, w)) := by
  constructor
  · intro h
    unfold skynet_timeout response_message
    rw [if_pos h]
    simp only
    split_ifs <;> simp_all
  · intro h
    unfold skynet_timeout
    rw [if_neg (by omega)]

theorem C6_timeout_direct_witness :
    skynet_timeout
        ({ PTYPE_RESPONSE := 1, MESSAGE_TYPE_SHIFT := 56,
           skynet_context_push := fun w h m => if h = 0 then (-1, w) else (0, w ++ [(h, m)]) } :
          runtime (List (Nat × skynet_message)))
        timer_create_timer [] 7 0 42
      = (42, timer_create_timer, [(7, ⟨0, 42, 0, 1 <<< 56⟩)]) ∧
    skynet_timeout
        ({ PTYPE_RESPONSE := 1, MESSAGE_TYPE_SHIFT := 56,
           skynet_context_push := fun w h m => if h = 0 then (-1, w) else (0, w ++ [(h, m)]) } :
          runtime (List (Nat × skynet_message)))
        timer_create_timer [] 0 (-3) 42
      = (-1, timer_create_timer, []) ∧
    (skynet_timeout
        ({ PTYPE_RESPONSE := 1, MESSAGE_TYPE_SHIFT := 56,
           skynet_context_push := fun w h m => if h = 0 then (-1, w) else (0, w ++ [(h, m)]) } :
          runtime (List (Nat × skynet_message)))
        timer_create_timer [] 7 5 42).1 = 42 :=
  ⟨(C6_timeout_direct _ timer_create_timer [] 7 0 42).1 (by decide),
   (C6_timeout_direct _ timer_create_timer [] 0 (-3) 42).1 (by decide),
   congrArg Prod.fst ((C6_timeout_direct _ timer_create_timer [] 7 5 42).2 (by decide))⟩

end Skynet

namespace Skynet

/-! ## Claims on the timing wheel: placement and cascading -/

/-- C11. For every wheel with tick `T` and every node with expiry `E`,
`add_node` appends the node at the tail of exactly one bucket `b` and leaves
every other bucket, and the tick, as they were. The bucket is
`near[E & 0xFF]` if `(E | 0xFF) == (T | 0xFF)`; otherwise
`t[i][(E >> (8 + 6 i)) & 0x3F]` for the smallest `i` in `0, 1, 2` such that
`E` and `T` agree on all bits from bit `8 + 6 (i + 1)` upward; otherwise
`t[3][(E >> 26) & 0x3F]`. -/
theorem C11_add_node_placement (T : timer) (node : timer_node) :
    (∃ b, (∀ b', bucket (add_node T node) b'
              = if b' = b then bucket T b' ++ [node] else bucket T b') ∧
          (add_node T node).time = T.time ∧
          ((node.expire ||| 0xFF) = (T.time ||| 0xFF) →
            b = bucket_id.near (node.expire &&& 0xFF)) ∧
          (∀ i, i < 3 → (node.expire ||| 0xFF) ≠ (T.time ||| 0xFF) →
            node.expire >>> (8 + 6 * (i + 1)) = T.time >>> (8 + 6 * (i + 1)) →
            (∀ j, j < i → node.expire >>> (8 + 6 * (j + 1)) ≠ T.time >>> (8 + 6 * (j + 1))) →
            b = bucket_id.level i ((node.expire >>> (8 + 6 * i)) &&& 0x3F)) ∧
          ((node.expire ||| 0xFF) ≠ (T.time ||| 0xFF) →
            (∀ j, j < 3 → node.expire >>> (8 + 6 * (j + 1)) ≠ T.time >>> (8 + 6 * (j + 1))) →
            b = bucket_id.level 3 ((node.expire >>> 26) &&& 0x3F))) := by
  refine ⟨place node.expire T.time, ?_, time_add_node T node, ?_, ?_, ?_⟩
  · intro b'
    rw [add_node_bucket_set, bucket_bucket_set]
    split_ifs with h
    · rw [h]
    · rfl
  · intro h
    have h8 := (or_mask_eq_iff node.expire T.time 8).1 h
    norm_num at h8
    rw [place_near h8]
    congr 1
    exact (Nat.and_pow_two_sub_one_eq_mod node.expire 8).symm
  · intro i hi hne hag hlow
    have h8 : ¬ node.expire / 256 = T.time / 256 := by
      intro h
      exact hne ((or_mask_eq_iff node.expire T.time 8).2 (by norm_num; exact h))
    have a6 : ∀ x : Nat, x &&& 0x3F = x % 64 := fun x => Nat.and_pow_two_sub_one_eq_mod x 6
    simp only [Nat.shiftRight_eq_div_pow] at hag hlow
    rw [a6, Nat.shiftRight_eq_div_pow]
    interval_cases i
    · norm_num at hag
      rw [place_level0 h8 hag]
    · norm_num at hag
      have h14 := hlow 0 (by norm_num)
      norm_num at h14
      rw [place_level1 h14 hag]
    · norm_num at hag
      have h20 := hlow 1 (by norm_num)
      norm_num at h20
      rw [place_level2 h20 hag]
  · intro hne hlow
    have a6 : ∀ x : Nat, x &&& 0x3F = x % 64 := fun x => Nat.and_pow_two_sub_one_eq_mod x 6
    simp only [Nat.shiftRight_eq_div_pow] at hlow
    rw [a6, Nat.shiftRight_eq_div_pow]
    have h26 := hlow 2 (by norm_num)
    norm_num at h26
    rw [place_level3 h26]


theorem C11_add_node_placement_witness :
    ∃ b, bucket (add_node timer_create_timer ⟨300, ⟨1, 5⟩⟩) b = [⟨300, ⟨1, 5⟩⟩] ∧
      b = bucket_id.level 0 ((300 >>> (8 + 6 * 0)) &&& 0x3F) :=
  match C11_add_node_placement timer_create_timer ⟨300, ⟨1, 5⟩⟩ with
  | ⟨b, h1, _, _, h4, _⟩ =>
    ⟨b, by
        have h := h1 b
        rw [if_pos rfl] at h
        rw [h]
        cases b <;> rfl,
      h4 0 (by decide) (by decide) (by decide) (fun j hj => absurd hj (Nat.not_lt_zero j))⟩

/-- C20. For every wheel, with `ct` the `uint32_t` tick that `timer_shift`
stores: when `ct` is 0 the loop is not entered and `move_list(T, 3, 0)` is
called. When `ct` is not 0, the cascade loop ends within four rounds (fuel 4
is enough, and the result is the one `timer_shift` returns), with a level
`i <= 3` and `mask = 2 ^ (8 + 6 i) <= 2 ^ 26`; if `ct` is not a multiple of
256 no bucket is moved and the wheel only has the new tick; if it is, exactly
one call `move_list(T, i, idx)` is made, with
`idx = (ct >> (8 + 6 i)) & 0x3F`, `0 < idx < 64`, and every 6-bit slice of
`ct` below level `i` is zero. -/
theorem C20_cascade_loop_bounded (T : timer) :
    (uint32 (T.time + 1) = 0 →
      timer_shift T = some (move_list { T with time := uint32 (T.time + 1) } 3 0)) ∧
    (uint32 (T.time + 1) ≠ 0 →
      ∃ i mask o,
        timer_shift_vars 4 (uint32 (T.time + 1)) TIME_NEAR
            (uint32 (T.time + 1) >>> TIME_NEAR_SHIFT) 0 = some (i, mask, o) ∧
        timer_shift_loop 4 { T with time := uint32 (T.time + 1) } (uint32 (T.time + 1)) TIME_NEAR
            (uint32 (T.time + 1) >>> TIME_NEAR_SHIFT) 0 = timer_shift T ∧
        i ≤ 3 ∧ mask = 2 ^ (8 + 6 * i) ∧ mask ≤ 2 ^ 26 ∧
        (uint32 (T.time + 1) % 256 ≠ 0 →
          o = none ∧ timer_shift T = some { T with time := uint32 (T.time + 1) }) ∧
        (uint32 (T.time + 1) % 256 = 0 →
          ∃ idx, o = some idx ∧ idx ≠ 0 ∧ idx < 64 ∧
            idx = (uint32 (T.time + 1) >>> (8 + 6 * i)) &&& 0x3F ∧
            (∀ j, j < i → (uint32 (T.time + 1) >>> (8 + 6 * j)) &&& 0x3F = 0) ∧
            timer_shift T = some (move_list { T with time := uint32 (T.time + 1) } i idx))) := by
  have hlt : uint32 (T.time + 1) < 4294967296 := Nat.mod_lt _ (by norm_num)
  constructor
  · intro h0
    unfold timer_shift
    simp only [h0, if_true]
  · intro h0
    have hs : timer_shift T = timer_shift_loop 32 { T with time := uint32 (T.time + 1) }
        (uint32 (T.time + 1)) TIME_NEAR (uint32 (T.time + 1) >>> TIME_NEAR_SHIFT) 0 := by
      unfold timer_shift
      simp only [if_neg h0]
    have hv := timer_shift_vars_eq (uint32 (T.time + 1)) h0 hlt
    have h4 := timer_shift_loop_vars { T with time := uint32 (T.time + 1) } (uint32 (T.time + 1))
      4 TIME_NEAR (uint32 (T.time + 1) >>> TIME_NEAR_SHIFT) 0
    have h32 := timer_shift_loop_eq { T with time := uint32 (T.time + 1) }
      (uint32 (T.time + 1)) h0 hlt
    rw [← hs] at h32
    rw [hv] at h4
    generalize uint32 (T.time + 1) = ct at *
    have a6 : ∀ x : Nat, x &&& 0x3F = x % 64 := fun x => Nat.and_pow_two_sub_one_eq_mod x 6
    unfold cascade at h32
    rw [if_neg h0] at h32
    by_cases c0 : ct % 256 = 0
    · by_cases c1 : ct / 256 % 64 = 0
      · by_cases c2 : ct / 16384 % 64 = 0
        · by_cases c3 : ct / 1048576 % 64 = 0
          · have c4 : ¬ ct / 67108864 % 64 = 0 := by omega
            simp only [c0, c1, c2, c3, c4, ne_eq, not_true_eq_false, not_false_eq_true,
              if_true, if_false, Option.map_some', cascade_apply] at hv h4 h32
            refine ⟨3, 67108864, some (ct / 67108864 % 64), hv, ?_, by norm_num, by norm_num,
              by norm_num, fun h => absurd c0 h, fun _ => ⟨_, rfl, c4, by omega,
                by rw [a6, Nat.shiftRight_eq_div_pow], ?_, h32⟩⟩
            · rw [h4, h32]
            · intro j hj
              rw [a6, Nat.shiftRight_eq_div_pow]
              interval_cases j <;> norm_num <;> assumption
          · simp only [c0, c1, c2, c3, ne_eq, not_true_eq_false, not_false_eq_true,
              if_true, if_false, Option.map_some', cascade_apply] at hv h4 h32
            refine ⟨2, 1048576, some (ct / 1048576 % 64), hv, ?_, by norm_num, by norm_num,
              by norm_num, fun h => absurd c0 h, fun _ => ⟨_, rfl, c3, by omega,
                by rw [a6, Nat.shiftRight_eq_div_pow], ?_, h32⟩⟩
            · rw [h4, h32]
            · intro j hj
              rw [a6, Nat.shiftRight_eq_div_pow]
              interval_cases j <;> norm_num <;> assumption
        · simp only [c0, c1, c2, ne_eq, not_true_eq_false, not_false_eq_true,
            if_true, if_false, Option.map_some', cascade_apply] at hv h4 h32
          refine ⟨1, 16384, some (ct / 16384 % 64), hv, ?_, by norm_num, by norm_num,
            by norm_num, fun h => absurd c0 h, fun _ => ⟨_, rfl, c2, by omega,
                by rw [a6, Nat.shiftRight_eq_div_pow], ?_, h32⟩⟩
          · rw [h4, h32]
          · intro j hj
            rw [a6, Nat.shiftRight_eq_div_pow]
            interval_cases j
            norm_num
            assumption
      · simp only [c0, c1, ne_eq, not_true_eq_false, not_false_eq_true,
          if_true, if_false, Option.map_some', cascade_apply] at hv h4 h32
        refine ⟨0, 256, some (ct / 256 % 64), hv, ?_, by norm_num, by norm_num,
          by norm_num, fun h => absurd c0 h, fun _ => ⟨_, rfl, c1, by omega,
                by rw [a6, Nat.shiftRight_eq_div_pow], ?_, h32⟩⟩
        · rw [h4, h32]
        · intro j hj
          omega
    · simp only [c0, ne_eq, not_false_eq_true, if_true, Option.map_some', cascade_apply]
        at hv h4 h32
      refine ⟨0, 256, none, hv, ?_, by norm_num, by norm_num, by norm_num,
        fun _ => ⟨rfl, h32⟩, fun h => absurd h c0⟩
      rw [h4, h32]

theorem C20_cascade_loop_bounded_witness :
    ∃ i mask o,
      timer_shift_vars 4 (uint32 (({ timer_create_timer with time := 16383 } : timer).time + 1))
          TIME_NEAR
          (uint32 (({ timer_create_timer with time := 16383 } : timer).time + 1)
            >>> TIME_NEAR_SHIFT) 0 = some (i, mask, o) ∧
      i ≤ 3 ∧ mask ≤ 2 ^ 26 :=
  match (C20_cascade_loop_bounded { timer_create_timer with time := 16383 }).2 (by decide) with
  | ⟨i, mask, o, h1, _, h3, _, h5, _⟩ => ⟨i, mask, o, h1, h3, h5⟩

end Skynet

namespace Skynet

/-! ## Claims on the reachable mailboxes -/

/-- C18. In every state reached from `skynet_mq_create` by `skynet_mq_push`
(on a mailbox whose `cap` is below `2 ^ 30`) and `skynet_mq_pop`, with `l` the
messages pushed and not yet popped: `0 <= head < cap`, `0 <= tail < cap`,
`cap = 64 * 2 ^ k` for some `k`, the ring stores exactly `l`, the number of
stored messages is `(tail - head) mod cap` and is strictly less than `cap`,
and `head == tail` exactly when the mailbox is empty. -/
theorem C18_mailbox_invariant (q : message_queue) (l : List skynet_message)
    (h : mq_holds q l) :
    (0 ≤ q.head ∧ q.head < q.cap) ∧ (0 ≤ q.tail ∧ q.tail < q.cap) ∧
      (∃ k : Nat, q.cap = DEFAULT_QUEUE_SIZE * 2 ^ k) ∧
      contents q = l ∧
      (q.tail - q.head) % q.cap = (l.length : Int) ∧
      (l.length : Int) < q.cap ∧
      (q.head = q.tail ↔ l = []) := by
  obtain ⟨hi, hc, _⟩ := mq_holds_inv h
  have hb := length_bounds hi.1
  have hlen : (l.length : Int) = skynet_mq_length q := by
    rw [← hc, contents_length]
    exact Int.toNat_of_nonneg hb.1
  have hr := hi.1
  refine ⟨⟨hr.head_ge, hr.head_lt⟩, ⟨hr.tail_ge, hr.tail_lt⟩, hi.2, hc, ?_, ?_, ?_⟩
  · rw [hlen, length_of_ring_ok hr]
    have h1 := hr.head_ge
    have h2 := hr.head_lt
    have h3 := hr.tail_ge
    have h4 := hr.tail_lt
    split_ifs with hle
    · exact Int.emod_eq_of_lt (by omega) (by omega)
    · rw [← Int.add_emod_self]
      have e : q.tail - q.head + q.cap = q.tail + q.cap - q.head := by ring
      rw [e]
      exact Int.emod_eq_of_lt (by omega) (by omega)
  · rw [hlen]
    exact hb.2
  · rw [← hc]
    exact (contents_nil_iff hr).symm

theorem C18_mailbox_invariant_witness :
    contents (skynet_mq_push (skynet_mq_create 7) ⟨1, 2, 3, 4⟩).1 = [] ++ [⟨1, 2, 3, 4⟩] :=
  (C18_mailbox_invariant _ _
    (mq_holds.push (skynet_mq_create 7) [] ⟨1, 2, 3, 4⟩ (mq_holds.create 7)
      (by decide))).2.2.2.1

/-- C15. In every mailbox reached from `skynet_mq_create` by `skynet_mq_push`
(on a mailbox whose `cap` is below `2 ^ 30`) and `skynet_mq_pop`,
`overload_threshold` is `1024 * 2 ^ k` for some `k >= 0`. `skynet_mq_push`
never changes it. In a reached mailbox a pop that removes a message returns,
multiplies the threshold by a power of two (`2 ^ 0` leaves it unchanged) and
ends with `overload_threshold` at least the remaining length. A pop on an
empty mailbox sets it to 1024; no other call lowers it. -/
theorem C15_overload_threshold :
    (∀ q l, mq_holds q l → ∃ k : Nat, q.overload_threshold = MQ_OVERLOAD * 2 ^ k) ∧
    (∀ q m, (skynet_mq_push q m).1.overload_threshold = q.overload_threshold) ∧
    (∀ q l, mq_holds q l → q.head ≠ q.tail →
      ∃ r, ∃ k : Nat, skynet_mq_pop q = some r ∧ r.1 = 0 ∧
        r.2.2.overload_threshold = q.overload_threshold * 2 ^ k ∧
        q.overload_threshold ≤ r.2.2.overload_threshold ∧
        skynet_mq_length r.2.2 ≤ r.2.2.overload_threshold) ∧
    (∀ q, q.head = q.tail →
      ∃ r, skynet_mq_pop q = some r ∧ r.1 = 1 ∧ r.2.2.overload_threshold = MQ_OVERLOAD) := by
  refine ⟨fun q l h => (mq_holds_inv h).2.2, fun q m => (push_frame q m).2.1, ?_, ?_⟩
  · intro q l h hne
    obtain ⟨hi, _, _⟩ := mq_holds_inv h
    obtain ⟨q', s1, _, _, s4, _⟩ := pop_spec hi.1 hne
    obtain ⟨k, o, n1, n2, _⟩ := pop_nonempty hi.1 hne
    have hthr : q'.overload_threshold = q.overload_threshold * 2 ^ k := by
      rw [s1] at n1
      have := Option.some.inj n1
      simp only [Prod.mk.injEq, true_and] at this
      rw [this]
    have hpos := hi.1.thr_pos
    have h2 : (1 : Int) ≤ 2 ^ k := one_le_two_pow_int k
    refine ⟨_, k, s1, rfl, hthr, ?_, ?_⟩
    · show q.overload_threshold ≤ q'.overload_threshold
      rw [hthr]
      nlinarith
    · show skynet_mq_length q' ≤ q'.overload_threshold
      rw [s4, hthr]
      exact n2
  · intro q he
    exact ⟨_, pop_empty q he, rfl, rfl⟩

theorem C15_overload_threshold_witness :
    ∃ k : Nat, (skynet_mq_push (skynet_mq_create 7) ⟨1, 2, 3, 4⟩).1.overload_threshold
      = MQ_OVERLOAD * 2 ^ k :=
  C15_overload_threshold.1 _ _
    (mq_holds.push (skynet_mq_create 7) [] ⟨1, 2, 3, 4⟩ (mq_holds.create 7) (by decide))

end Skynet

namespace Skynet

/-! ## Claims on `skynet_mq_release` and the global queue -/

/-- C12. For every mailbox `q` at address `p` that is well formed, not linked
in the global queue (`next == NULL`, as for the worker that holds it), with
the global queue holding the mailboxes `l`: if the release flag of `q` is set,
`skynet_mq_release` hands to `drop_func` exactly the messages still queued,
each once, oldest first, frees the mailbox and leaves the ready list `l` as it
was; if the flag is not set, `drop_func` is not called, the mailbox and its
messages are unchanged, and the mailbox is appended at the tail of the ready
list. -/
theorem C12_release_drains_or_links (s : mq_state) (p : Nat) (q : message_queue)
    (l : List Nat) (hp : s.mem p = some q) (hq : ring_ok q) (hn : q.next = none)
    (hl : ready_list s l) (hnd : l.Nodup) (hpl : p ∉ l) :
    (q.release ≠ 0 →
      ∃ s', skynet_mq_release s p = some (s', contents q) ∧ ready_list s' l ∧
        s'.mem p = none ∧ ∀ a, a ≠ p → s'.mem a = s.mem a) ∧
    (q.release = 0 →
      ∃ s', skynet_mq_release s p = some (s', []) ∧ ready_list s' (l ++ [p]) ∧
        s'.mem p = some q) := by
  constructor
  · intro hr
    have hb := length_bounds hq
    have hlen : (contents q).length < 4294967296 := by
      rw [contents_length]
      have := hq.cap_le
      omega
    obtain ⟨q', d1, d2⟩ := drop_loop_spec 4294967296 q hq hlen
    refine ⟨{ s with mem := mem_set (mem_set s.mem p (some q')) p none }, ?_, ?_, ?_, ?_⟩
    · unfold skynet_mq_release
      simp only [hp, if_pos hr]
      unfold _drop_queue
      simp only [hp, d1]
      unfold _release
      simp only [mem_set_same, d2, hn, ne_eq, not_true_eq_false, if_false, Option.map_some']
    · refine ⟨?_, hl.2⟩
      exact ready_chain_update_off _ p none l hpl _
        (ready_chain_update_off _ p (some q') l hpl _ hl.1)
    · exact mem_set_same _ p none
    · intro a ha
      show mem_set (mem_set s.mem p (some q')) p none a = s.mem a
      rw [mem_set_other _ _ ha, mem_set_other _ _ ha]
  · intro hr
    obtain ⟨s', g1, g2, g3, _⟩ := globalmq_push_list hl hnd hp hn hpl
    refine ⟨s', ?_, g2, g3⟩
    unfold skynet_mq_release
    simp only [hp, hr, ne_eq, not_true_eq_false, if_false, g1, Option.map_some']

theorem C12_release_drains_or_links_witness :
    ∃ s', skynet_mq_release
          { Q := { head := none, tail := none },
            mem := mem_set (fun _ => none) 1
              (some { handle := 7, cap := 64, head := 0, tail := 2, release := 1, in_global := 0,
                      overload := 0, overload_threshold := 1024,
                      queue := fun i => if i = 0 then ⟨1, 2, 3, 4⟩ else ⟨5, 6, 7, 8⟩,
                      next := none }) } 1
        = some (s', contents
            { handle := 7, cap := 64, head := 0, tail := 2, release := 1, in_global := 0,
              overload := 0, overload_threshold := 1024,
              queue := fun i => if i = 0 then ⟨1, 2, 3, 4⟩ else ⟨5, 6, 7, 8⟩,
              next := none }) ∧
      ready_list s' [] ∧ s'.mem 1 = none :=
  match (C12_release_drains_or_links
      { Q := { head := none, tail := none },
        mem := mem_set (fun _ => none) 1
          (some { handle := 7, cap := 64, head := 0, tail := 2, release := 1, in_global := 0,
                  overload := 0, overload_threshold := 1024,
                  queue := fun i => if i = 0 then ⟨1, 2, 3, 4⟩ else ⟨5, 6, 7, 8⟩,
                  next := none }) }
      1
      { handle := 7, cap := 64, head := 0, tail := 2, release := 1, in_global := 0,
        overload := 0, overload_threshold := 1024,
        queue := fun i => if i = 0 then ⟨1, 2, 3, 4⟩ else ⟨5, 6, 7, 8⟩,
        next := none }
      [] rfl
      ⟨by decide, by decide, by decide, by decide, by decide, by decide, by decide, by decide⟩
      rfl ⟨rfl, rfl⟩ List.nodup_nil (List.not_mem_nil 1)).1 (by decide) with
  | ⟨s', h1, h2, h3, _⟩ => ⟨s', h1, h2, h3⟩

/-- C16. For a global queue that holds the mailboxes `l` (none twice, every
unlinked mailbox with `next == NULL`) and every sequence of
`skynet_globalmq_push` calls, each for an allocated mailbox that is not linked
at that moment, interleaved with `skynet_globalmq_pop` calls: every call
returns, the pops return what the abstract FIFO list returns (the earliest
pushed mailbox not yet popped, NULL when the list is empty), the queue
afterwards holds the abstract list, every unlinked mailbox (so every popped
one) has `next == NULL`, and the list is empty exactly when `head` and `tail`
are both NULL. In particular the next `skynet_globalmq_pop` returns the first
mailbox of the list with its `next` reset to NULL, and returns NULL exactly
when `head` and `tail` are both NULL. -/
theorem C16_global_queue_fifo (s : mq_state) (l : List Nat) (ops : List gq_op)
    (hl : ready_list s l) (hnd : l.Nodup)
    (hun : ∀ a q, s.mem a = some q → a ∉ l → q.next = none) (hok : gq_ok s l ops) :
    (∃ s' outs, gq_run s ops = some (s', outs) ∧ outs = (gq_fifo l ops).2 ∧
        ready_list s' (gq_fifo l ops).1 ∧ (gq_fifo l ops).1.Nodup ∧
        (∀ a q, s'.mem a = some q → a ∉ (gq_fifo l ops).1 → q.next = none) ∧
        ((s'.Q.head = none ∧ s'.Q.tail = none) ↔ (gq_fifo l ops).1 = [])) ∧
    (∃ s1, skynet_globalmq_pop s = some (l.head?, s1) ∧
        (∀ a, l.head? = some a → ∃ q, s1.mem a = some q ∧ q.next = none) ∧
        (l.head? = none ↔ s.Q.head = none ∧ s.Q.tail = none)) := by
  constructor
  · obtain ⟨s', outs, r1, r2, r3, r4, r5⟩ := gq_run_simulates ops s l hl hnd hun hok
    exact ⟨s', outs, r1, r2, r3, r4, r5, ready_list_nil_iff r3⟩
  · obtain ⟨s1, g1, _, g3, _⟩ := globalmq_pop_frame hl hnd
    refine ⟨s1, g1, g3, ?_⟩
    rw [ready_list_nil_iff hl]
    cases l <;> simp

theorem C16_global_queue_fifo_witness :
    ∃ s' outs,
      gq_run
          { Q := { head := none, tail := none },
            mem := mem_set (mem_set (fun _ => none) 1 (some (skynet_mq_create 7))) 2
              (some (skynet_mq_create 8)) }
          [gq_op.push 1, gq_op.push 2, gq_op.pop, gq_op.pop, gq_op.pop] = some (s', outs) ∧
        outs = (gq_fifo [] [gq_op.push 1, gq_op.push 2, gq_op.pop, gq_op.pop, gq_op.pop]).2 :=
  match (C16_global_queue_fifo
      { Q := { head := none, tail := none },
        mem := mem_set (mem_set (fun _ => none) 1 (some (skynet_mq_create 7))) 2
          (some (skynet_mq_create 8)) }
      [] [gq_op.push 1, gq_op.push 2, gq_op.pop, gq_op.pop, gq_op.pop]
      ⟨rfl, rfl⟩ List.nodup_nil
      (by
        intro a q h _
        simp only [mem_set] at h
        split_ifs at h
        · rw [← Option.some.inj h]; rfl
        · rw [← Option.some.inj h]; rfl)
      ⟨⟨_, rfl⟩, by decide, ⟨_, rfl⟩, by decide, trivial⟩).1 with
  | ⟨s', outs, h1, h2, _⟩ => ⟨s', outs, h1, h2⟩

end Skynet

namespace Skynet

/-! ## Claims on `skynet_updatetime` -/

/-- C13, as the code has it. For every wheel (tick a `uint32_t`, `current` a
`uint64_t`) and every reading `cp`: if `cp < current_point`, `skynet_updatetime`
sets `current_point` to `cp` and changes nothing else (tick, `current`, every
bucket, the registry), handing nothing to `dispatch_list`. Otherwise, with
`diff = (cp - current_point) mod 2 ^ 32` (the difference is stored in a
`uint32_t`), it returns after exactly `diff` calls of `timer_update` made on
the wheel with `current_point = cp` and `current` increased by `diff`; at the
end `current_point` is `cp`, `current` is the old value plus `diff` (as a
`uint64_t`) and the tick has advanced by `diff` (modulo `2 ^ 32`). -/
theorem C13_updatetime {σ : Type} (R : runtime σ) (TI : timer) (w : σ) (cp : Nat)
    (hT : TI.time < 4294967296) (hC : TI.current < 18446744073709551616) :
    (cp < TI.current_point →
      skynet_updatetime R TI w cp = some ({ TI with current_point := cp }, w, [])) ∧
    (TI.current_point ≤ cp →
      ∃ r, skynet_updatetime R TI w cp = some r ∧
        timer_run R
            { TI with current_point := cp,
                      current := (TI.current + (cp - TI.current_point) % 4294967296)
                        % 18446744073709551616 } w
            (List.replicate ((cp - TI.current_point) % 4294967296) timer_op.update) = some r ∧
        r.2.2.length = (cp - TI.current_point) % 4294967296 ∧
        r.1.current_point = cp ∧
        r.1.current = (TI.current + (cp - TI.current_point) % 4294967296)
          % 18446744073709551616 ∧
        r.1.time = (TI.time + (cp - TI.current_point) % 4294967296) % 4294967296) := by
  constructor
  · intro h
    unfold skynet_updatetime
    rw [if_pos h]
  · intro h
    unfold skynet_updatetime
    rw [if_neg (by omega)]
    by_cases he : cp = TI.current_point
    · rw [if_neg (by simp [he])]
      have hz : (cp - TI.current_point) % 4294967296 = 0 := by rw [he]; simp
      have hc : (TI.current + 0) % 18446744073709551616 = TI.current := by
        rw [Nat.add_zero]; exact Nat.mod_eq_of_lt hC
      refine ⟨(TI, w, []), rfl, ?_, ?_, ?_, ?_, ?_⟩
      · rw [hz, hc, he]
        rfl
      · rw [hz]; rfl
      · exact he.symm
      · rw [hz, hc]
      · rw [hz, Nat.add_zero]; exact (Nat.mod_eq_of_lt hT).symm
    · rw [if_pos he]
      simp only [uint32, uint64]
      obtain ⟨r, r0, r1, r2, r3, r4, r5⟩ := updatetime_loop_eq R
        ((cp - TI.current_point) % 4294967296)
        { TI with current_point := cp,
                  current := (TI.current + (cp - TI.current_point) % 4294967296)
                    % 18446744073709551616 } w hT
      exact ⟨r, r0, r1, r2, r5, r4, r3⟩

/-- C13 fails as stated: on the wheel just created (`current_point = 0`) the
reading `cp = 2 ^ 32` gives `diff = 0` after the cast to `uint32_t`, so
`current_point` becomes `2 ^ 32` while `current` and the tick stay 0 and no
`timer_update` is made, where the claim has `current` increased by `2 ^ 32`
and `2 ^ 32` steps; and the reading `cp = 2 ^ 32 + 5` makes 5 steps. -/
theorem C13_counterexample :
    (skynet_updatetime
        ({ PTYPE_RESPONSE := 1, MESSAGE_TYPE_SHIFT := 56,
           skynet_context_push := fun w _ _ => (0, w) } : runtime Unit)
        timer_create_timer () 4294967296).map
      (fun r => (r.1.current_point, r.1.current, r.1.time, r.2.2.length))
      = some (4294967296, 0, 0, 0) ∧
    (skynet_updatetime
        ({ PTYPE_RESPONSE := 1, MESSAGE_TYPE_SHIFT := 56,
           skynet_context_push := fun w _ _ => (0, w) } : runtime Unit)
        timer_create_timer () 4294967301).map
      (fun r => (r.1.current_point, r.1.current, r.1.time, r.2.2.length))
      = some (4294967301, 5, 5, 5) := by
  constructor
  · rfl
  · rfl

theorem C13_updatetime_witness :
    ∃ r, skynet_updatetime
          ({ PTYPE_RESPONSE := 1, MESSAGE_TYPE_SHIFT := 56,
             skynet_context_push := fun w _ _ => (0, w) } : runtime Unit)
          timer_create_timer () 3 = some r ∧
      r.2.2.length = (3 - timer_create_timer.current_point) % 4294967296 ∧
      r.1.current_point = 3 :=
  match (C13_updatetime
      ({ PTYPE_RESPONSE := 1, MESSAGE_TYPE_SHIFT := 56,
         skynet_context_push := fun w _ _ => (0, w) } : runtime Unit)
      timer_create_timer () 3 (by decide) (by decide)).2 (by decide) with
  | ⟨r, h1, _, h3, h4, _⟩ => ⟨r, h1, h3, h4⟩

end Skynet

namespace Skynet

/-! ## Claims on the order and the position of pending timers -/

/-- C19. On every wheel (tick a `uint32_t`), two timers added by `timer_add`
with the same delay `d` (`0 < d < 2 ^ 31`) while the wheel is at the same tick,
with any other `timer_add` calls in between and any calls afterwards (none of
them for the two events), on a wheel that holds neither node: every call
returns, the `d`-th following `timer_update` gives both nodes to
`dispatch_list`, the one added first before the one added second, and no
other update gives it either of them. The registry ends in the state reached
by one `skynet_context_push` (with the response message of the node) for each
node given to `dispatch_list`, in the order in which they are given: once the
`d`-th update is made, the push for the timer added first is made before the
push for the timer added second, and no other push is for either node. The
delay is arbitrary, so this covers the nodes that reach the near bucket
through one or more cascades. -/
theorem C19_same_expiry_in_order {σ : Type} (R : runtime σ) (T : timer) (w : σ)
    (arg1 arg2 : timer_event) (d : Nat) (mid : List (timer_event × Int))
    (ops : List timer_op)
    (hT : T.time < 4294967296) (h0 : 0 < d) (h1 : d < 2147483648)
    (hfresh : ∀ b, (⟨(T.time + d) % 4294967296, arg1⟩ : timer_node) ∉ bucket T b ∧
      (⟨(T.time + d) % 4294967296, arg2⟩ : timer_node) ∉ bucket T b)
    (hmid : ∀ x ∈ mid, x.1 ≠ arg1 ∧ x.1 ≠ arg2)
    (hops : ∀ arg time, timer_op.add arg time ∈ ops → arg ≠ arg1 ∧ arg ≠ arg2) :
    ∃ r, timer_run R T w
          (timer_op.add arg1 (d : Int)
            :: (mid.map (fun x => timer_op.add x.1 x.2) ++ timer_op.add arg2 (d : Int) :: ops))
          = some r ∧
      r.2.2.length = count_update ops ∧
      (∀ k, k < count_update ops →
        (r.2.2.getD k []).filter
            (fun n => decide (n = ⟨(T.time + d) % 4294967296, arg1⟩
              ∨ n = ⟨(T.time + d) % 4294967296, arg2⟩))
          = if k + 1 = d then
              [⟨(T.time + d) % 4294967296, arg1⟩, ⟨(T.time + d) % 4294967296, arg2⟩]
            else []) ∧
      r.2.1 = r.2.2.flatten.foldl (push_response R) w ∧
      (d ≤ count_update ops →
        ∃ pre mid post,
          r.2.2.flatten
            = pre ++ (⟨(T.time + d) % 4294967296, arg1⟩ : timer_node)
                :: (mid ++ (⟨(T.time + d) % 4294967296, arg2⟩ : timer_node) :: post) ∧
          (∀ x ∈ pre ++ (mid ++ post),
            x ≠ ⟨(T.time + d) % 4294967296, arg1⟩ ∧ x ≠ ⟨(T.time + d) % 4294967296, arg2⟩) ∧
          r.2.1 = post.foldl (push_response R)
            (push_response R
              (mid.foldl (push_response R)
                (push_response R (pre.foldl (push_response R) w)
                  ⟨(T.time + d) % 4294967296, arg1⟩))
              ⟨(T.time + d) % 4294967296, arg2⟩)) := by
  have hlt : (T.time + d) % 4294967296 < 4294967296 := Nat.mod_lt _ (by norm_num)
  obtain ⟨ha1, htl, _⟩ := timer_add_one_more T arg1 d hT h0 h1
  generalize hE : (T.time + d) % 4294967296 = E at *
  generalize hPd : (fun n : timer_node => decide (n = ⟨E, arg1⟩ ∨ n = ⟨E, arg2⟩)) = P at *
  have hPa : P ⟨E, arg1⟩ = true := by rw [← hPd]; simp
  have hPb : P ⟨E, arg2⟩ = true := by rw [← hPd]; simp
  have hPE : ∀ n, P n = true → n.expire = E := by
    intro n hn
    rw [← hPd] at hn
    simp only [decide_eq_true_eq] at hn
    rcases hn with e | e <;> rw [e]
  have hPne : ∀ (arg : timer_event) (x : Nat), arg ≠ arg1 → arg ≠ arg2 →
      P ⟨x, arg⟩ = false := by
    intro arg x n1 n2
    rw [← hPd]
    simp only [timer_node.mk.injEq, decide_eq_false_iff_not, not_or, not_and]
    exact ⟨fun _ => n1, fun _ => n2⟩
  have hab : ∀ b, (bucket T b).filter P = [] := by
    intro b
    rw [List.filter_eq_nil_iff]
    intro n hn hp
    rw [← hPd] at hp
    simp only [decide_eq_true_eq] at hp
    rcases hp with e | e
    · exact (hfresh b).1 (e ▸ hn)
    · exact (hfresh b).2 (e ▸ hn)
  -- after the first `timer_add`
  have hh1 : held P ([] ++ [⟨E, arg1⟩]) (place E T.time) (timer_add T arg1 (d : Int)) := by
    rw [ha1]
    exact held_add_node P E [] T _ hPa rfl (held_nil P _ T hab)
  -- after the calls in between
  obtain ⟨T', t1, t2, t3⟩ := run_adds_held R P _ _ mid (timer_add T arg1 (d : Int)) hh1
    (fun x hx t => hPne x.1 _ (hmid x hx).1 (hmid x hx).2)
  rw [time_timer_add] at t1
  -- after the second `timer_add`
  obtain ⟨ha2, _, _⟩ := timer_add_one_more T' arg2 d (by rw [t1]; exact hT) h0 h1
  rw [t1, hE] at ha2
  have hh2 : held P ([] ++ [⟨E, arg1⟩] ++ [⟨E, arg2⟩]) (place E (timer_add T' arg2 (d : Int)).time)
      (timer_add T' arg2 (d : Int)) := by
    rw [time_timer_add, ha2]
    have := held_add_node P E _ T' ⟨E, arg2⟩ hPb rfl (by rw [t1]; exact t2)
    rw [t1] at this ⊢
    exact this
  have ht2 : (timer_add T' arg2 (d : Int)).time = T.time := by rw [time_timer_add, t1]
  obtain ⟨r, r1, r2, _, r4, _⟩ := run_held R P E _ hPE hlt ops (timer_add T' arg2 (d : Int)) w
    (by rw [ht2]; exact hT) hh2 (by rw [ht2, htl]; exact h0) (by rw [ht2, htl]; exact h1)
    (fun arg time hm t => hPne arg _ (hops arg time hm).1 (hops arg time hm).2)
  have hrun : timer_run R T w
      (timer_op.add arg1 (d : Int)
        :: (mid.map (fun x => timer_op.add x.1 x.2) ++ timer_op.add arg2 (d : Int) :: ops))
      = some r := by
    show timer_run R (timer_add T arg1 (d : Int)) w _ = some r
    rw [t3 w]
    exact r1
  have hst := timer_run_state R _ T w r hrun
  have hk4 : ∀ k, k < count_update ops →
      (r.2.2.getD k []).filter P = if k + 1 = d then [⟨E, arg1⟩, ⟨E, arg2⟩] else [] := by
    intro k hk
    have := r4 k hk
    rw [ht2, htl] at this
    exact this
  refine ⟨r, hrun, r2, hk4, hst, ?_⟩
  intro hd
  have hfl := filter_flatten_at P [⟨E, arg1⟩, ⟨E, arg2⟩] r.2.2 d (by rw [r2]; exact hk4)
  rw [r2, if_pos ⟨h0, hd⟩] at hfl
  obtain ⟨pre, mid', post, e, n1, n2, n3⟩ := filter_pair_split P _ _ _ hfl
  have hno : ∀ x, P x = false → x ≠ ⟨E, arg1⟩ ∧ x ≠ ⟨E, arg2⟩ := by
    intro x hx
    rw [← hPd] at hx
    simp only [decide_eq_false_iff_not, not_or] at hx
    exact hx
  refine ⟨pre, mid', post, e, ?_, ?_⟩
  · intro x hx
    simp only [List.mem_append] at hx
    rcases hx with hx | hx | hx
    · exact hno x (n1 x hx)
    · exact hno x (n2 x hx)
    · exact hno x (n3 x hx)
  · rw [hst, e]
    simp only [List.foldl_append, List.foldl_cons]

theorem C19_same_expiry_in_order_witness :
    ∃ r, timer_run
          ({ PTYPE_RESPONSE := 1, MESSAGE_TYPE_SHIFT := 56,
             skynet_context_push := fun w h m => (0, w ++ [(h, m.session)]) } :
            runtime (List (Nat × Int)))
          timer_create_timer []
          (timer_op.add ⟨1, 1⟩ ((300 : Nat) : Int)
            :: (([((⟨3, 3⟩ : timer_event), (300 : Int))]).map (fun x => timer_op.add x.1 x.2)
                ++ timer_op.add ⟨2, 2⟩ ((300 : Nat) : Int)
                  :: List.replicate 300 timer_op.update))
          = some r ∧
      r.2.2.length = count_update (List.replicate 300 timer_op.update) ∧
      ∃ pre mid post,
        r.2.2.flatten
          = pre ++ (⟨(timer_create_timer.time + 300) % 4294967296, ⟨1, 1⟩⟩ : timer_node)
              :: (mid ++ (⟨(timer_create_timer.time + 300) % 4294967296, ⟨2, 2⟩⟩ : timer_node)
                :: post) ∧
        r.2.1 = r.2.2.flatten.foldl
          (push_response
            ({ PTYPE_RESPONSE := 1, MESSAGE_TYPE_SHIFT := 56,
               skynet_context_push := fun w h m => (0, w ++ [(h, m.session)]) } :
              runtime (List (Nat × Int)))) [] :=
  match C19_same_expiry_in_order
    ({ PTYPE_RESPONSE := 1, MESSAGE_TYPE_SHIFT := 56,
       skynet_context_push := fun w h m => (0, w ++ [(h, m.session)]) } :
      runtime (List (Nat × Int)))
    timer_create_timer [] ⟨1, 1⟩ ⟨2, 2⟩ 300 [(⟨3, 3⟩, 300)] (List.replicate 300 timer_op.update)
    (by decide) (by decide) (by decide)
    (fun b => by cases b <;> exact ⟨List.not_mem_nil _, List.not_mem_nil _⟩)
    (fun x hx => by
      simp only [List.mem_singleton] at hx
      subst hx
      decide)
    (fun arg time hm => by
      have := List.eq_of_mem_replicate hm
      exact timer_op.noConfusion this) with
  | ⟨r, h1, h2, _, h4, h5⟩ =>
    match h5 (by rw [count_update_replicate]) with
    | ⟨pre, mid, post, e, _, _⟩ => ⟨r, h1, h2, pre, mid, post, e, h4⟩

end Skynet

namespace Skynet

/-! ## Claims on the cascade scenario and on the reachable wheels -/

/-- C14, as the code has it. On a fresh wheel at tick 0 with timers of delay 1, 255,
256, 16383 and 16384 (any events, any registry), 256 calls of `timer_update`
return and end at tick 256; the 1st gives `dispatch_list` exactly the timer
with delay 1, the 255th exactly the one with delay 255, the 256th exactly the
one with delay 256, and no other of them gives it anything. After these 256
steps the node with delay 16383 is still alone in `t[0][63]`, the node with
delay 16384 alone in `t[1][1]`, and every near bucket is empty. The node with
delay 16383 is still in `t[0][63]` after 16127 steps and is moved by the
cascade of the 16128th step into `near[255]`. -/
theorem C14_cascade_scenario {σ : Type} (R : runtime σ) (w : σ)
    (a1 a2 a3 a4 a5 : timer_event) :
    (∃ r, timer_run R (scenario_wheel a1 a2 a3 a4 a5) w (List.replicate 256 timer_op.update)
        = some r ∧
      r.2.2.length = 256 ∧ r.1.time = 256 ∧
      r.2.2.getD 0 [] = [⟨1, a1⟩] ∧ r.2.2.getD 254 [] = [⟨255, a2⟩] ∧
      r.2.2.getD 255 [] = [⟨256, a3⟩] ∧
      (∀ k, k < 256 → k ≠ 0 → k ≠ 254 → k ≠ 255 → r.2.2.getD k [] = []) ∧
      r.1.t 0 63 = [⟨16383, a4⟩] ∧ r.1.t 1 1 = [⟨16384, a5⟩] ∧
      ∀ i, r.1.near i = []) ∧
    (∃ r, timer_run R (scenario_wheel a1 a2 a3 a4 a5) w (List.replicate 16127 timer_op.update)
        = some r ∧
      r.1.time = 16127 ∧ r.1.t 0 63 = [⟨16383, a4⟩] ∧ ∀ i, r.1.near i = []) ∧
    (∃ r, timer_run R (scenario_wheel a1 a2 a3 a4 a5) w (List.replicate 16128 timer_op.update)
        = some r ∧
      r.1.time = 16128 ∧ r.1.near 255 = [⟨16383, a4⟩] ∧ r.1.t 0 63 = []) := by
  refine ⟨scenario_after_256 R w a1 a2 a3 a4 a5, ?_, ?_⟩
  · obtain ⟨r, r1, _, r3, _, _, r6, r7⟩ := scenario_lists R w a1 a2 a3 a4 a5 16127
    have p4 : place 16383 (16127 % 4294967296) = bucket_id.level 0 63 := by decide
    have p5 : place 16384 (16127 % 4294967296) = bucket_id.level 1 1 := by decide
    refine ⟨r, r1, r3, ?_, ?_⟩
    · apply r6 (bucket_id.level 0 63) ⟨16383, a4⟩ (by simp [scenario_nodes]) (by norm_num)
        p4.symm
      rw [forall_scenario_nodes]
      refine ⟨fun h _ => absurd h (by norm_num), fun h _ => absurd h (by norm_num),
        fun h _ => absurd h (by norm_num), fun _ _ => rfl, fun _ h => ?_⟩
      rw [show (⟨16384, a5⟩ : timer_node).expire = 16384 from rfl, p5] at h
      exact absurd h (by decide)
    · intro i
      apply r7 (bucket_id.near i)
      rw [forall_scenario_nodes]
      simp only [p4, p5, reduceCtorEq, and_false, not_false_eq_true, and_true, not_and]
      omega
  · obtain ⟨r, r1, _, r3, _, _, r6, r7⟩ := scenario_lists R w a1 a2 a3 a4 a5 16128
    have p4 : place 16383 (16128 % 4294967296) = bucket_id.near 255 := by decide
    have p5 : place 16384 (16128 % 4294967296) = bucket_id.level 1 1 := by decide
    refine ⟨r, r1, r3, ?_, ?_⟩
    · apply r6 (bucket_id.near 255) ⟨16383, a4⟩ (by simp [scenario_nodes]) (by norm_num)
        p4.symm
      rw [forall_scenario_nodes]
      refine ⟨fun h _ => absurd h (by norm_num), fun h _ => absurd h (by norm_num),
        fun h _ => absurd h (by norm_num), fun _ _ => rfl, fun _ h => ?_⟩
      rw [show (⟨16384, a5⟩ : timer_node).expire = 16384 from rfl, p5] at h
      exact absurd h (by decide)
    · apply r7 (bucket_id.level 0 63)
      rw [forall_scenario_nodes]
      refine ⟨fun h => absurd h.1 (by norm_num), fun h => absurd h.1 (by norm_num),
        fun h => absurd h.1 (by norm_num), fun h => ?_, fun h => ?_⟩
      · have h2 := h.2
        rw [show (⟨16383, a4⟩ : timer_node).expire = 16383 from rfl, p4] at h2
        exact absurd h2 (by decide)
      · have h2 := h.2
        rw [show (⟨16384, a5⟩ : timer_node).expire = 16384 from rfl, p5] at h2
        exact absurd h2 (by decide)

/-- C14 fails as stated: after the 256 steps the node with delay 16383 is
still in `t[0][63]` and every near bucket is empty, so it has not been moved
into a near bucket. -/
theorem C14_counterexample :
    ∃ r, timer_run
          ({ PTYPE_RESPONSE := 1, MESSAGE_TYPE_SHIFT := 56,
             skynet_context_push := fun w _ _ => (0, w) } : runtime Unit)
          (scenario_wheel ⟨1, 1⟩ ⟨2, 2⟩ ⟨3, 3⟩ ⟨4, 4⟩ ⟨5, 5⟩) ()
          (List.replicate 256 timer_op.update) = some r ∧
      r.2.2.length = 256 ∧ r.1.time = 256 ∧
      r.1.t 0 63 = [⟨16383, ⟨4, 4⟩⟩] ∧ ∀ i, r.1.near i = [] :=
  match scenario_after_256
      ({ PTYPE_RESPONSE := 1, MESSAGE_TYPE_SHIFT := 56,
         skynet_context_push := fun w _ _ => (0, w) } : runtime Unit)
      () ⟨1, 1⟩ ⟨2, 2⟩ ⟨3, 3⟩ ⟨4, 4⟩ ⟨5, 5⟩ with
  | ⟨r, h1, h2, h3, _, _, _, _, h8, _, h10⟩ => ⟨r, h1, h2, h3, h8, h10⟩

theorem C14_cascade_scenario_witness :
    ∃ r, timer_run
          ({ PTYPE_RESPONSE := 1, MESSAGE_TYPE_SHIFT := 56,
             skynet_context_push := fun w _ _ => (0, w) } : runtime Unit)
          (scenario_wheel ⟨1, 1⟩ ⟨2, 2⟩ ⟨3, 3⟩ ⟨4, 4⟩ ⟨5, 5⟩) ()
          (List.replicate 16128 timer_op.update) = some r ∧
      r.1.time = 16128 ∧ r.1.near 255 = [⟨16383, ⟨4, 4⟩⟩] ∧ r.1.t 0 63 = [] :=
  (C14_cascade_scenario
      ({ PTYPE_RESPONSE := 1, MESSAGE_TYPE_SHIFT := 56,
         skynet_context_push := fun w _ _ => (0, w) } : runtime Unit)
      () ⟨1, 1⟩ ⟨2, 2⟩ ⟨3, 3⟩ ⟨4, 4⟩ ⟨5, 5⟩).2.2

/-- C17. On every wheel reached from `timer_create_timer` by `timer_add` with
a delay in `1 .. 2 ^ 31 - 1` and by `timer_update` calls that returned, the
tick is a `uint32_t`, and every node in a bucket is pending (between 1 and
`2 ^ 31 - 1` ticks are left until its expiry `E`) and sits in the bucket that
the placement rule assigns to `E` at the current tick `T`: `near[E & 0xFF]`
when `E` and `T` agree on the high 24 bits, otherwise the level-`i` bucket
`t[i][(E >> (8 + 6 i)) & 0x3F]` of the highest 6-bit slice `i` at which they
differ; so a node is in no two buckets. On every wheel `timer_shift` returns
and keeps the number of copies of every node in the buckets `near[0..255]`,
`t[0..3][0..63]`: it neither drops nor duplicates nodes. -/
theorem C17_pending_in_rule_bucket (T : timer) (h : timer_reach T) :
    T.time < 4294967296 ∧
    (∀ b x, x ∈ bucket T b →
      b = spec_bucket x.expire T.time ∧
      0 < ticks_left x.expire T.time ∧ ticks_left x.expire T.time < 2147483648) ∧
    (∀ b b' x, x ∈ bucket T b → x ∈ bucket T b' → b = b') ∧
    (∀ (T0 : timer) (x : timer_node),
      ∃ T', timer_shift T0 = some T' ∧ wheel_count x T' = wheel_count x T0) := by
  obtain ⟨hT, hp⟩ := timer_reach_placed h
  refine ⟨hT, ?_, ?_, fun T0 x => wheel_count_timer_shift x T0⟩
  · intro b x hx
    obtain ⟨p1, p2, p3, p4⟩ := hp b x hx
    exact ⟨by rw [← place_eq_spec_bucket _ _ p2 hT]; exact p1, p3, p4⟩
  · intro b b' x hx hx'
    rw [(hp b x hx).1, (hp b' x hx').1]

theorem C17_pending_in_rule_bucket_witness :
    bucket_id.level 0 1
      = spec_bucket (⟨300, ⟨1, 1⟩⟩ : timer_node).expire
          (timer_add timer_create_timer ⟨1, 1⟩ 300).time :=
  ((C17_pending_in_rule_bucket (timer_add timer_create_timer ⟨1, 1⟩ 300)
      (timer_reach.add timer_create_timer ⟨1, 1⟩ 300 timer_reach.create
        (by decide) (by decide))).2.1
    (bucket_id.level 0 1) ⟨300, ⟨1, 1⟩⟩ (by decide)).1

end Skynet
